import Mathlib

/-!
GiNaC expression handles (`ginac/ex.h`): a shallow embedding.

The handle class `ex` holds one pointer `bp` to a reference-counted `basic`
object.  The embedding keeps the objects in an explicit heap, the handle
objects in an explicit table, and gives every inlined method of `ex.h` as a
function on that state.  An operation returns `none` where the C++ is
undefined (a dead handle, a pointer to no object).  The `GINAC_ASSERT` lines
are debugging checks whose macro is defined outside these sources and are not
part of the functions below; the `OBSCURE_CINT_HACK` blocks are not compiled.
Definitions come first, theorems afterwards.
-/

namespace GiNaC

/-! ## Data model -/

/-- Address of a `basic` object.  The null pointer is address `0`. -/
abbrev Ptr := Nat

/-- The class `ex`: its one data member is `basic *bp` (ex.h line 349). -/
structure ex where
  bp : Ptr
deriving DecidableEq, Repr

/-- Modelled from the spec: class `basic` is declared in basic.h, which is not
among the sources.  The spec gives a Node a dynamic type tag, an ordered
sequence of zero or more child operands (each itself a Handle) and a mutable
reference count that is a plain counter, so those are the three fields. -/
structure basic where
  tinfo : Nat
  seq : List ex
  refcount : Nat
deriving DecidableEq, Repr

/-- The free store: cell `p` holds the object at address `p`, or `none` when
no object lives there (never allocated, or deleted). -/
abbrev Heap := List (Option basic)

/-- Dereference `p`: the object `*p`, or `none` when `p` points to no object. -/
def Heap.lookup (h : Heap) (p : Ptr) : Option basic :=
  h.getD p none

/-- The virtual functions `basic::is_equal` and `basic::compare`, defined by
the node classes outside these sources.  They receive the two objects by
address and may read the whole store; `none` stands for a call that does not
return a value (it throws, or does not terminate). -/
structure basic_vtbl where
  is_equal : Heap → Ptr → Ptr → Option Bool
  compare : Heap → Ptr → Ptr → Option Int

/-! ## Comparison (ex.h lines 475-505) -/

/-- The method `ex::compare`: identical pointers give 0 at once, otherwise
the result is that of `bp->compare(*other.bp)`. -/
def ex.compare (v : basic_vtbl) (h : Heap) (self other : ex) : Option Int :=
  if self.bp = other.bp then some 0 else v.compare h self.bp other.bp

/-- The method `ex::is_equal`: identical pointers give true at once,
otherwise the result is that of `bp->is_equal(*other.bp)`. -/
def ex.is_equal (v : basic_vtbl) (h : Heap) (self other : ex) : Option Bool :=
  if self.bp = other.bp then some true else v.is_equal h self.bp other.bp

/-- The function `are_ex_trivially_equal`: pointer comparison only. -/
def are_ex_trivially_equal (e1 e2 : ex) : Bool :=
  decide (e1.bp = e2.bp)

/-- A node comparison by type tag and operand list, used as a sample
implementation of the virtual functions. -/
def sample_vtbl : basic_vtbl where
  is_equal := fun h p q =>
    match h.lookup p, h.lookup q with
    | some a, some b => some (decide (a.tinfo = b.tinfo ∧ a.seq = b.seq))
    | _, _ => none
  compare := fun h p q =>
    match h.lookup p, h.lookup q with
    | some a, some b => some (if a.tinfo = b.tinfo ∧ a.seq = b.seq then 0 else 1)
    | _, _ => none

/-- Node comparisons that never return a value. -/
def stuck_vtbl : basic_vtbl where
  is_equal := fun _ _ _ => none
  compare := fun _ _ _ => none

/-- A store with two distinct objects of the same type and operands. -/
def twin_heap : Heap :=
  [none, some ⟨7, [], 1⟩, some ⟨7, [], 1⟩]

/-! ## Program state -/

/-- The program state: the free store, the handle objects (`ex` variables,
temporaries, container elements outside nodes) indexed by an identifier, a
destroyed or not yet constructed handle being `none`, and the global
`_num0_p` (ex.h line 364), the canonical zero object. -/
structure State where
  heap : Heap
  vars : List (Option ex)
  num0_p : Ptr
deriving DecidableEq, Repr

/-- The handle object number `x`, when it is alive. -/
def State.var (s : State) (x : Nat) : Option ex :=
  s.vars.getD x none

/-- The statement `++bp->refcount`; `none` when `bp` points to no object. -/
def Heap.incref (h : Heap) (p : Ptr) : Option Heap :=
  match h.lookup p with
  | some n => some (h.set p (some { n with refcount := n.refcount + 1 }))
  | none => none

/-- Number of operand handles of one cell of the store that point to `p`. -/
def basic.refs (o : Option basic) (p : Ptr) : Nat :=
  match o with
  | some n => n.seq.count ⟨p⟩
  | none => 0

/-- Number of operand handles of one cell of the store. -/
def basic.arity (o : Option basic) : Nat :=
  match o with
  | some n => n.seq.length
  | none => 0

/-- Number of handle objects stored inside live nodes that point to `p`. -/
def Heap.embedded (h : Heap) (p : Ptr) : Nat :=
  (h.map fun o => basic.refs o p).sum

/-- Number of operand handles stored in the live nodes of the store. -/
def Heap.operands (h : Heap) : Nat :=
  (h.map basic.arity).sum

/-- Modelled from the spec: `if (--bp->refcount == 0) delete bp;` for every
handle of a work list.  The destructor of `basic` and of the node classes is
not among the sources; per the spec a Node is destroyed exactly when its count
reaches zero, at which point its children's counts are decremented
transitively, with an explicit work list.  Deleting a node therefore empties
its cell and queues the destructors of its operand handles.  Decrementing
through a pointer to no object is undefined, and a count that is already zero
has no handle left to give up (the counter would wrap): both are `none`, as is
running out of `fuel`. -/
def Heap.release : Nat → Heap → List ex → Option Heap
  | _, h, [] => some h
  | 0, _, _ :: _ => none
  | fuel + 1, h, e :: rest =>
    match h.lookup e.bp with
    | none => none
    | some n =>
      if n.refcount = 0 then none
      else if n.refcount - 1 = 0 then
        Heap.release fuel (h.set e.bp none) (n.seq ++ rest)
      else
        Heap.release fuel (h.set e.bp (some { n with refcount := n.refcount - 1 })) rest

/-- Steps that destroying the handles `work` can take at most: every step
destroys one handle, of the work list or of a node that is deleted. -/
def Heap.release_fuel (h : Heap) (work : List ex) : Nat :=
  work.length + h.operands

/-- The statement `if (--bp->refcount == 0) delete bp;` of `ex::~ex` and
`ex::operator=`, for the handle value `e`. -/
def Heap.unbind (h : Heap) (e : ex) : Option Heap :=
  Heap.release (h.release_fuel [e]) h [e]

/-! ## Construction, destruction, assignment, swap (ex.h lines 236-246, 361-410) -/

/-- The default constructor `ex::ex()`: `bp = _num0_p; ++bp->refcount`.  The
new handle object gets the next free identifier, `s.vars.length`. -/
def ex.ctor_default (s : State) : Option State :=
  match s.heap.incref s.num0_p with
  | some heap => some { s with heap := heap, vars := s.vars ++ [some ⟨s.num0_p⟩] }
  | none => none

/-- The destructor `ex::~ex()` of handle object `x`. -/
def ex.dtor (s : State) (x : Nat) : Option State :=
  match s.var x with
  | some e =>
    match s.heap.unbind e with
    | some heap => some { s with heap := heap, vars := s.vars.set x none }
    | none => none
  | none => none

/-- The copy constructor `ex::ex(const ex & other)`: `bp(other.bp)`, then
`++bp->refcount`.  The new handle object gets the identifier `s.vars.length`. -/
def ex.ctor_copy (s : State) (other : Nat) : Option State :=
  match s.var other with
  | some o =>
    match s.heap.incref o.bp with
    | some heap => some { s with heap := heap, vars := s.vars ++ [some o] }
    | none => none
  | none => none

/-- The assignment `ex::operator=` of handle object `other` to handle object
`x`: `++other.bp->refcount; if (--bp->refcount==0) delete bp; bp = other.bp`. -/
def ex.assign (s : State) (x other : Nat) : Option State :=
  match s.var x, s.var other with
  | some e, some o =>
    match s.heap.incref o.bp with
    | some heap1 =>
      match heap1.unbind e with
      | some heap2 => some { s with heap := heap2, vars := s.vars.set x (some o) }
      | none => none
    | none => none
  | _, _ => none

/-- The member `ex::swap`: `tmpbp = bp; bp = other.bp; other.bp = tmpbp`. -/
def ex.swap (s : State) (x other : Nat) : Option State :=
  match s.var x, s.var other with
  | some e, some o =>
    let tmpbp := e.bp
    let vars1 := s.vars.set x (some ⟨o.bp⟩)
    some { s with vars := vars1.set other (some ⟨tmpbp⟩) }
  | _, _ => none

/-- The free function `GiNaC::swap(ex & e1, ex & e2)`: `e1.swap(e2)`. -/
def swap (s : State) (e1 e2 : Nat) : Option State :=
  ex.swap s e1 e2

/-- The function object `ex_swap`: `lh.swap(rh)`. -/
def ex_swap (s : State) (lh rh : Nat) : Option State :=
  ex.swap s lh rh

/-- The specialisation `std::swap<GiNaC::ex>`: `a.swap(b)`. -/
def std_swap (s : State) (a b : Nat) : Option State :=
  ex.swap s a b

/-- The specialisation `std::iter_swap` for `vector<ex>` iterators, an
iterator being the identifier of the element it points to: `i1->swap(*i2)`. -/
def std_iter_swap (s : State) (i1 i2 : Nat) : Option State :=
  ex.swap s i1 i2

/-- The handle operations of claim C2. -/
inductive HandleOp where
  | ctor_default
  | ctor_copy (other : Nat)
  | assign (x other : Nat)
  | swap (x other : Nat)
  | dtor (x : Nat)
deriving DecidableEq, Repr

/-- One handle operation. -/
def HandleOp.step (s : State) : HandleOp → Option State
  | .ctor_default => ex.ctor_default s
  | .ctor_copy other => ex.ctor_copy s other
  | .assign x other => ex.assign s x other
  | .swap x other => ex.swap s x other
  | .dtor x => ex.dtor s x

/-- A sequence of handle operations, each on the state the previous one left. -/
def HandleOp.run (s : State) : List HandleOp → Option State
  | [] => some s
  | op :: ops =>
    match op.step s with
    | some s1 => HandleOp.run s1 ops
    | none => none

/-- Whether the handle objects an operation names are alive (using a
destroyed handle is undefined), and for the default constructor whether
`_num0_p` points to an object. -/
def HandleOp.enabled (s : State) : HandleOp → Prop
  | .ctor_default => s.heap.lookup s.num0_p ≠ none
  | .ctor_copy other => s.var other ≠ none
  | .assign x other => s.var x ≠ none ∧ s.var other ≠ none
  | .swap x other => s.var x ≠ none ∧ s.var other ≠ none
  | .dtor x => s.var x ≠ none

/-- Number of live handles bound to the object at `p`: handle objects of the
table and operand handles stored in live nodes. -/
def State.bound (s : State) (p : Ptr) : Nat :=
  s.vars.count (some ⟨p⟩) + s.heap.embedded p

/-- The reference-count accounting invariant: nothing lives at the null
address; every live node counts exactly the live handles bound to it, and has
at least one; no live handle is bound to an address without an object. -/
def State.Inv (s : State) : Prop :=
  s.heap.lookup 0 = none ∧
  (∀ p < s.heap.length,
    (∀ n ∈ s.heap.lookup p, n.refcount = s.bound p ∧ 0 < n.refcount) ∧
    (s.heap.lookup p = none → s.bound p = 0)) ∧
  (∀ o ∈ s.vars, ∀ e ∈ o, e.bp < s.heap.length) ∧
  (∀ o ∈ s.heap, ∀ n ∈ o, ∀ e ∈ n.seq, e.bp < s.heap.length)

instance (s : State) : Decidable s.Inv := by
  unfold State.Inv; infer_instance

/-- A sample state: the zero object at address 1 (bound by handles 0 and 1),
a leaf at 2 (bound by the node at 3 twice), a node at 3 with operands 2, 2
and 1 (bound by handle 2). -/
def sample_state : State where
  heap := [none, some ⟨0, [], 3⟩, some ⟨1, [], 2⟩, some ⟨2, [⟨2⟩, ⟨2⟩, ⟨1⟩], 1⟩]
  vars := [some ⟨1⟩, some ⟨1⟩, some ⟨3⟩]
  num0_p := 1

/-- The accounting invariant while handles are being destroyed: `ext p`
handle objects outside the store are bound to `p`, and the handles of `work`
are destroyed but their counts not yet decremented. -/
def Heap.Accounted (h : Heap) (ext : Ptr → Nat) (work : List ex) : Prop :=
  h.lookup 0 = none ∧
  ∀ p, (∀ n, h.lookup p = some n →
          n.refcount = ext p + h.embedded p + work.count ⟨p⟩ ∧ 0 < n.refcount) ∧
       (h.lookup p = none → ext p + h.embedded p + work.count ⟨p⟩ = 0)

/-- The operations of the witness of C2, on `sample_state`. -/
def sample_ops : List HandleOp :=
  [.ctor_default, .ctor_copy 2, .assign 2 0, .swap 0 4, .dtor 0, .dtor 4]

/-- The state `sample_ops` leaves: only the zero object survives. -/
def sample_final : State where
  heap := [none, some ⟨0, [], 3⟩, none, none]
  vars := [none, some ⟨1⟩, some ⟨1⟩, some ⟨1⟩, none]
  num0_p := 1

/-- Claim C3 as worded, for the assignment `x = other`: the only change to
the store is +1 on the count of the node of `other` and, when `x` was bound
to a different node, -1 on the count of that node. -/
def assign_as_claimed (s : State) (x other : Nat) : Option State :=
  match s.var x, s.var other with
  | some e, some o =>
    match s.heap.lookup o.bp, s.heap.lookup e.bp with
    | some n, some m =>
      let heap1 := s.heap.set o.bp (some { n with refcount := n.refcount + 1 })
      let heap2 := if e.bp = o.bp then heap1
        else heap1.set e.bp (some { m with refcount := m.refcount - 1 })
      some { s with heap := heap2, vars := s.vars.set x (some o) }
    | _, _ => none
  | _, _ => none

/-! ## Operands and iterators (ex.h lines 101-223, 252, 296) -/

/-- Modelled from the spec: the virtual `basic::nops`, defined by the node
classes outside these sources: the number of child operands of the node. -/
def basic.nops (h : Heap) (p : Ptr) : Option Nat :=
  (h.lookup p).map fun n => n.seq.length

/-- Modelled from the spec: the virtual `basic::op(i)`, defined by the node
classes outside these sources.  It returns operand `i` by value, so a new
handle object (identifier `s.vars.length`) is synthesized for it, bound to
the operand's node, whose count goes up by one as in the copy constructor.
The result is that handle's value and the new state; an index out of range
is undefined (`none`). -/
def basic.op (s : State) (p : Ptr) (i : Nat) : Option (ex × State) :=
  match s.heap.lookup p with
  | some n =>
    match n.seq[i]? with
    | some o =>
      match s.heap.incref o.bp with
      | some heap => some (o, { s with heap := heap, vars := s.vars ++ [some o] })
      | none => none
    | none => none
  | none => none

/-- The method `ex::nops`: `bp->nops()`. -/
def ex.nops (s : State) (self : ex) : Option Nat :=
  basic.nops s.heap self.bp

/-- The method `ex::op`: `bp->op(i)`. -/
def ex.op (s : State) (self : ex) (i : Nat) : Option (ex × State) :=
  basic.op s self.bp i

/-- Modulus of `size_t` arithmetic (64-bit `size_t`). -/
def SIZE_MOD : Nat := 2 ^ 64

/-- Conversion of a `ptrdiff_t` (or of an arithmetic result) to `size_t`. -/
def to_size_t (n : Int) : Nat :=
  (n % (SIZE_MOD : Int)).toNat

/-- Conversion of a `size_t` to `ptrdiff_t` (two's complement). -/
def to_ptrdiff_t (x : Nat) : Int :=
  if x % SIZE_MOD < 2 ^ 63 then ((x % SIZE_MOD : Nat) : Int)
  else ((x % SIZE_MOD : Nat) : Int) - (SIZE_MOD : Int)

/-- The class `ex::const_iterator`: members `const basic *bp` and `size_t i`. -/
structure ex.const_iterator where
  bp : Ptr
  i : Nat
deriving DecidableEq, Repr

namespace ex.const_iterator

/-- The member `operator==`: `bp == other.bp && i == other.i`. -/
def eq (self other : ex.const_iterator) : Bool :=
  decide (self.bp = other.bp) && decide (self.i = other.i)

/-- The member `operator!=`: `!(*this == other)`. -/
def ne (self other : ex.const_iterator) : Bool :=
  !(self.eq other)

/-- The member `operator*`: `bp->op(i)`. -/
def deref (s : State) (self : ex.const_iterator) : Option (ex × State) :=
  basic.op s self.bp self.i

/-- The pre-increment `operator++()`: `++i`. -/
def inc (self : ex.const_iterator) : ex.const_iterator :=
  { self with i := (self.i + 1) % SIZE_MOD }

/-- The member `operator+(difference_type n)`: `const_iterator(bp, i + n)`. -/
def add (self : ex.const_iterator) (n : Int) : ex.const_iterator :=
  ⟨self.bp, to_size_t ((self.i : Int) + n)⟩

/-- The friend `operator-(lhs, rhs)`: `lhs.i - rhs.i`, computed in `size_t`
and returned as `difference_type`. -/
def distance (lhs rhs : ex.const_iterator) : Int :=
  to_ptrdiff_t (to_size_t ((lhs.i : Int) - (rhs.i : Int)))

/-- The post-increment `operator++(int)`: `tmp = *this; ++i; return tmp`.
The pair is the value returned and the iterator afterwards. -/
def post_inc (self : ex.const_iterator) : ex.const_iterator × ex.const_iterator :=
  let tmp := self
  (tmp, { self with i := (self.i + 1) % SIZE_MOD })

/-- The member `operator+=(difference_type n)`: `i += n`. -/
def add_assign (self : ex.const_iterator) (n : Int) : ex.const_iterator :=
  { self with i := to_size_t ((self.i : Int) + n) }

/-- The friend `operator+(difference_type n, it)`:
`const_iterator(it.bp, it.i + n)`. -/
def add_left (n : Int) (it : ex.const_iterator) : ex.const_iterator :=
  ⟨it.bp, to_size_t ((it.i : Int) + n)⟩

/-- The pre-decrement `operator--()`: `--i`. -/
def dec (self : ex.const_iterator) : ex.const_iterator :=
  { self with i := to_size_t ((self.i : Int) - 1) }

/-- The post-decrement `operator--(int)`: `tmp = *this; --i; return tmp`.
The pair is the value returned and the iterator afterwards. -/
def post_dec (self : ex.const_iterator) : ex.const_iterator × ex.const_iterator :=
  let tmp := self
  (tmp, { self with i := to_size_t ((self.i : Int) - 1) })

/-- The member `operator-=(difference_type n)`: `i -= n`. -/
def sub_assign (self : ex.const_iterator) (n : Int) : ex.const_iterator :=
  { self with i := to_size_t ((self.i : Int) - n) }

/-- The member `operator-(difference_type n)`: `const_iterator(bp, i - n)`. -/
def sub (self : ex.const_iterator) (n : Int) : ex.const_iterator :=
  ⟨self.bp, to_size_t ((self.i : Int) - n)⟩

/-- The member `operator[](difference_type n)` (ex.h lines 213-215).  Its body
is empty: control reaches the end of a function that returns a reference
without a `return`, so no value is produced, whatever the arguments. -/
def index (_s : State) (_self : ex.const_iterator) (_n : Int) : Option (ex × State) :=
  none

end ex.const_iterator

/-- The method `ex::begin`: `const_iterator(bp, 0)`. -/
def ex.begin (self : ex) : ex.const_iterator :=
  ⟨self.bp, 0⟩

/-- The method `ex::end`: `const_iterator(bp, bp->nops())`. -/
def ex.end_ (s : State) (self : ex) : Option ex.const_iterator :=
  (basic.nops s.heap self.bp).map fun n => ⟨self.bp, n⟩

/-- A state with a node at address 4 whose operands are three different
objects, at 2, 3 and 1, and a handle (number 0) bound to it. -/
def triple_state : State where
  heap := [none, some ⟨0, [], 2⟩, some ⟨1, [], 1⟩, some ⟨1, [], 1⟩,
    some ⟨2, [⟨2⟩, ⟨3⟩, ⟨1⟩], 1⟩]
  vars := [some ⟨4⟩, some ⟨1⟩]
  num0_p := 1

/-- The traversal loop of a client,
`for (it = h.begin(); it != last; ++it) out.push_back(*it);`, with `last`
the value of `h.end()`: the values pushed and the state left.  `fuel` bounds
the number of times the loop condition is tested. -/
def ex.traverse : Nat → State → ex.const_iterator → ex.const_iterator →
    Option (List ex × State)
  | 0, _, _, _ => none
  | fuel + 1, s, it, last =>
    if it.ne last then
      match it.deref s with
      | some (v, s1) =>
        match ex.traverse fuel s1 it.inc last with
        | some (out, s2) => some (v :: out, s2)
        | none => none
      | none => none
    else some ([], s)

/-! ## Copy-on-write (ex.h lines 299-301, 319: declarations only) -/

/-- Write the object `c` into cell `p` of the store, a cell past the end being
added with empty cells before it. -/
def Heap.store (h : Heap) (p : Ptr) (c : basic) : Heap :=
  if p < h.length then h.set p (some c)
  else h ++ List.replicate (p - h.length) none ++ [some c]

/-- The statement `--bp->refcount` without a test for zero. -/
def Heap.decref (h : Heap) (p : Ptr) : Option Heap :=
  match h.lookup p with
  | some n =>
    if n.refcount = 0 then none
    else some (h.set p (some { n with refcount := n.refcount - 1 }))
  | none => none

/-- Copy construction of every handle of an operand list: `++bp->refcount`
for each of them in turn. -/
def Heap.incref_all (h : Heap) : List ex → Option Heap
  | [] => some h
  | e :: rest =>
    match h.incref e.bp with
    | some h1 => Heap.incref_all h1 rest
    | none => none

/-- Modelled from the spec: `ex::makewriteable` is declared in ex.h and defined
outside these sources.  Per the spec the reference count is checked; if it is
exactly one the node is kept, otherwise the node is cloned and the handle
rebound to the clone; the canonical singleton node is always cloned, even
when its count reads as one (it is never freed).  The clone, at the address
`fresh` the allocator returns (non-null, no object there), has the type and a
copy of the operand handles of the node, and count one for the handle; the
node loses the handle. -/
def ex.makewriteable (s : State) (x : Nat) (fresh : Ptr) : Option State :=
  match s.var x with
  | some e =>
    match s.heap.lookup e.bp with
    | some n =>
      if n.refcount = 1 ∧ e.bp ≠ s.num0_p then some s
      else if fresh = 0 ∨ s.heap.lookup fresh ≠ none then none
      else
        match s.heap.incref_all n.seq with
        | some heap1 =>
          match (heap1.store fresh { n with refcount := 1 }).decref e.bp with
          | some heap2 => some { s with heap := heap2, vars := s.vars.set x (some ⟨fresh⟩) }
          | none => none
        | none => none
    | none => none
  | none => none

/-- Modelled from the spec: `ex::let_op(i)` is declared in ex.h and defined
outside these sources: after `makewriteable()` it returns a reference to
operand `i` of the node the handle is now bound to, here the node's address
and the index.  An index out of range is undefined. -/
def ex.let_op (s : State) (x : Nat) (i : Nat) (fresh : Ptr) : Option (State × Ptr × Nat) :=
  match ex.makewriteable s x fresh with
  | some s1 =>
    match s1.var x with
    | some e =>
      match s1.heap.lookup e.bp with
      | some n => if i < n.seq.length then some (s1, e.bp, i) else none
      | none => none
    | none => none
  | none => none

/-- Modelled from the spec: the non-const `ex::operator[](size_t i)`, declared
in ex.h and defined outside these sources: the same write path as `let_op`. -/
def ex.index_mut (s : State) (x : Nat) (i : Nat) (fresh : Ptr) : Option (State × Ptr × Nat) :=
  ex.let_op s x i fresh

/-- The assignment `ex::operator=` applied to the operand handle stored in
node `p` at index `i` (the reference `let_op` returns), with the handle
object `other` as right-hand side:
`++other.bp->refcount; if (--bp->refcount==0) delete bp; bp = other.bp`. -/
def ex.assign_operand (s : State) (p : Ptr) (i : Nat) (other : Nat) : Option State :=
  match s.var other, s.heap.lookup p with
  | some o, some n =>
    match n.seq[i]? with
    | some old =>
      match s.heap.incref o.bp with
      | some heap1 =>
        match heap1.unbind old with
        | some heap2 =>
          match heap2.lookup p with
          | some n2 =>
            some { s with heap := heap2.set p (some { n2 with seq := n2.seq.set i o }) }
          | none => none
        | none => none
      | none => none
    | none => none
  | _, _ => none

/-- The statement `x.let_op(i) = other;`: a write of operand `i` through
handle `x`. -/
def ex.write_op (s : State) (x : Nat) (i : Nat) (other : Nat) (fresh : Ptr) : Option State :=
  match ex.let_op s x i fresh with
  | some (s1, p, j) => ex.assign_operand s1 p j other
  | none => none

/-- The statement `x[i] = other;` through the non-const `operator[]`. -/
def ex.write_index (s : State) (x : Nat) (i : Nat) (other : Nat) (fresh : Ptr) :
    Option State :=
  match ex.index_mut s x i fresh with
  | some (s1, p, j) => ex.assign_operand s1 p j other
  | none => none

/-- The statement `bp = other.bp` on the operand handle stored in node `p` at
index `i`: the node with that operand replaced by `o`. -/
def Heap.set_operand (h : Heap) (p : Ptr) (i : Nat) (o : ex) : Heap :=
  match h.lookup p with
  | some k => h.set p (some { k with seq := k.seq.set i o })
  | none => h

/-- A state for copy-on-write: the zero object at 1 with one handle (number
2), leaves at 2 and 3, a node at 4 with operands 2 and 3 bound by handles 0
and 1, and a handle (number 3) on the leaf at 3. -/
def cow_state : State where
  heap := [none, some ⟨0, [], 1⟩, some ⟨1, [], 1⟩, some ⟨1, [], 2⟩,
    some ⟨2, [⟨2⟩, ⟨3⟩], 2⟩]
  vars := [some ⟨4⟩, some ⟨4⟩, some ⟨1⟩, some ⟨3⟩]
  num0_p := 1

/-- The state `cow_state` after handle 0 was destroyed: handle 1 is the only
handle of the node at 4. -/
def cow_unique_state : State where
  heap := [none, some ⟨0, [], 1⟩, some ⟨1, [], 1⟩, some ⟨1, [], 2⟩,
    some ⟨2, [⟨2⟩, ⟨3⟩], 1⟩]
  vars := [none, some ⟨4⟩, some ⟨1⟩, some ⟨3⟩]
  num0_p := 1

/-! ## Zero test (ex.h line 306) -/

/-- The method `ex::is_zero`: `is_equal(_ex0)`.  The global handle `_ex0` is
defined outside these sources and is taken as the parameter `_ex0`. -/
def ex.is_zero (v : basic_vtbl) (h : Heap) (_ex0 : ex) (self : ex) : Option Bool :=
  ex.is_equal v h self _ex0

/-! ## Type queries and downcast (ex.h lines 681-708) -/

/-- Modelled from the spec: the templates `is_a<T>(const basic &)` and
`is_exactly_a<T>(const basic &)` belong to basic.h, which is not among the
sources.  Per the spec the hierarchical check asks whether the node belongs to
type `T` or any of `T`'s recognized descendant kinds, the exact check whether
it belongs to exactly `T`.  A class is named by its type tag; `derives k T`
says that class `k` is `T` or a descendant of `T`. -/
structure class_hierarchy where
  derives : Nat → Nat → Bool

/-- Modelled from the spec: `is_a<T>(const basic &)`, the hierarchical check. -/
def basic.is_a (c : class_hierarchy) (T : Nat) (obj : basic) : Bool :=
  c.derives obj.tinfo T

/-- Modelled from the spec: `is_exactly_a<T>(const basic &)`, the exact check. -/
def basic.is_exactly_a (T : Nat) (obj : basic) : Bool :=
  decide (obj.tinfo = T)

/-- The template `is_a<T>(const ex &obj)`: `is_a<T>(*obj.bp)`. -/
def is_a (c : class_hierarchy) (T : Nat) (h : Heap) (obj : ex) : Option Bool :=
  (h.lookup obj.bp).map (basic.is_a c T)

/-- The template `is_exactly_a<T>(const ex &obj)`: `is_exactly_a<T>(*obj.bp)`. -/
def is_exactly_a (T : Nat) (h : Heap) (obj : ex) : Option Bool :=
  (h.lookup obj.bp).map (basic.is_exactly_a T)

/-- Modelled from the spec: the macro `GINAC_ASSERT` is defined outside these
sources.  Per the spec a debug-oriented or safety-first build checks a
precondition and reports its violation rather than proceed, and the fast path
does not check.  The value says whether execution continues past
`GINAC_ASSERT(cond)` in a build that checks (`checking`) or does not. -/
def GINAC_ASSERT (checking : Bool) (cond : Bool) : Bool :=
  !checking || cond

/-- How a call ends: with a value, at a failed `GINAC_ASSERT`, or undefined. -/
inductive Outcome (α : Type) where
  | value (a : α)
  | assertion_failed
  | undefined
deriving DecidableEq, Repr

/-- A reference `const T &`: the class `T` and the address of the object. -/
structure typed_ref where
  T : Nat
  addr : Ptr
deriving DecidableEq, Repr

/-- The template `ex_to<T>(const ex &e)`: `GINAC_ASSERT(is_a<T>(e))`, then
`return static_cast<const T &>(*e.bp)`.  The result is the reference and the
state, which no statement of the body changes; the cast of an object that is
not a `T` is undefined. -/
def ex_to (checking : Bool) (c : class_hierarchy) (T : Nat) (s : State) (e : ex) :
    Outcome (typed_ref × State) :=
  match is_a c T s.heap e with
  | none => .undefined
  | some ok =>
    if GINAC_ASSERT checking ok then
      if ok then .value (⟨T, e.bp⟩, s) else .undefined
    else .assertion_failed

/-- A hierarchy for the examples: class 2 derives from class 1, and every
class from itself. -/
def sample_hierarchy : class_hierarchy where
  derives := fun k T => decide (k = T) || (decide (k = 2) && decide (T = 1))

/-! ## The other constructors and the null checks (ex.h lines 236-246, 361-493) -/

/-- The constructors `ex(const basic &)`, `ex(int)`, `ex(unsigned int)`,
`ex(long)`, `ex(unsigned long)`, `ex(double)` and `ex(const std::string &,
const ex &)`: each only calls its `construct_from_*` helper, which is declared
in ex.h and defined outside these sources.  The helper is the parameter
`helper`: from the state it gives the store it leaves and the pointer it
stores in `bp`, or `none` when it throws.  The new handle object gets the
identifier `s.vars.length`. -/
def ex.ctor_from (helper : State → Option (Heap × Ptr)) (s : State) : Option State :=
  match helper s with
  | some (heap, p) => some { s with heap := heap, vars := s.vars ++ [some ⟨p⟩] }
  | none => none

/-- The handle operations of claim C13: those of `HandleOp` and the
constructors that go through a `construct_from_*` helper. -/
inductive ExOp where
  | handle (op : HandleOp)
  | ctor_from (helper : State → Option (Heap × Ptr))

/-- One operation of `ExOp`. -/
def ExOp.step (s : State) : ExOp → Option State
  | .handle op => op.step s
  | .ctor_from helper => ex.ctor_from helper s

/-- A sequence of operations of `ExOp`. -/
def ExOp.run (s : State) : List ExOp → Option State
  | [] => some s
  | op :: ops =>
    match op.step s with
    | some s1 => ExOp.run s1 ops
    | none => none

/-- The operand handles stored in the live nodes of the store hold no null
pointer. -/
def Heap.NonNull (h : Heap) : Prop :=
  ∀ o ∈ h, ∀ n ∈ o, ∀ e ∈ n.seq, e.bp ≠ 0

instance (h : Heap) : Decidable h.NonNull := by
  unfold Heap.NonNull; infer_instance

/-- The assumption of claim C13 on the helpers: a `construct_from_*` helper
binds a node, that is, the pointer it stores is not null, and the handles
inside the nodes of the store it leaves (which it makes with the constructors
of `ex`) hold no null pointer when those of the store it found held none. -/
def ExOp.binds_node : ExOp → Prop
  | .handle _ => True
  | .ctor_from helper =>
    ∀ s heap p, helper s = some (heap, p) → p ≠ 0 ∧ (s.heap.NonNull → heap.NonNull)

/-- The conditions `X` of the line `GINAC_ASSERT(bp!=0)` of `ex::~ex` (line
377) for every handle that `Heap.release` destroys on the work list `work`,
in the order of the calls: the handles of the list and, when a node is
deleted, its operand handles, whose destructors the node's destructor runs. -/
def Heap.release_checks : Nat → Heap → List ex → List Bool
  | _, _, [] => []
  | 0, _, _ :: _ => []
  | fuel + 1, h, e :: rest =>
    decide (e.bp ≠ 0) ::
      match h.lookup e.bp with
      | none => []
      | some n =>
        if n.refcount = 0 then []
        else if n.refcount - 1 = 0 then
          Heap.release_checks fuel (h.set e.bp none) (n.seq ++ rest)
        else
          Heap.release_checks fuel
            (h.set e.bp (some { n with refcount := n.refcount - 1 })) rest

/-- The conditions `X` of the lines `GINAC_ASSERT(bp!=0)` and
`GINAC_ASSERT(other.bp!=0)` that running an operation evaluates, on the
handles it is applied to (line 366 after `bp = _num0_p`, line 386 after
`bp(other.bp)`, lines 397 and 399, lines 238 and 240, line 377) and, where the
operation deletes a node (`delete bp` in `ex::~ex` and `ex::operator=`), on
every operand handle the deletion destroys (line 377 again).  In the
assignment the first handle of the work list is `*this`, which is not
destroyed: lines 397 and 399 are its checks. -/
def HandleOp.null_checks (s : State) : HandleOp → List Bool
  | .ctor_default => [decide (s.num0_p ≠ 0)]
  | .ctor_copy other =>
    match s.var other with
    | some o => [decide (o.bp ≠ 0)]
    | none => []
  | .assign x other =>
    match s.var x, s.var other with
    | some e, some o =>
      [decide (e.bp ≠ 0), decide (o.bp ≠ 0)] ++
        match s.heap.incref o.bp with
        | some heap1 => (Heap.release_checks (heap1.release_fuel [e]) heap1 [e]).tail
        | none => []
    | _, _ => []
  | .swap x other =>
    match s.var x, s.var other with
    | some e, some o => [decide (e.bp ≠ 0), decide (o.bp ≠ 0)]
    | _, _ => []
  | .dtor x =>
    match s.var x with
    | some e => Heap.release_checks (s.heap.release_fuel [e]) s.heap [e]
    | none => []

/-- The conditions of `GINAC_ASSERT(bp!=0)` and `GINAC_ASSERT(other.bp!=0)`
in `ex::compare` (lines 478-479) and `ex::is_equal` (lines 488-489). -/
def ex.compare_null_checks (self other : ex) : List Bool :=
  [decide (self.bp ≠ 0), decide (other.bp ≠ 0)]

/-- A live handle: a handle object of the table, or an operand handle stored
in a live node. -/
def State.live_handle (s : State) (e : ex) : Prop :=
  (∃ x, s.var x = some e) ∨ ∃ p n, s.heap.lookup p = some n ∧ e ∈ n.seq

/-- No live handle holds the null pointer, be it a handle object of the table
or an operand handle inside a live node, and `_num0_p` is initialised. -/
def State.NonNull (s : State) : Prop :=
  s.num0_p ≠ 0 ∧ (∀ o ∈ s.vars, ∀ e ∈ o, e.bp ≠ 0) ∧ s.heap.NonNull

instance (s : State) : Decidable s.NonNull := by
  unfold State.NonNull; infer_instance

/-- A `construct_from_*` helper for the examples: it binds the object at
address `p`, whose count it increments. -/
def sample_helper (p : Ptr) (s : State) : Option (Heap × Ptr) :=
  match s.heap.incref p with
  | some heap => some (heap, p)
  | none => none

/-- The operations of the witness of C13, on `sample_state`. -/
def sample_ex_ops : List ExOp :=
  [.ctor_from (sample_helper 2), .handle .ctor_default, .handle (.ctor_copy 3),
    .handle (.assign 0 3), .handle (.swap 1 4), .handle (.dtor 2)]

/-- The state `sample_ex_ops` leaves. -/
def sample_ex_final : State where
  heap := [none, some ⟨0, [], 2⟩, some ⟨1, [], 3⟩, none]
  vars := [some ⟨2⟩, some ⟨1⟩, none, some ⟨2⟩, some ⟨1⟩, some ⟨2⟩]
  num0_p := 1

/-! ## Container initialisation (container_suppl.h) -/

/-- The class `symbol`, declared outside these sources: a symbol is named by
its serial number. -/
structure symbol where
  serial : Nat
deriving DecidableEq, Repr

/-- A value of type `double`, given by its bit pattern. -/
structure double where
  bits : Nat
deriving DecidableEq, Repr

/-- The conversions to the element type `T` that `push_back(x)` and `T(x)`
apply to a value that is not a `T`: the constructors of `T` from `int`,
`unsigned int`, `long`, `unsigned long`, `double` and `symbol`, which are
defined with `T`, outside these sources. -/
structure conversions (T : Type) where
  of_int : Int → T
  of_uint : Nat → T
  of_long : Int → T
  of_ulong : Nat → T
  of_double : double → T
  of_symbol : symbol → T

/-- The containers of type `STLT` (sequences of `T`) by identifier, a
destroyed one being `none`; a reference `STLT &` is an identifier. -/
abbrev Sequences (T : Type) := List (Option (List T))

/-- The sequence a reference designates, when it is alive. -/
def Sequences.lookup {T : Type} (m : Sequences T) (r : Nat) : Option (List T) :=
  m.getD r none

/-- The call `stlt.push_back(x)` through the reference `r`: `x` is appended at
the end of the sequence; through a reference to a destroyed sequence it is
undefined. -/
def push_back {T : Type} (m : Sequences T) (r : Nat) (x : T) : Option (Sequences T) :=
  match m.lookup r with
  | some l => some (m.set r (some (l ++ [x])))
  | none => none

/-- The class `container_init<T, STLT>`: its one member is `STLT & stlt`. -/
structure container_init where
  stlt : Nat
deriving DecidableEq, Repr

namespace container_init

/-- The constructor `container_init(STLT & s) : stlt(s)`. -/
def init (s : Nat) : container_init :=
  ⟨s⟩

/-- The member `operator,(const T & x)`: `stlt.push_back(x)`, then
`return container_init<T, STLT>(stlt)`. -/
def comma {T : Type} (self : container_init) (m : Sequences T) (x : T) :
    Option (Sequences T × container_init) :=
  match push_back m self.stlt x with
  | some m1 => some (m1, init self.stlt)
  | none => none

/-- The member `operator,(int x)`: `stlt.push_back(x)`, which converts `x` to
the element type. -/
def comma_int {T : Type} (c : conversions T) (self : container_init) (m : Sequences T)
    (x : Int) : Option (Sequences T × container_init) :=
  match push_back m self.stlt (c.of_int x) with
  | some m1 => some (m1, init self.stlt)
  | none => none

/-- The member `operator,(unsigned int x)`: `stlt.push_back(x)`. -/
def comma_uint {T : Type} (c : conversions T) (self : container_init) (m : Sequences T)
    (x : Nat) : Option (Sequences T × container_init) :=
  match push_back m self.stlt (c.of_uint x) with
  | some m1 => some (m1, init self.stlt)
  | none => none

/-- The member `operator,(long x)`: `stlt.push_back(x)`. -/
def comma_long {T : Type} (c : conversions T) (self : container_init) (m : Sequences T)
    (x : Int) : Option (Sequences T × container_init) :=
  match push_back m self.stlt (c.of_long x) with
  | some m1 => some (m1, init self.stlt)
  | none => none

/-- The member `operator,(unsigned long x)`: `stlt.push_back(x)`. -/
def comma_ulong {T : Type} (c : conversions T) (self : container_init) (m : Sequences T)
    (x : Nat) : Option (Sequences T × container_init) :=
  match push_back m self.stlt (c.of_ulong x) with
  | some m1 => some (m1, init self.stlt)
  | none => none

/-- The member `operator,(double x)`: `stlt.push_back(x)`. -/
def comma_double {T : Type} (c : conversions T) (self : container_init) (m : Sequences T)
    (x : double) : Option (Sequences T × container_init) :=
  match push_back m self.stlt (c.of_double x) with
  | some m1 => some (m1, init self.stlt)
  | none => none

/-- The member `operator,(const symbol & x)`: `stlt.push_back(T(x))`. -/
def comma_symbol {T : Type} (c : conversions T) (self : container_init) (m : Sequences T)
    (x : symbol) : Option (Sequences T × container_init) :=
  match push_back m self.stlt (c.of_symbol x) with
  | some m1 => some (m1, init self.stlt)
  | none => none

end container_init

/-- A value of one of the kinds the builder has an `operator,` for. -/
inductive literal (T : Type) where
  | elem (x : T)
  | int (x : Int)
  | uint (x : Nat)
  | long (x : Int)
  | ulong (x : Nat)
  | dbl (x : double)
  | sym (x : symbol)

/-- The element `T(v)` a value of any kind stands for. -/
def literal.convert {T : Type} (c : conversions T) : literal T → T
  | .elem x => x
  | .int x => c.of_int x
  | .uint x => c.of_uint x
  | .long x => c.of_long x
  | .ulong x => c.of_ulong x
  | .dbl x => c.of_double x
  | .sym x => c.of_symbol x

/-- The expression `(b, v)`: overload resolution selects the `operator,` of
the kind of `v`. -/
def container_init.comma_any {T : Type} (c : conversions T) (self : container_init)
    (m : Sequences T) : literal T → Option (Sequences T × container_init)
  | .elem x => self.comma m x
  | .int x => self.comma_int c m x
  | .uint x => self.comma_uint c m x
  | .long x => self.comma_long c m x
  | .ulong x => self.comma_ulong c m x
  | .dbl x => self.comma_double c m x
  | .sym x => self.comma_symbol c m x

/-- The chained expression `(b, v1, v2, ..., vn)`: each comma applies to the
builder the previous one returned. -/
def container_init.chain {T : Type} (c : conversions T) (m : Sequences T)
    (b : container_init) : List (literal T) → Option (Sequences T × container_init)
  | [] => some (m, b)
  | v :: vs =>
    match b.comma_any c m v with
    | some (m1, b1) => container_init.chain c m1 b1 vs
    | none => none

/-- Claim C11, the direct way: `push_back` called on the sequence for each
element in order. -/
def push_back_all {T : Type} (m : Sequences T) (r : Nat) : List T → Option (Sequences T)
  | [] => some m
  | x :: xs =>
    match push_back m r x with
    | some m1 => push_back_all m1 r xs
    | none => none

/-- Conversions to integers for the examples: a double by its bits, a symbol
by its serial number. -/
def sample_conversions : conversions Int where
  of_int := fun x => x
  of_uint := fun x => (x : Int)
  of_long := fun x => x
  of_ulong := fun x => (x : Int)
  of_double := fun x => (x.bits : Int)
  of_symbol := fun x => (x.serial : Int)

/-! ## The polynomial check (check/check_is_polynomial.cpp) -/

/-- Modelled from the spec: the value a handle denotes, as a tree of the node
kinds the spec names: numbers, symbols, sums, products, powers and function
applications.  The node classes are not among the sources. -/
inductive expr where
  | numeric (n : Int)
  | symbol (x : symbol)
  | add (a b : expr)
  | mul (a b : expr)
  | power (basis exponent : expr)
  | function (name : String) (arg : expr)
deriving DecidableEq, Repr

/-- Modelled from the spec: whether an expression depends on the symbol `s`
(the spec's "independent of `s`" is its negation); `has` is not among the
sources. -/
def expr.has (s : GiNaC.symbol) : expr → Bool
  | .numeric _ => false
  | .symbol x => decide (x = s)
  | .add a b => a.has s || b.has s
  | .mul a b => a.has s || b.has s
  | .power b e => b.has s || e.has s
  | .function _ a => a.has s

/-- Modelled from the spec: the predicate "this expression is polynomial in
variable V", `is_polynomial`, is not among the sources (only its test is).
Numbers and symbols are polynomial; a sum or product is when its operands
are; a power is when it is independent of the variable or its basis is
polynomial and its exponent a non-negative integer; a function application
is when it is independent of the variable, as `sin(x)` is of `s` in the
spec's scenario. -/
def expr.is_polynomial (s : GiNaC.symbol) : expr → Bool
  | .numeric _ => true
  | .symbol _ => true
  | .add a b => a.is_polynomial s && b.is_polynomial s
  | .mul a b => a.is_polynomial s && b.is_polynomial s
  | .power b e =>
    (!(b.has s) && !(e.has s)) ||
      (b.is_polynomial s && (match e with
        | .numeric n => decide (0 ≤ n)
        | _ => false))
  | .function _ a => !(a.has s)

/-- The function `do_test` of the check: it returns when `e.is_polynomial(s)`
holds and throws `std::logic_error` otherwise (`none`). -/
def do_test (e : expr) (s : symbol) : Option Unit :=
  if e.is_polynomial s then some () else none

/-- The expression `e = sin(x) + 2*s` of the check. -/
def check_e (x s : symbol) : expr :=
  .add (.function "sin" (.symbol x)) (.mul (.numeric 2) (.symbol s))

/-- The expression `g = pow(2, x) + 2*s` of the check. -/
def check_g (x s : symbol) : expr :=
  .add (.power (.numeric 2) (.symbol x)) (.mul (.numeric 2) (.symbol s))

/-- The function `main` of the check, for the two symbols it declares:
`do_test(e, s); do_test(g, s); return 0`. -/
def check_main (x s : symbol) : Option Int :=
  match do_test (check_e x s) s with
  | some _ =>
    match do_test (check_g x s) s with
    | some _ => some 0
    | none => none
  | none => none

/-- A sum of terms, built with `+` from left to right; the empty sum is 0. -/
def expr.sum : List expr → expr
  | [] => .numeric 0
  | t :: rest => rest.foldl expr.add t

/-! ## Iterator order (ex.h lines 119-137) -/

namespace ex.const_iterator

/-- The member `operator<`: `i < other.i`, a comparison of two `size_t`. -/
def lt (self other : ex.const_iterator) : Bool :=
  decide (self.i < other.i)

/-- The member `operator>`: `other < *this`. -/
def gt (self other : ex.const_iterator) : Bool :=
  other.lt self

/-- The member `operator<=`: `!(other < *this)`. -/
def le (self other : ex.const_iterator) : Bool :=
  !(other.lt self)

/-- The member `operator>=`: `!(*this < other)`. -/
def ge (self other : ex.const_iterator) : Bool :=
  !(self.lt other)

end ex.const_iterator

/-! ## Operand access in a build (ex.h lines 139-144, 296) -/

/-- The virtual `basic::op` as the node classes define it; they are outside
these sources, so it is a parameter.  `op checking s p i` is how the call
`bp->op(i)` on the node at `p` ends in a build that checks (`checking`) or
does not: with the handle synthesized and the new state, at a failed
`GINAC_ASSERT`, or undefined. -/
structure node_vtbl where
  op : Bool → State → Ptr → Nat → Outcome (ex × State)

/-- The method `ex::op` in a build: `return bp->op(i)`.  The body holds no
`GINAC_ASSERT` and no test of `i`, so the build enters only through the node's
`op`. -/
def ex.op_build (v : node_vtbl) (checking : Bool) (s : State) (self : ex) (i : Nat) :
    Outcome (ex × State) :=
  v.op checking s self.bp i

/-- The member `const_iterator::operator*` in a build: `return bp->op(i)`,
again with no `GINAC_ASSERT` and no test of `i`. -/
def ex.const_iterator.deref_build (v : node_vtbl) (checking : Bool) (s : State)
    (self : ex.const_iterator) : Outcome (ex × State) :=
  v.op checking s self.bp self.i

/-- Node classes whose `op` reads the operand list with no test of the index
in any build: `basic.op`, undefined out of range. -/
def fast_nodes : node_vtbl where
  op := fun _ s p i =>
    match basic.op s p i with
    | some r => .value r
    | none => .undefined

/-- Modelled from the spec: node classes whose `op` follows the spec's rule
for precondition violations, an out-of-range operand index being undefined in
the fast path and checked and reported in a checking build:
`GINAC_ASSERT(i < nops())`, then the operand. -/
def asserting_nodes : node_vtbl where
  op := fun checking s p i =>
    match basic.nops s.heap p with
    | none => .undefined
    | some n =>
      if GINAC_ASSERT checking (decide (i < n)) then
        match basic.op s p i with
        | some r => .value r
        | none => .undefined
      else .assertion_failed

/-! ## Theorems -/

/-- C1: whenever `are_ex_trivially_equal a b` is true, `a.is_equal b` returns
true and `a.compare b` returns 0, whatever the node classes implement as
comparison, even one that never returns: the virtual function is not
called.  The converse fails: handles on two distinct nodes can be `is_equal`
while the identity probe says false. -/
theorem C1_identity_fast_path_sound :
    (∀ (v : basic_vtbl) (h : Heap) (a b : ex), are_ex_trivially_equal a b = true →
      ex.is_equal v h a b = some true ∧ ex.compare v h a b = some 0) ∧
    (∃ (v : basic_vtbl) (h : Heap) (a b : ex), a.bp ≠ b.bp ∧
      are_ex_trivially_equal a b = false ∧ ex.is_equal v h a b = some true) := by
  refine ⟨?_, sample_vtbl, twin_heap, ⟨1⟩, ⟨2⟩, by decide, by decide, by decide⟩
  intro v h a b hab
  have hbp : a.bp = b.bp := by simpa [are_ex_trivially_equal] using hab
  simp [ex.is_equal, ex.compare, hbp]

/-- Witness of C1: two handles on the object at address 1 of `twin_heap`,
with node comparisons that never return. -/
theorem C1_identity_fast_path_sound_witness :
    are_ex_trivially_equal ⟨1⟩ ⟨1⟩ = true ∧
    ex.is_equal stuck_vtbl twin_heap ⟨1⟩ ⟨1⟩ = some true ∧
    ex.compare stuck_vtbl twin_heap ⟨1⟩ ⟨1⟩ = some 0 :=
  ⟨rfl, C1_identity_fast_path_sound.1 stuck_vtbl twin_heap ⟨1⟩ ⟨1⟩ rfl⟩

/-! ### The store -/

theorem Heap.lookup_set (h : Heap) (p q : Ptr) (x : Option basic) :
    Heap.lookup (h.set p x) q = if p = q ∧ p < h.length then x else h.lookup q := by
  simp only [Heap.lookup, List.getD_eq_getElem?_getD, List.getElem?_set]
  by_cases hpq : p = q
  · subst hpq
    by_cases hlt : p < h.length
    · simp [hlt]
    · simp [hlt, List.getElem?_eq_none (not_lt.mp hlt)]
  · simp [hpq]

theorem Heap.lookup_lt (h : Heap) (p : Ptr) (n : basic) (hn : h.lookup p = some n) :
    p < h.length := by
  by_contra hge
  simp [Heap.lookup, List.getD_eq_getElem?_getD, List.getElem?_eq_none (not_lt.mp hge)] at hn

theorem Heap.lookup_mem (h : Heap) (p : Ptr) (n : basic) (hn : h.lookup p = some n) :
    some n ∈ h := by
  have hlt := Heap.lookup_lt h p n hn
  simp only [Heap.lookup, List.getD_eq_getElem?_getD, List.getElem?_eq_getElem hlt,
    Option.getD_some] at hn
  exact hn ▸ List.getElem_mem hlt

theorem sum_map_set (f : Option basic → Nat) (h : Heap) (p : Ptr) (x : Option basic)
    (hp : p < h.length) :
    ((h.set p x).map f).sum + f (h.lookup p) = (h.map f).sum + f x := by
  induction h generalizing p with
  | nil => simp at hp
  | cons a t ih =>
    cases p with
    | zero => simp [Heap.lookup]; omega
    | succ p =>
      have := ih p (by simpa using hp)
      simp only [Heap.lookup, List.getD_eq_getElem?_getD, List.set_cons_succ, List.map_cons,
        List.sum_cons, List.getElem?_cons_succ] at this ⊢
      omega

theorem Heap.embedded_set (h : Heap) (p q : Ptr) (x : Option basic) (hp : p < h.length) :
    Heap.embedded (h.set p x) q + basic.refs (h.lookup p) q
      = h.embedded q + basic.refs x q :=
  sum_map_set (fun o => basic.refs o q) h p x hp

theorem Heap.operands_set (h : Heap) (p : Ptr) (x : Option basic) (hp : p < h.length) :
    Heap.operands (h.set p x) + basic.arity (h.lookup p) = h.operands + basic.arity x :=
  sum_map_set basic.arity h p x hp

/-! ### Destroying handles -/

theorem count_ex_cons (e : ex) (rest : List ex) (p : Ptr) :
    (e :: rest).count ⟨p⟩ = rest.count ⟨p⟩ + if e.bp = p then 1 else 0 := by
  rw [List.count_cons]
  have hbeq : ((e == (⟨p⟩ : ex)) = true) ↔ e.bp = p := by
    rw [beq_iff_eq]; cases e; simp
  simp only [hbeq]

theorem Heap.release_accounted (ext : Ptr → Nat) :
    ∀ (fuel : Nat) (h : Heap) (work : List ex), h.Accounted ext work →
      work.length + h.operands ≤ fuel →
      ∃ h', Heap.release fuel h work = some h' ∧ h'.Accounted ext [] ∧
        h'.length = h.length ∧
        (∀ p n', h'.lookup p = some n' →
          ∃ n, h.lookup p = some n ∧ n'.tinfo = n.tinfo ∧ n'.seq = n.seq) := by
  intro fuel
  induction fuel with
  | zero =>
    intro h work hacc hfuel
    cases work with
    | nil => exact ⟨h, rfl, hacc, rfl, fun p n' hn => ⟨n', hn, rfl, rfl⟩⟩
    | cons e rest => simp at hfuel
  | succ fuel ih =>
    intro h work hacc hfuel
    cases work with
    | nil => exact ⟨h, rfl, hacc, rfl, fun p n' hn => ⟨n', hn, rfl, rfl⟩⟩
    | cons e rest =>
      obtain ⟨hnull, hJ⟩ := hacc
      have he := hJ e.bp
      rw [count_ex_cons] at he
      simp only [if_true] at he
      cases hl : h.lookup e.bp with
      | none => have := he.2 hl; omega
      | some n =>
        obtain ⟨hrc, hpos⟩ := he.1 n hl
        have hlt : e.bp < h.length := Heap.lookup_lt h e.bp n hl
        have hne : n.refcount ≠ 0 := by omega
        simp only [Heap.release, hl, hne, if_false]
        by_cases hlast : n.refcount - 1 = 0
        · simp only [hlast, if_true]
          have hops := Heap.operands_set h e.bp none hlt
          simp only [hl, basic.arity] at hops
          have hacc1 : Heap.Accounted (h.set e.bp none) ext (n.seq ++ rest) := by
            refine ⟨?_, fun p => ?_⟩
            · rw [Heap.lookup_set]; split_ifs <;> simp [hnull]
            · have hemb := Heap.embedded_set h e.bp p none hlt
              simp only [hl, basic.refs] at hemb
              have hp := hJ p
              rw [count_ex_cons] at hp
              rw [Heap.lookup_set, List.count_append]
              by_cases hpe : e.bp = p
              · subst hpe
                simp only [hlt, and_self, if_true]
                refine ⟨fun n1 h1 => by simp at h1, fun _ => ?_⟩
                omega
              · simp only [hpe, false_and, if_false] at hp ⊢
                refine ⟨fun n1 h1 => ?_, fun h1 => ?_⟩
                · have := hp.1 n1 h1; omega
                · have := hp.2 h1; omega
          obtain ⟨h', hrel, hacc', hlen, hframe⟩ :=
            ih (h.set e.bp none) (n.seq ++ rest) hacc1 (by
              simp only [List.length_append, List.length_cons] at hfuel ⊢; omega)
          refine ⟨h', hrel, hacc', by simpa using hlen, fun p n' hn' => ?_⟩
          obtain ⟨n1, hn1, ht, hs⟩ := hframe p n' hn'
          rw [Heap.lookup_set] at hn1
          split_ifs at hn1
          exact ⟨n1, hn1, ht, hs⟩
        · simp only [hlast, if_false]
          have hops := Heap.operands_set h e.bp
            (some { n with refcount := n.refcount - 1 }) hlt
          simp only [hl, basic.arity] at hops
          have hacc1 : Heap.Accounted
              (h.set e.bp (some { n with refcount := n.refcount - 1 })) ext rest := by
            refine ⟨?_, fun p => ?_⟩
            · rw [Heap.lookup_set]
              split_ifs with h0
              · rw [h0.1, hnull] at hl; simp at hl
              · exact hnull
            · have hemb := Heap.embedded_set h e.bp p
                (some { n with refcount := n.refcount - 1 }) hlt
              simp only [hl, basic.refs] at hemb
              have hp := hJ p
              rw [count_ex_cons] at hp
              rw [Heap.lookup_set]
              by_cases hpe : e.bp = p
              · subst hpe
                simp only [hlt, and_self, if_true]
                refine ⟨fun n1 h1 => ?_, fun h1 => by simp at h1⟩
                simp only [Option.some.injEq] at h1
                subst h1
                simp only
                omega
              · simp only [hpe, false_and, if_false] at hp ⊢
                refine ⟨fun n1 h1 => ?_, fun h1 => ?_⟩
                · have := hp.1 n1 h1; omega
                · have := hp.2 h1; omega
          obtain ⟨h', hrel, hacc', hlen, hframe⟩ :=
            ih (h.set e.bp (some { n with refcount := n.refcount - 1 })) rest hacc1 (by
              simp only [List.length_cons] at hfuel; omega)
          refine ⟨h', hrel, hacc', by simpa using hlen, fun p n' hn' => ?_⟩
          obtain ⟨n1, hn1, ht, hs⟩ := hframe p n' hn'
          rw [Heap.lookup_set] at hn1
          split_ifs at hn1 with hpe
          · simp only [Option.some.injEq] at hn1
            subst hn1
            exact ⟨n, hpe.1 ▸ hl, ht, hs⟩
          · exact ⟨n1, hn1, ht, hs⟩

/-! ### The accounting invariant -/

theorem count_set_add (l : List (Option ex)) (i : Nat) (b a : Option ex) (hi : i < l.length) :
    (l.set i b).count a + (if l.getD i none = a then 1 else 0)
      = l.count a + (if b = a then 1 else 0) := by
  induction l generalizing i with
  | nil => simp at hi
  | cons c t ih =>
    cases i with
    | zero =>
      simp only [List.set_cons_zero, List.count_cons, List.getD_cons_zero, beq_iff_eq]
      omega
    | succ i =>
      have := ih i (by simpa using hi)
      simp only [List.set_cons_succ, List.count_cons, List.getD_cons_succ, beq_iff_eq] at this ⊢
      omega

theorem State.var_lt (s : State) (x : Nat) (e : ex) (hx : s.var x = some e) :
    x < s.vars.length := by
  by_contra hge
  simp [State.var, List.getD_eq_getElem?_getD, List.getElem?_eq_none (not_lt.mp hge)] at hx

theorem State.var_mem (s : State) (x : Nat) (e : ex) (hx : s.var x = some e) :
    some e ∈ s.vars := by
  have hlt := s.var_lt x e hx
  simp only [State.var, List.getD_eq_getElem?_getD, List.getElem?_eq_getElem hlt,
    Option.getD_some] at hx
  exact hx ▸ List.getElem_mem hlt

theorem Heap.refs_le_embedded (h : Heap) (n : basic) (hn : some n ∈ h) (p : Ptr) :
    n.seq.count ⟨p⟩ ≤ h.embedded p := by
  have hmem : basic.refs (some n) p ∈ h.map fun o => basic.refs o p :=
    List.mem_map_of_mem _ hn
  exact List.single_le_sum (fun _ _ => Nat.zero_le _) _ hmem

theorem State.inv_iff_accounted (s : State) :
    s.Inv ↔ s.heap.Accounted (fun p => s.vars.count (some ⟨p⟩)) [] := by
  constructor
  · rintro ⟨hnull, hin, hvars, hops⟩
    refine ⟨hnull, fun p => ?_⟩
    simp only [List.count_nil, Nat.add_zero]
    by_cases hp : p < s.heap.length
    · have := hin p hp
      exact ⟨fun n hn => this.1 n hn, this.2⟩
    · refine ⟨fun n hn => absurd (Heap.lookup_lt _ p n hn) hp, fun _ => ?_⟩
      have hv : s.vars.count (some ⟨p⟩) = 0 := by
        rw [List.count_eq_zero]
        intro hmem
        exact hp (hvars _ hmem ⟨p⟩ rfl)
      have he : s.heap.embedded p = 0 := by
        apply List.sum_eq_zero
        intro y hy
        obtain ⟨o, ho, rfl⟩ := List.mem_map.mp hy
        cases o with
        | none => rfl
        | some n =>
          simp only [basic.refs, List.count_eq_zero]
          intro hmem
          exact hp (hops _ ho n rfl ⟨p⟩ hmem)
      omega
  · rintro ⟨hnull, hall⟩
    simp only [List.count_nil, Nat.add_zero] at hall
    refine ⟨hnull, fun p _ => ⟨fun n hn => (hall p).1 n hn, (hall p).2⟩, ?_, ?_⟩
    · intro o ho e he
      have he : o = some e := he
      subst he
      by_contra hge
      have hnone : s.heap.lookup e.bp = none := by
        simp [Heap.lookup, List.getD_eq_getElem?_getD, List.getElem?_eq_none (not_lt.mp hge)]
      have h0 := (hall e.bp).2 hnone
      have hpos : 0 < s.vars.count (some (⟨e.bp⟩ : ex)) := List.count_pos_iff.mpr ho
      omega
    · intro o ho n hn e he
      have hn : o = some n := hn
      subst hn
      by_contra hge
      have hnone : s.heap.lookup e.bp = none := by
        simp [Heap.lookup, List.getD_eq_getElem?_getD, List.getElem?_eq_none (not_lt.mp hge)]
      have h0 := (hall e.bp).2 hnone
      have hle := Heap.refs_le_embedded s.heap n ho e.bp
      have hpos : 0 < n.seq.count (⟨e.bp⟩ : ex) := List.count_pos_iff.mpr he
      omega

theorem Heap.Accounted.shift {h : Heap} {ext ext1 : Ptr → Nat} {work : List ex}
    (hacc : h.Accounted ext []) (hsum : ∀ p, ext1 p + work.count ⟨p⟩ = ext p) :
    h.Accounted ext1 work := by
  obtain ⟨hnull, hall⟩ := hacc
  simp only [List.count_nil, Nat.add_zero] at hall
  refine ⟨hnull, fun p => ⟨fun n hn => ?_, fun hn => ?_⟩⟩
  · have := (hall p).1 n hn
    have := hsum p
    omega
  · have := (hall p).2 hn
    have := hsum p
    omega

theorem Heap.Accounted.incref {h : Heap} {ext ext1 : Ptr → Nat} {work : List ex} {q : Ptr}
    {n : basic} (hacc : h.Accounted ext []) (hq : h.lookup q = some n)
    (hsum : ∀ p, ext1 p + work.count ⟨p⟩ = ext p + if p = q then 1 else 0) :
    Heap.Accounted (h.set q (some { n with refcount := n.refcount + 1 })) ext1 work := by
  obtain ⟨hnull, hall⟩ := hacc
  simp only [List.count_nil, Nat.add_zero] at hall
  have hlt := Heap.lookup_lt h q n hq
  refine ⟨?_, fun p => ?_⟩
  · rw [Heap.lookup_set]
    split_ifs with h0
    · rw [h0.1, hnull] at hq; simp at hq
    · exact hnull
  · have hemb := Heap.embedded_set h q p (some { n with refcount := n.refcount + 1 }) hlt
    simp only [hq, basic.refs] at hemb
    have hs := hsum p
    rw [Heap.lookup_set]
    by_cases hqp : q = p
    · subst hqp
      simp only [hlt, and_self, if_true] at hs ⊢
      refine ⟨fun n1 h1 => ?_, fun h1 => by simp at h1⟩
      simp only [Option.some.injEq] at h1
      subst h1
      have := (hall q).1 n hq
      simp only
      omega
    · have hpq : ¬ p = q := fun hpq => hqp hpq.symm
      simp only [hqp, hpq, false_and, if_false] at hs ⊢
      refine ⟨fun n1 h1 => ?_, fun h1 => ?_⟩
      · have := (hall p).1 n1 h1; omega
      · have := (hall p).2 h1; omega

theorem some_ex_eq_iff (e : ex) (p : Ptr) : (some e = some (⟨p⟩ : ex)) ↔ e.bp = p := by
  cases e; simp

theorem State.Inv.all {s : State} (hinv : s.Inv) (p : Ptr) :
    (∀ n, s.heap.lookup p = some n → n.refcount = s.bound p ∧ 0 < n.refcount) ∧
    (s.heap.lookup p = none → s.bound p = 0) := by
  have hacc := ((s.inv_iff_accounted).mp hinv).2 p
  simp only [List.count_nil, Nat.add_zero] at hacc
  exact hacc

theorem State.Inv.var_live {s : State} (hinv : s.Inv) {x : Nat} {e : ex}
    (hx : s.var x = some e) : ∃ n, s.heap.lookup e.bp = some n := by
  have hacc := (s.inv_iff_accounted).mp hinv
  cases hl : s.heap.lookup e.bp with
  | some n => exact ⟨n, rfl⟩
  | none =>
    have h0 := (hacc.2 e.bp).2 hl
    have hpos : 0 < s.vars.count (some (⟨e.bp⟩ : ex)) :=
      List.count_pos_iff.mpr (s.var_mem x e hx)
    simp only [List.count_nil] at h0
    omega

theorem State.Inv.operand_live {s : State} (hinv : s.Inv) {p : Ptr} {n : basic} {e : ex}
    (hn : s.heap.lookup p = some n) (he : e ∈ n.seq) : ∃ m, s.heap.lookup e.bp = some m := by
  have hacc := (s.inv_iff_accounted).mp hinv
  cases hl : s.heap.lookup e.bp with
  | some m => exact ⟨m, rfl⟩
  | none =>
    have h0 := (hacc.2 e.bp).2 hl
    have hle := Heap.refs_le_embedded s.heap n (Heap.lookup_mem _ p n hn) e.bp
    have hpos : 0 < n.seq.count (⟨e.bp⟩ : ex) := List.count_pos_iff.mpr he
    simp only [List.count_nil] at h0
    omega

theorem ex.dtor_spec (s : State) (x : Nat) (e : ex) (hinv : s.Inv) (hx : s.var x = some e) :
    ∃ heap1, s.heap.unbind e = some heap1 ∧
      ex.dtor s x = some { s with heap := heap1, vars := s.vars.set x none } ∧
      State.Inv { s with heap := heap1, vars := s.vars.set x none } ∧
      heap1.length = s.heap.length ∧
      (∀ p n1, heap1.lookup p = some n1 →
        ∃ n, s.heap.lookup p = some n ∧ n1.tinfo = n.tinfo ∧ n1.seq = n.seq) := by
  have hacc := (s.inv_iff_accounted).mp hinv
  have hlt := s.var_lt x e hx
  have hacc1 : s.heap.Accounted (fun p => (s.vars.set x none).count (some ⟨p⟩)) [e] := by
    refine hacc.shift fun p => ?_
    have hc := count_set_add s.vars x none (some ⟨p⟩) hlt
    rw [show s.vars.getD x none = some e from hx] at hc
    rw [count_ex_cons]
    simp only [some_ex_eq_iff, List.count_nil] at hc ⊢
    simpa using hc
  obtain ⟨heap1, hrel, hacc2, hlen, hframe⟩ :=
    Heap.release_accounted _ (s.heap.release_fuel [e]) s.heap [e] hacc1 (le_refl _)
  refine ⟨heap1, hrel, ?_, ?_, hlen, hframe⟩
  · have hrel1 : s.heap.unbind e = some heap1 := hrel
    simp only [ex.dtor, hx, hrel1]
  · exact (State.inv_iff_accounted _).mpr hacc2

theorem ex.assign_spec (s : State) (x other : Nat) (e o : ex) (hinv : s.Inv)
    (hx : s.var x = some e) (ho : s.var other = some o) :
    ∃ n heap2, s.heap.lookup o.bp = some n ∧
      Heap.unbind (s.heap.set o.bp (some { n with refcount := n.refcount + 1 })) e
        = some heap2 ∧
      ex.assign s x other = some { s with heap := heap2, vars := s.vars.set x (some o) } ∧
      State.Inv { s with heap := heap2, vars := s.vars.set x (some o) } ∧
      heap2.length = s.heap.length ∧
      (∀ p n1, heap2.lookup p = some n1 →
        ∃ n0, s.heap.lookup p = some n0 ∧ n1.tinfo = n0.tinfo ∧ n1.seq = n0.seq) := by
  have hacc := (s.inv_iff_accounted).mp hinv
  have hlt := s.var_lt x e hx
  obtain ⟨n, hn⟩ := hinv.var_live ho
  have hnlt := Heap.lookup_lt _ _ _ hn
  have hacc1 : Heap.Accounted (s.heap.set o.bp (some { n with refcount := n.refcount + 1 }))
      (fun p => (s.vars.set x (some o)).count (some ⟨p⟩)) [e] := by
    refine hacc.incref hn fun p => ?_
    have hc := count_set_add s.vars x (some o) (some ⟨p⟩) hlt
    rw [show s.vars.getD x none = some e from hx] at hc
    rw [count_ex_cons]
    simp only [some_ex_eq_iff, List.count_nil] at hc ⊢
    have : (p = o.bp) ↔ (o.bp = p) := eq_comm
    simp only [this]
    simpa using hc
  obtain ⟨heap2, hrel, hacc2, hlen, hframe⟩ :=
    Heap.release_accounted _ (Heap.release_fuel _ [e]) _ [e] hacc1 (le_refl _)
  refine ⟨n, heap2, hn, hrel, ?_, ?_, by simpa using hlen, fun p n1 h1 => ?_⟩
  · have hrel1 : Heap.unbind (s.heap.set o.bp (some { n with refcount := n.refcount + 1 })) e
        = some heap2 := hrel
    simp only [ex.assign, hx, ho, Heap.incref, hn, hrel1]
  · exact (State.inv_iff_accounted _).mpr hacc2
  · obtain ⟨n2, hn2, ht, hs⟩ := hframe p n1 h1
    rw [Heap.lookup_set] at hn2
    split_ifs at hn2 with hpe
    · simp only [Option.some.injEq] at hn2
      subst hn2
      exact ⟨n, hpe.1 ▸ hn, ht, hs⟩
    · exact ⟨n2, hn2, ht, hs⟩

theorem ex.ctor_copy_spec (s : State) (other : Nat) (o : ex) (hinv : s.Inv)
    (ho : s.var other = some o) :
    ∃ n, s.heap.lookup o.bp = some n ∧
      ex.ctor_copy s other = some { s with
        heap := s.heap.set o.bp (some { n with refcount := n.refcount + 1 }),
        vars := s.vars ++ [some o] } ∧
      State.Inv { s with
        heap := s.heap.set o.bp (some { n with refcount := n.refcount + 1 }),
        vars := s.vars ++ [some o] } := by
  have hacc := (s.inv_iff_accounted).mp hinv
  obtain ⟨n, hn⟩ := hinv.var_live ho
  refine ⟨n, hn, by simp only [ex.ctor_copy, ho, Heap.incref, hn], ?_⟩
  refine (State.inv_iff_accounted _).mpr (hacc.incref hn fun p => ?_)
  have : (p = o.bp) ↔ (o.bp = p) := eq_comm
  simp only [List.count_append, List.count_cons, List.count_nil, beq_iff_eq, some_ex_eq_iff,
    this]
  omega

theorem ex.ctor_default_spec (s : State) (n : basic) (hinv : s.Inv)
    (hn : s.heap.lookup s.num0_p = some n) :
    ex.ctor_default s = some { s with
        heap := s.heap.set s.num0_p (some { n with refcount := n.refcount + 1 }),
        vars := s.vars ++ [some ⟨s.num0_p⟩] } ∧
      State.Inv { s with
        heap := s.heap.set s.num0_p (some { n with refcount := n.refcount + 1 }),
        vars := s.vars ++ [some ⟨s.num0_p⟩] } := by
  have hacc := (s.inv_iff_accounted).mp hinv
  refine ⟨by simp only [ex.ctor_default, Heap.incref, hn], ?_⟩
  refine (State.inv_iff_accounted _).mpr (hacc.incref hn fun p => ?_)
  have : (p = s.num0_p) ↔ (s.num0_p = p) := eq_comm
  simp only [List.count_append, List.count_cons, List.count_nil, beq_iff_eq, some_ex_eq_iff,
    this]
  omega

theorem ex.swap_count (s : State) (x other : Nat) (e o : ex)
    (hx : s.var x = some e) (ho : s.var other = some o) (a : Option ex) :
    ((s.vars.set x (some ⟨o.bp⟩)).set other (some ⟨e.bp⟩)).count a = s.vars.count a := by
  have hlt := s.var_lt x e hx
  have hlt2 := s.var_lt other o ho
  have h1 := count_set_add s.vars x (some ⟨o.bp⟩) a hlt
  have h2 := count_set_add (s.vars.set x (some ⟨o.bp⟩)) other (some ⟨e.bp⟩) a
    (by simpa using hlt2)
  have hget : (s.vars.set x (some ⟨o.bp⟩)).getD other none = some o := by
    have ho1 : s.vars.getD other none = some o := ho
    simp only [List.getD_eq_getElem?_getD, List.getElem?_set] at ho1 ⊢
    split_ifs with hxo
    · rfl
    · exact ho1
  rw [hget] at h2
  rw [show s.vars.getD x none = some e from hx] at h1
  have e1 : (⟨o.bp⟩ : ex) = o := rfl
  have e2 : (⟨e.bp⟩ : ex) = e := rfl
  rw [e1] at h1 h2 ⊢
  rw [e2] at h2 ⊢
  omega

theorem ex.swap_spec (s : State) (x other : Nat) (e o : ex) (hinv : s.Inv)
    (hx : s.var x = some e) (ho : s.var other = some o) :
    ex.swap s x other
        = some { s with vars := (s.vars.set x (some ⟨o.bp⟩)).set other (some ⟨e.bp⟩) } ∧
      State.Inv { s with vars := (s.vars.set x (some ⟨o.bp⟩)).set other (some ⟨e.bp⟩) } := by
  have hacc := (s.inv_iff_accounted).mp hinv
  refine ⟨by simp only [ex.swap, hx, ho], ?_⟩
  refine (State.inv_iff_accounted _).mpr (hacc.shift fun p => ?_)
  simp only [List.count_nil, Nat.add_zero]
  exact ex.swap_count s x other e o hx ho _

/-! ### Reachable states -/

theorem HandleOp.step_enabled (s s1 : State) (op : HandleOp) (hstep : op.step s = some s1) :
    op.enabled s := by
  cases op with
  | ctor_default =>
    simp only [HandleOp.step, ex.ctor_default, Heap.incref] at hstep
    simp only [HandleOp.enabled]
    cases hl : s.heap.lookup s.num0_p with
    | none => simp [hl] at hstep
    | some n => simp
  | ctor_copy other =>
    simp only [HandleOp.step, ex.ctor_copy] at hstep
    simp only [HandleOp.enabled]
    cases hv : s.var other with
    | none => simp [hv] at hstep
    | some o => simp
  | assign x other =>
    simp only [HandleOp.step, ex.assign] at hstep
    simp only [HandleOp.enabled]
    cases hv : s.var x with
    | none => simp [hv] at hstep
    | some e =>
      cases hw : s.var other with
      | none => simp [hv, hw] at hstep
      | some o => simp
  | swap x other =>
    simp only [HandleOp.step, ex.swap] at hstep
    simp only [HandleOp.enabled]
    cases hv : s.var x with
    | none => simp [hv] at hstep
    | some e =>
      cases hw : s.var other with
      | none => simp [hv, hw] at hstep
      | some o => simp
  | dtor x =>
    simp only [HandleOp.step, ex.dtor] at hstep
    simp only [HandleOp.enabled]
    cases hv : s.var x with
    | none => simp [hv] at hstep
    | some e => simp

theorem Heap.lookup_incref_live (h : Heap) (q p : Ptr) (n : basic) (hq : h.lookup q = some n) :
    (Heap.lookup (h.set q (some { n with refcount := n.refcount + 1 })) p = none
      ↔ h.lookup p = none) ∧
    (∀ n1, Heap.lookup (h.set q (some { n with refcount := n.refcount + 1 })) p = some n1 →
      ∃ n0, h.lookup p = some n0 ∧ n1.tinfo = n0.tinfo ∧ n1.seq = n0.seq) := by
  rw [Heap.lookup_set]
  by_cases hqp : q = p
  · subst hqp
    simp only [Heap.lookup_lt h q n hq, and_self, if_true, hq]
    refine ⟨by simp, fun n1 h1 => ?_⟩
    simp only [Option.some.injEq] at h1
    subst h1
    exact ⟨n, rfl, rfl, rfl⟩
  · simp only [hqp, false_and, if_false]
    constructor
    · trivial
    · exact fun n1 h1 => ⟨n1, h1, rfl, rfl⟩

theorem HandleOp.step_spec (s : State) (op : HandleOp) (hinv : s.Inv) (hen : op.enabled s) :
    ∃ s1, op.step s = some s1 ∧ s1.Inv ∧
      (∀ p n1, s1.heap.lookup p = some n1 →
        ∃ n, s.heap.lookup p = some n ∧ n1.tinfo = n.tinfo ∧ n1.seq = n.seq) ∧
      ((∃ p, s.heap.lookup p ≠ none ∧ s1.heap.lookup p = none) →
        (∃ x, op = .dtor x) ∨ ∃ x o, op = .assign x o) := by
  cases op with
  | ctor_default =>
    simp only [HandleOp.enabled] at hen
    obtain ⟨n, hn⟩ := Option.ne_none_iff_exists.mp hen
    obtain ⟨h1, h2⟩ := ex.ctor_default_spec s n hinv hn.symm
    refine ⟨_, h1, h2, fun p n1 hl => ((Heap.lookup_incref_live _ _ p n hn.symm).2 n1 hl), ?_⟩
    rintro ⟨p, hp, hp1⟩
    exact absurd ((Heap.lookup_incref_live _ _ p n hn.symm).1.mp hp1) hp
  | ctor_copy other =>
    simp only [HandleOp.enabled] at hen
    obtain ⟨o, ho⟩ := Option.ne_none_iff_exists.mp hen
    obtain ⟨n, hn, h1, h2⟩ := ex.ctor_copy_spec s other o hinv ho.symm
    refine ⟨_, h1, h2, fun p n1 hl => ((Heap.lookup_incref_live _ _ p n hn).2 n1 hl), ?_⟩
    rintro ⟨p, hp, hp1⟩
    exact absurd ((Heap.lookup_incref_live _ _ p n hn).1.mp hp1) hp
  | assign x other =>
    simp only [HandleOp.enabled] at hen
    obtain ⟨e, he⟩ := Option.ne_none_iff_exists.mp hen.1
    obtain ⟨o, ho⟩ := Option.ne_none_iff_exists.mp hen.2
    obtain ⟨n, heap2, _, _, h1, h2, _, h3⟩ := ex.assign_spec s x other e o hinv he.symm ho.symm
    exact ⟨_, h1, h2, h3, fun _ => Or.inr ⟨x, other, rfl⟩⟩
  | swap x other =>
    simp only [HandleOp.enabled] at hen
    obtain ⟨e, he⟩ := Option.ne_none_iff_exists.mp hen.1
    obtain ⟨o, ho⟩ := Option.ne_none_iff_exists.mp hen.2
    obtain ⟨h1, h2⟩ := ex.swap_spec s x other e o hinv he.symm ho.symm
    refine ⟨_, h1, h2, fun p n1 hl => ⟨n1, hl, rfl, rfl⟩, ?_⟩
    rintro ⟨p, hp, hp1⟩
    exact absurd hp1 hp
  | dtor x =>
    simp only [HandleOp.enabled] at hen
    obtain ⟨e, he⟩ := Option.ne_none_iff_exists.mp hen
    obtain ⟨heap1, _, h1, h2, _, h3⟩ := ex.dtor_spec s x e hinv he.symm
    exact ⟨_, h1, h2, h3, fun _ => Or.inl ⟨x, rfl⟩⟩

theorem HandleOp.run_inv (s0 : State) (ops : List HandleOp) (s : State) (h0 : s0.Inv)
    (hrun : HandleOp.run s0 ops = some s) : s.Inv := by
  induction ops generalizing s0 with
  | nil =>
    simp only [HandleOp.run, Option.some.injEq] at hrun
    exact hrun ▸ h0
  | cons op ops ih =>
    simp only [HandleOp.run] at hrun
    cases hstep : op.step s0 with
    | none => simp [hstep] at hrun
    | some s1 =>
      simp only [hstep] at hrun
      obtain ⟨s2, h2, hinv2, _⟩ :=
        HandleOp.step_spec s0 op h0 (HandleOp.step_enabled s0 s1 op hstep)
      rw [hstep] at h2
      simp only [Option.some.injEq] at h2
      subst h2
      exact ih s1 hinv2 hrun

/-- C2: from a state in which the counts are right, every state that default
construction, copy construction, assignment, swap and destruction of live
handles reach has each live node's `refcount` equal to the number of live
handles bound to it and no live handle bound to a deleted node; every such
operation on live handles succeeds; and an operation deletes a node exactly
when it leaves no handle bound to it, which only a destructor or an
assignment does, and creates none. -/
theorem C2_refcount_accounting (s0 : State) (ops : List HandleOp) (s : State)
    (h0 : s0.Inv) (hrun : HandleOp.run s0 ops = some s) :
    (∀ p n, s.heap.lookup p = some n → n.refcount = s.bound p) ∧
    (∀ x e, s.var x = some e → s.heap.lookup e.bp ≠ none) ∧
    (∀ p, s.heap.lookup p = none → s.bound p = 0) ∧
    (∀ op : HandleOp, op.enabled s → ∃ s1, op.step s = some s1) ∧
    (∀ (op : HandleOp) (s1 : State), op.step s = some s1 →
      ∀ p, s.heap.lookup p ≠ none →
        (s1.heap.lookup p = none ↔ s1.bound p = 0) ∧
        (s1.heap.lookup p = none → (∃ x, op = .dtor x) ∨ ∃ x o, op = .assign x o)) ∧
    (∀ (op : HandleOp) (s1 : State), op.step s = some s1 →
      ∀ p, s.heap.lookup p = none → s1.heap.lookup p = none) := by
  have hinv := HandleOp.run_inv s0 ops s h0 hrun
  refine ⟨fun p n hn => ((hinv.all p).1 n hn).1, fun x e hx => ?_, fun p hp => (hinv.all p).2 hp,
    fun op hen => ?_, fun op s1 hstep p hp => ?_, fun op s1 hstep p hp => ?_⟩
  · obtain ⟨n, hn⟩ := hinv.var_live hx
    simp [hn]
  · obtain ⟨s1, h1, _⟩ := HandleOp.step_spec s op hinv hen
    exact ⟨s1, h1⟩
  · obtain ⟨s2, h2, hinv2, _, hdel⟩ :=
      HandleOp.step_spec s op hinv (HandleOp.step_enabled s s1 op hstep)
    rw [hstep] at h2
    simp only [Option.some.injEq] at h2
    subst h2
    refine ⟨⟨fun h => (hinv2.all p).2 h, fun h => ?_⟩, fun h => hdel ⟨p, hp, h⟩⟩
    cases hl : s1.heap.lookup p with
    | none => rfl
    | some n1 =>
      have := (hinv2.all p).1 n1 hl
      omega
  · obtain ⟨s2, h2, _, hframe, _⟩ :=
      HandleOp.step_spec s op hinv (HandleOp.step_enabled s s1 op hstep)
    rw [hstep] at h2
    simp only [Option.some.injEq] at h2
    subst h2
    cases hl : s1.heap.lookup p with
    | none => rfl
    | some n1 =>
      obtain ⟨n, hn, _⟩ := hframe p n1 hl
      rw [hp] at hn
      simp at hn

/-- Witness of C2 on the sample state and a run that uses all five operations. -/
theorem C2_refcount_accounting_witness :
    sample_state.Inv ∧ HandleOp.run sample_state sample_ops = some sample_final ∧
    ((∀ p n, sample_final.heap.lookup p = some n → n.refcount = sample_final.bound p) ∧
     (∀ x e, sample_final.var x = some e → sample_final.heap.lookup e.bp ≠ none)) := by
  have h := C2_refcount_accounting sample_state sample_ops sample_final (by decide) (by decide)
  exact ⟨by decide, by decide, h.1, h.2.1⟩

/-! ### Copy construction and assignment -/

theorem Heap.release_frame :
    ∀ (fuel : Nat) (h : Heap) (work : List ex) (h1 : Heap),
      Heap.release fuel h work = some h1 →
      h1.length = h.length ∧
      ∀ p n1, h1.lookup p = some n1 →
        ∃ n, h.lookup p = some n ∧ n1.tinfo = n.tinfo ∧ n1.seq = n.seq := by
  intro fuel
  induction fuel with
  | zero =>
    intro h work h1 hrel
    cases work with
    | nil =>
      simp only [Heap.release, Option.some.injEq] at hrel
      subst hrel
      exact ⟨rfl, fun p n1 hn => ⟨n1, hn, rfl, rfl⟩⟩
    | cons e rest => simp [Heap.release] at hrel
  | succ fuel ih =>
    intro h work h1 hrel
    cases work with
    | nil =>
      simp only [Heap.release, Option.some.injEq] at hrel
      subst hrel
      exact ⟨rfl, fun p n1 hn => ⟨n1, hn, rfl, rfl⟩⟩
    | cons e rest =>
      simp only [Heap.release] at hrel
      cases hl : h.lookup e.bp with
      | none => simp [hl] at hrel
      | some n =>
        simp only [hl] at hrel
        split_ifs at hrel with hz hlast
        · obtain ⟨hlen, hfr⟩ := ih _ _ _ hrel
          refine ⟨by simpa using hlen, fun p n1 hn1 => ?_⟩
          obtain ⟨n2, hn2, ht, hs⟩ := hfr p n1 hn1
          rw [Heap.lookup_set] at hn2
          split_ifs at hn2
          exact ⟨n2, hn2, ht, hs⟩
        · obtain ⟨hlen, hfr⟩ := ih _ _ _ hrel
          refine ⟨by simpa using hlen, fun p n1 hn1 => ?_⟩
          obtain ⟨n2, hn2, ht, hs⟩ := hfr p n1 hn1
          rw [Heap.lookup_set] at hn2
          split_ifs at hn2 with hpe
          · simp only [Option.some.injEq] at hn2
            subst hn2
            exact ⟨n, hpe.1 ▸ hl, ht, hs⟩
          · exact ⟨n2, hn2, ht, hs⟩

theorem Heap.unbind_shared (h : Heap) (e : ex) (m : basic) (hm : h.lookup e.bp = some m)
    (hrc : 1 < m.refcount) :
    h.unbind e = some (h.set e.bp (some { m with refcount := m.refcount - 1 })) := by
  have h0 : m.refcount ≠ 0 := by omega
  have h1 : ¬ m.refcount - 1 = 0 := by omega
  simp only [Heap.unbind, Heap.release_fuel, List.length_singleton]
  rw [Nat.add_comm]
  simp only [Heap.release, hm, h0, h1, if_false]

theorem Heap.unbind_last (h h1 : Heap) (e : ex) (m : basic) (hm : h.lookup e.bp = some m)
    (hrc : m.refcount = 1) (hun : h.unbind e = some h1) :
    h1.lookup e.bp = none := by
  have h0 : m.refcount ≠ 0 := by omega
  have hlast : m.refcount - 1 = 0 := by omega
  simp only [Heap.unbind, Heap.release_fuel, List.length_singleton] at hun
  rw [Nat.add_comm] at hun
  simp only [Heap.release, hm, h0, hlast, if_false, if_true] at hun
  obtain ⟨_, hfr⟩ := Heap.release_frame _ _ _ _ hun
  cases hl : h1.lookup e.bp with
  | none => rfl
  | some n1 =>
    obtain ⟨n2, hn2, _⟩ := hfr e.bp n1 hl
    rw [Heap.lookup_set] at hn2
    simp [Heap.lookup_lt h e.bp m hm] at hn2

theorem State.var_set (s : State) (x y : Nat) (v : Option ex) (hx : x < s.vars.length) :
    (s.vars.set x v).getD y none = if x = y then v else s.var y := by
  simp only [State.var, List.getD_eq_getElem?_getD, List.getElem?_set, hx, if_true]
  split_ifs <;> rfl

theorem Heap.set_lookup_self (h : Heap) (p : Ptr) (n : basic) (hn : h.lookup p = some n) :
    h.set p (some n) = h := by
  have hlt := Heap.lookup_lt h p n hn
  simp only [Heap.lookup, List.getD_eq_getElem?_getD, List.getElem?_eq_getElem hlt,
    Option.getD_some] at hn
  apply List.ext_getElem?
  intro j
  rw [List.getElem?_set]
  split_ifs with hj
  · subst hj
    rw [List.getElem?_eq_getElem hlt, hn]
  · rfl

theorem State.var_append_left (vars : List (Option ex)) (v : Option ex) (x : Nat)
    (hx : x < vars.length) : (vars ++ [v]).getD x none = vars.getD x none := by
  simp only [List.getD_eq_getElem?_getD, List.getElem?_append_left hx]

theorem State.var_append_new (vars : List (Option ex)) (v : Option ex) :
    (vars ++ [v]).getD vars.length none = v := by
  simp [List.getD_eq_getElem?_getD]

/-- C3 (amended): copy construction binds the new handle to the node of `a`,
leaves every other handle alone and changes the store only by +1 on that
node's count.  Assignment `b = a` binds `b` to the node of `a`, leaves every
other handle alone and creates or clones no node; the store is unchanged when
`b` was already on the node of `a`; it changes by +1 on the node of `a` and -1
on the previous node of `b` when that node had other handles; and when `b` was
its previous node's last handle that node is deleted, the surviving nodes
keeping type and operands and the counts staying exact. -/
theorem C3_copy_assign_share (s : State) (a b : Nat) (ea eb : ex) (hinv : s.Inv)
    (ha : s.var a = some ea) (hb : s.var b = some eb) :
    (∃ n s1, s.heap.lookup ea.bp = some n ∧ ex.ctor_copy s a = some s1 ∧
      s1.var s.vars.length = some ea ∧ s1.var a = some ea ∧
      (∀ x < s.vars.length, s1.var x = s.var x) ∧
      s1.heap = s.heap.set ea.bp (some { n with refcount := n.refcount + 1 }) ∧
      (∀ e1 e2, s1.var s.vars.length = some e1 → s1.var a = some e2 →
        are_ex_trivially_equal e2 e1 = true)) ∧
    (∃ n m s1, s.heap.lookup ea.bp = some n ∧ s.heap.lookup eb.bp = some m ∧
      ex.assign s b a = some s1 ∧
      s1.var b = some ea ∧ s1.var a = some ea ∧ (∀ x, x ≠ b → s1.var x = s.var x) ∧
      (∀ e1 e2, s1.var b = some e1 → s1.var a = some e2 →
        are_ex_trivially_equal e2 e1 = true) ∧
      (∀ p n1, s1.heap.lookup p = some n1 →
        ∃ n0, s.heap.lookup p = some n0 ∧ n1.tinfo = n0.tinfo ∧ n1.seq = n0.seq) ∧
      (eb.bp = ea.bp → s1.heap = s.heap) ∧
      (eb.bp ≠ ea.bp → 1 < m.refcount →
        s1.heap = (s.heap.set ea.bp (some { n with refcount := n.refcount + 1 })).set eb.bp
          (some { m with refcount := m.refcount - 1 })) ∧
      (eb.bp ≠ ea.bp → m.refcount = 1 → s1.heap.lookup eb.bp = none ∧ s1.Inv)) := by
  have halt := s.var_lt a ea ha
  have hblt := s.var_lt b eb hb
  constructor
  · obtain ⟨n, hn, hcopy, _⟩ := ex.ctor_copy_spec s a ea hinv ha
    have hnew : State.var { s with
        heap := s.heap.set ea.bp (some { n with refcount := n.refcount + 1 }),
        vars := s.vars ++ [some ea] } s.vars.length = some ea :=
      State.var_append_new s.vars (some ea)
    have hold : ∀ x < s.vars.length, State.var { s with
        heap := s.heap.set ea.bp (some { n with refcount := n.refcount + 1 }),
        vars := s.vars ++ [some ea] } x = s.var x :=
      fun x hx => State.var_append_left s.vars (some ea) x hx
    refine ⟨n, _, hn, hcopy, hnew, (hold a halt).trans ha, hold, rfl, ?_⟩
    intro e1 e2 h1 h2
    rw [hnew] at h1
    rw [(hold a halt).trans ha] at h2
    simp only [Option.some.injEq] at h1 h2
    subst h1 h2
    simp [are_ex_trivially_equal]
  · obtain ⟨n, heap2, hn, hun, hassign, hinv2, _, hframe⟩ :=
      ex.assign_spec s b a eb ea hinv hb ha
    obtain ⟨m, hm⟩ := hinv.var_live hb
    have hvb : State.var { s with heap := heap2, vars := s.vars.set b (some ea) } b
        = some ea := by
      simp only [State.var]
      rw [State.var_set s b b (some ea) hblt]
      simp
    have hvx : ∀ x, x ≠ b →
        State.var { s with heap := heap2, vars := s.vars.set b (some ea) } x = s.var x := by
      intro x hx
      simp only [State.var]
      rw [State.var_set s b x (some ea) hblt]
      simp [Ne.symm hx, State.var]
    have hva : State.var { s with heap := heap2, vars := s.vars.set b (some ea) } a
        = some ea := by
      by_cases hab : a = b
      · rw [hab]; exact hvb
      · rw [hvx a hab]; exact ha
    have hnlt := Heap.lookup_lt _ _ _ hn
    refine ⟨n, m, _, hn, hm, hassign, hvb, hva, hvx, ?_, hframe, ?_, ?_, ?_⟩
    · intro e1 e2 h1 h2
      rw [hvb] at h1
      rw [hva] at h2
      simp only [Option.some.injEq] at h1 h2
      subst h1 h2
      simp [are_ex_trivially_equal]
    · intro hsame
      have hl : Heap.lookup (s.heap.set ea.bp (some { n with refcount := n.refcount + 1 }))
          eb.bp = some { n with refcount := n.refcount + 1 } := by
        rw [Heap.lookup_set]; simp [hsame, hnlt]
      have hpos := ((hinv.all ea.bp).1 n hn).2
      have := Heap.unbind_shared _ eb _ hl (by simp only; omega)
      rw [this] at hun
      simp only [Option.some.injEq] at hun
      rw [← hun, hsame, List.set_set]
      simp only [Nat.add_sub_cancel]
      exact Heap.set_lookup_self s.heap ea.bp n hn
    · intro hdiff hrc
      have hl : Heap.lookup (s.heap.set ea.bp (some { n with refcount := n.refcount + 1 }))
          eb.bp = some m := by
        rw [Heap.lookup_set]; simp [Ne.symm hdiff, hm]
      have := Heap.unbind_shared _ eb _ hl hrc
      rw [this] at hun
      simp only [Option.some.injEq] at hun
      exact hun.symm
    · intro hdiff hrc
      have hl : Heap.lookup (s.heap.set ea.bp (some { n with refcount := n.refcount + 1 }))
          eb.bp = some m := by
        rw [Heap.lookup_set]; simp [Ne.symm hdiff, hm]
      exact ⟨Heap.unbind_last _ _ eb m hl hrc hun, hinv2⟩

/-- Witness of C3: in the sample state handle 0 is assigned to handle 2. -/
theorem C3_copy_assign_share_witness :
    sample_state.Inv ∧ sample_state.var 0 = some ⟨1⟩ ∧ sample_state.var 2 = some ⟨3⟩ ∧
    ∃ s1, ex.assign sample_state 2 0 = some s1 ∧ s1.var 2 = some ⟨1⟩ := by
  obtain ⟨_, n, m, s1, _, _, h1, h2, _⟩ :=
    C3_copy_assign_share sample_state 0 2 ⟨1⟩ ⟨3⟩ (by decide) (by decide) (by decide)
  exact ⟨by decide, by decide, by decide, s1, h1, h2⟩

/-- C3 as worded fails on the sample state.  Assigning handle 0 to handle 1,
both on the node at 1 with count 3, leaves the count at 3, not 4.  Assigning
handle 0 to handle 2, the only handle of the node at 3, deletes that node and
with it the leaf at 2 that only its operands held: more than a count of the
nodes of the two handles changes. -/
theorem C3_counterexample :
    ((ex.assign sample_state 1 0).map fun s => (s.heap.lookup 1).map basic.refcount)
        = some (some 3) ∧
    ((assign_as_claimed sample_state 1 0).map fun s => (s.heap.lookup 1).map basic.refcount)
        = some (some 4) ∧
    ((ex.assign sample_state 2 0).map fun s => (s.heap.lookup 3, s.heap.lookup 2))
        = some (none, none) ∧
    ((assign_as_claimed sample_state 2 0).map fun s => (s.heap.lookup 3, s.heap.lookup 2))
        = some (some ⟨2, [⟨2⟩, ⟨2⟩, ⟨1⟩], 0⟩, some ⟨1, [], 2⟩) ∧
    ex.assign sample_state 1 0 ≠ assign_as_claimed sample_state 1 0 ∧
    ex.assign sample_state 2 0 ≠ assign_as_claimed sample_state 2 0 := by
  decide

/-! ### Swap -/

/-- C4: each of `ex::swap`, `GiNaC::swap`, `std::swap`, `ex_swap` and
`std::iter_swap`, on live handles `a` and `b`, succeeds and leaves `a` bound to
the node `b` had and `b` to the node `a` had; the store is unchanged (no count
changes, no node is created or deleted), and so is every other handle. -/
theorem C4_swap_exchanges_bindings (s : State) (a b : Nat) (ea eb : ex)
    (ha : s.var a = some ea) (hb : s.var b = some eb) :
    ∀ f ∈ [ex.swap, swap, std_swap, ex_swap, std_iter_swap], ∃ s1, f s a b = some s1 ∧
      s1.var a = some eb ∧ s1.var b = some ea ∧
      s1.heap = s.heap ∧ s1.num0_p = s.num0_p ∧
      (∀ c, c ≠ a → c ≠ b → s1.var c = s.var c) := by
  have halt := s.var_lt a ea ha
  have hblt := s.var_lt b eb hb
  have key : ∃ s1, ex.swap s a b = some s1 ∧
      s1.var a = some eb ∧ s1.var b = some ea ∧
      s1.heap = s.heap ∧ s1.num0_p = s.num0_p ∧
      (∀ c, c ≠ a → c ≠ b → s1.var c = s.var c) := by
    refine ⟨{ s with vars := (s.vars.set a (some ⟨eb.bp⟩)).set b (some ⟨ea.bp⟩) },
      by simp only [ex.swap, ha, hb], ?_, ?_, rfl, rfl, ?_⟩
    · simp only [State.var, List.getD_eq_getElem?_getD, List.getElem?_set, List.length_set,
        halt, hblt, if_true]
      by_cases hab : b = a
      · subst hab
        have : ea = eb := by rw [ha] at hb; exact Option.some.inj hb
        simp [this]
      · simp [hab]
    · simp only [State.var, List.getD_eq_getElem?_getD, List.getElem?_set, List.length_set,
        hblt, if_true]
      simp
    · intro c hca hcb
      simp only [State.var, List.getD_eq_getElem?_getD, List.getElem?_set, List.length_set,
        Ne.symm hca, Ne.symm hcb, if_false]
  intro f hf
  simp only [List.mem_cons, List.mem_singleton, List.not_mem_nil, or_false] at hf
  rcases hf with rfl | rfl | rfl | rfl | rfl <;> exact key

/-- Witness of C4: handles 0 and 2 of the sample state are swapped. -/
theorem C4_swap_exchanges_bindings_witness :
    sample_state.var 0 = some ⟨1⟩ ∧ sample_state.var 2 = some ⟨3⟩ ∧
    ∃ s1, ex.swap sample_state 0 2 = some s1 ∧ s1.var 0 = some ⟨3⟩ ∧ s1.var 2 = some ⟨1⟩ ∧
      s1.heap = sample_state.heap := by
  obtain ⟨s1, h1, h2, h3, h4, _⟩ :=
    C4_swap_exchanges_bindings sample_state 0 2 ⟨1⟩ ⟨3⟩ (by decide) (by decide)
      ex.swap (by simp)
  exact ⟨by decide, by decide, s1, h1, h2, h3, h4⟩

/-! ### Default construction -/

theorem HandleOp.step_num0 (s s1 : State) (op : HandleOp) (hstep : op.step s = some s1) :
    s1.num0_p = s.num0_p := by
  cases op with
  | ctor_default =>
    simp only [HandleOp.step, ex.ctor_default] at hstep
    split at hstep
    · simp only [Option.some.injEq] at hstep; subst hstep; rfl
    · simp at hstep
  | ctor_copy other =>
    simp only [HandleOp.step, ex.ctor_copy] at hstep
    split at hstep
    · split at hstep
      · simp only [Option.some.injEq] at hstep; subst hstep; rfl
      · simp at hstep
    · simp at hstep
  | assign x other =>
    simp only [HandleOp.step, ex.assign] at hstep
    split at hstep
    · split at hstep
      · split at hstep
        · simp only [Option.some.injEq] at hstep; subst hstep; rfl
        · simp at hstep
      · simp at hstep
    · simp at hstep
  | swap x other =>
    simp only [HandleOp.step, ex.swap] at hstep
    split at hstep
    · simp only [Option.some.injEq] at hstep; subst hstep; rfl
    · simp at hstep
  | dtor x =>
    simp only [HandleOp.step, ex.dtor] at hstep
    split at hstep
    · split at hstep
      · simp only [Option.some.injEq] at hstep; subst hstep; rfl
      · simp at hstep
    · simp at hstep

theorem HandleOp.run_num0 (s0 : State) (ops : List HandleOp) (s : State)
    (hrun : HandleOp.run s0 ops = some s) : s.num0_p = s0.num0_p := by
  induction ops generalizing s0 with
  | nil =>
    simp only [HandleOp.run, Option.some.injEq] at hrun
    exact hrun ▸ rfl
  | cons op ops ih =>
    simp only [HandleOp.run] at hrun
    cases hstep : op.step s0 with
    | none => simp [hstep] at hrun
    | some s1 =>
      simp only [hstep] at hrun
      exact (ih s1 hrun).trans (HandleOp.step_num0 s0 s1 op hstep)

/-- C5: when `_num0_p` points to an object, default construction succeeds,
binds the new handle to that object, and changes the store only by +1 on that
object's count (no node is created, every other cell and handle is as
before); a handle default-constructed later, after any handle operations, is
bound to the same object, so `are_ex_trivially_equal` and `is_equal` hold
between the two and `compare` gives 0. -/
theorem C5_default_ctor_binds_zero (s : State) (n : basic)
    (hn : s.heap.lookup s.num0_p = some n) :
    ∃ s1, ex.ctor_default s = some s1 ∧
      s1.var s.vars.length = some ⟨s.num0_p⟩ ∧
      s1.heap = s.heap.set s.num0_p (some { n with refcount := n.refcount + 1 }) ∧
      s1.heap.lookup s.num0_p = some { n with refcount := n.refcount + 1 } ∧
      (∀ p, p ≠ s.num0_p → s1.heap.lookup p = s.heap.lookup p) ∧
      (∀ x < s.vars.length, s1.var x = s.var x) ∧
      (∀ (ops : List HandleOp) (t t1 : State) (e1 e2 : ex),
        HandleOp.run s1 ops = some t → ex.ctor_default t = some t1 →
        s1.var s.vars.length = some e1 → t1.var t.vars.length = some e2 →
        e1.bp = e2.bp ∧ are_ex_trivially_equal e1 e2 = true ∧
        ∀ v : basic_vtbl, ex.is_equal v t1.heap e1 e2 = some true ∧
          ex.compare v t1.heap e1 e2 = some 0) := by
  have hlt := Heap.lookup_lt _ _ _ hn
  refine ⟨{ s with
      heap := s.heap.set s.num0_p (some { n with refcount := n.refcount + 1 }),
      vars := s.vars ++ [some ⟨s.num0_p⟩] }, by simp only [ex.ctor_default, Heap.incref, hn],
    State.var_append_new s.vars _, rfl, ?_, ?_,
    fun x hx => State.var_append_left s.vars _ x hx, ?_⟩
  · simp only [Heap.lookup_set, hlt, and_self, if_true]
  · intro p hp
    simp only [Heap.lookup_set, Ne.symm hp, false_and, if_false]
  · intro ops t t1 e1 e2 hrun hctor h1 h2
    have hnum0 := HandleOp.run_num0 _ ops t hrun
    have hnum : t.num0_p = s.num0_p := hnum0
    have hnew1 : State.var { s with
        heap := s.heap.set s.num0_p (some { n with refcount := n.refcount + 1 }),
        vars := s.vars ++ [some ⟨s.num0_p⟩] } s.vars.length = some ⟨s.num0_p⟩ :=
      State.var_append_new s.vars _
    rw [hnew1] at h1
    simp only [ex.ctor_default] at hctor
    split at hctor
    · simp only [Option.some.injEq] at hctor
      subst hctor
      have hnew2 : (t.vars ++ [some (⟨t.num0_p⟩ : ex)]).getD t.vars.length none
          = some ⟨t.num0_p⟩ := State.var_append_new t.vars _
      simp only [State.var] at h2
      rw [hnew2] at h2
      simp only [Option.some.injEq] at h1 h2
      subst h1 h2
      simp [are_ex_trivially_equal, ex.is_equal, ex.compare, hnum]
    · simp at hctor

/-- Witness of C5 on the sample state, whose zero object lives at address 1. -/
theorem C5_default_ctor_binds_zero_witness :
    sample_state.heap.lookup sample_state.num0_p = some ⟨0, [], 3⟩ ∧
    ∃ s1, ex.ctor_default sample_state = some s1 ∧ s1.var 3 = some ⟨1⟩ := by
  obtain ⟨s1, h1, h2, _⟩ := C5_default_ctor_binds_zero sample_state ⟨0, [], 3⟩ (by decide)
  exact ⟨by decide, s1, h1, h2⟩

/-! ### Iterators -/

/-- C7: `p == q` is true exactly when `p` and `q` hold the same node pointer
and the same index; `p != q` is its negation; iterators with one index over
two different nodes are not equal. -/
theorem C7_iterator_equality (p q : ex.const_iterator) :
    (p.eq q = true ↔ p.bp = q.bp ∧ p.i = q.i) ∧
    p.ne q = !(p.eq q) ∧
    (p.bp ≠ q.bp → p.i = q.i → p.eq q = false ∧ p.ne q = true) := by
  refine ⟨by simp [ex.const_iterator.eq], rfl, fun hbp _ => ?_⟩
  simp [ex.const_iterator.eq, ex.const_iterator.ne, hbp]

/-- Witness of C7: index 1 over the nodes at 3 and at 4. -/
theorem C7_iterator_equality_witness :
    ex.const_iterator.eq ⟨3, 1⟩ ⟨4, 1⟩ = false ∧ ex.const_iterator.ne ⟨3, 1⟩ ⟨4, 1⟩ = true :=
  (C7_iterator_equality ⟨3, 1⟩ ⟨4, 1⟩).2.2 (by decide) rfl

theorem distance_eq (p q : ex.const_iterator) (hp : p.i < 2 ^ 63) (hq : q.i < 2 ^ 63) :
    ex.const_iterator.distance q p = (q.i : Int) - (p.i : Int) := by
  simp only [ex.const_iterator.distance, to_ptrdiff_t, to_size_t, SIZE_MOD, Nat.reducePow,
    Nat.cast_ofNat]
  split_ifs <;> omega

/-- C9: for iterators at indices below 2^63 the distance `q - p` is the
signed difference of the indices, negative when `q` is before `p` although
the subtraction is done in `size_t`; hence `q - p = -(p - q)`, the distance
from index 0 to index 2 is 2 and back it is -2, and `end() - begin()` is
`nops()`. -/
theorem C9_iterator_distance (p q : ex.const_iterator) (hp : p.i < 2 ^ 63)
    (hq : q.i < 2 ^ 63) :
    q.distance p = (q.i : Int) - (p.i : Int) ∧
    q.distance p = -(p.distance q) ∧
    (p.i = 0 → q.i = 2 → q.distance p = 2 ∧ p.distance q = -2) ∧
    (∀ (s : State) (h : ex) (n : Nat), ex.nops s h = some n → n < 2 ^ 63 →
      ∃ last, ex.end_ s h = some last ∧ last.distance (ex.begin h) = (n : Int)) := by
  have h1 := distance_eq p q hp hq
  have h2 := distance_eq q p hq hp
  refine ⟨h1, by omega, fun h0 h2i => ⟨by omega, by omega⟩, fun s h n hn hsz => ?_⟩
  have hend : ex.end_ s h = some ⟨h.bp, n⟩ := by
    simp only [ex.end_]
    rw [show basic.nops s.heap h.bp = some n from hn]
    rfl
  refine ⟨_, hend, ?_⟩
  have := distance_eq (ex.begin h) ⟨h.bp, n⟩ (by simp [ex.begin]) hsz
  simpa [ex.begin] using this

/-- Witness of C9: indices 2 and 0 over the node at 4 of `triple_state`. -/
theorem C9_iterator_distance_witness :
    ex.const_iterator.distance ⟨4, 0⟩ ⟨4, 2⟩ = -2 ∧
    ex.const_iterator.distance ⟨4, 2⟩ ⟨4, 0⟩ = 2 ∧
    ∃ last, ex.end_ triple_state ⟨4⟩ = some last ∧ last.distance (ex.begin ⟨4⟩) = 3 := by
  have h := C9_iterator_distance ⟨4, 0⟩ ⟨4, 2⟩ (by norm_num) (by norm_num)
  exact ⟨(h.2.2.1 rfl rfl).2, (h.2.2.1 rfl rfl).1,
    h.2.2.2 triple_state ⟨4⟩ 3 (by decide) (by norm_num)⟩

theorem basic.op_spec (s : State) (p : Ptr) (n : basic) (i : Nat) (o : ex) (hinv : s.Inv)
    (hn : s.heap.lookup p = some n) (ho : n.seq[i]? = some o) :
    ∃ m, s.heap.lookup o.bp = some m ∧
      basic.op s p i = some (o, { s with
        heap := s.heap.set o.bp (some { m with refcount := m.refcount + 1 }),
        vars := s.vars ++ [some o] }) ∧
      State.Inv { s with
        heap := s.heap.set o.bp (some { m with refcount := m.refcount + 1 }),
        vars := s.vars ++ [some o] } ∧
      ∃ n1, Heap.lookup (s.heap.set o.bp (some { m with refcount := m.refcount + 1 })) p
          = some n1 ∧ n1.tinfo = n.tinfo ∧ n1.seq = n.seq := by
  have hacc := (s.inv_iff_accounted).mp hinv
  have hmem : o ∈ n.seq := List.mem_iff_getElem?.mpr ⟨i, ho⟩
  obtain ⟨m, hm⟩ := hinv.operand_live hn hmem
  refine ⟨m, hm, by simp only [basic.op, hn, ho, Heap.incref, hm], ?_, ?_⟩
  · refine (State.inv_iff_accounted _).mpr (hacc.incref hm fun q => ?_)
    have : (q = o.bp) ↔ (o.bp = q) := eq_comm
    simp only [List.count_append, List.count_cons, List.count_nil, beq_iff_eq,
      some_ex_eq_iff, this]
    omega
  · rw [Heap.lookup_set]
    split_ifs with hpe
    · rw [← hpe.1, hm] at hn
      simp only [Option.some.injEq] at hn
      exact ⟨_, rfl, by rw [← hn], by rw [← hn]⟩
    · exact ⟨n, hn, rfl, rfl⟩

/-- C8: for a handle `h` on a node with `n` operands and an index `i < n`,
`*(h.begin() + i)` is `h.op(i)`: both synthesize a handle on the node of the
`i`-th operand.  The call leaves the node of `h` with the same type and
operands, the counts exact, and the same iterator dereferences to the same
operand afterwards. -/
theorem C8_iterator_deref_is_op (s : State) (h : ex) (n : basic) (i : Nat) (hinv : s.Inv)
    (hn : s.heap.lookup h.bp = some n) (hi : i < n.seq.length)
    (hsz : n.seq.length ≤ SIZE_MOD) :
    ∃ o m s1, n.seq[i]? = some o ∧ s.heap.lookup o.bp = some m ∧
      ((ex.begin h).add (to_ptrdiff_t i)).deref s = some (o, s1) ∧
      ex.op s h i = some (o, s1) ∧
      (h.begin.add (to_ptrdiff_t i)).deref s = ex.op s h i ∧
      s1.var s.vars.length = some o ∧
      s1.heap = s.heap.set o.bp (some { m with refcount := m.refcount + 1 }) ∧
      (∃ n1, s1.heap.lookup h.bp = some n1 ∧ n1.tinfo = n.tinfo ∧ n1.seq = n.seq) ∧
      s1.Inv ∧
      ((h.begin.add (to_ptrdiff_t i)).deref s1).map Prod.fst = some o := by
  have hidx : (ex.begin h).add (to_ptrdiff_t i) = ⟨h.bp, i⟩ := by
    have hlt : i < SIZE_MOD := by omega
    simp only [ex.begin, ex.const_iterator.add, ex.const_iterator.mk.injEq, true_and]
    simp only [to_size_t, to_ptrdiff_t, SIZE_MOD, Nat.reducePow, Nat.cast_ofNat] at *
    split_ifs <;> omega
  have ho : n.seq[i]? = some (n.seq[i]) := List.getElem?_eq_getElem hi
  obtain ⟨m, hm, hop, hinv1, n1, hn1, ht1, hs1⟩ := basic.op_spec s h.bp n i _ hinv hn ho
  have ho1 : n1.seq[i]? = some (n.seq[i]) := by rw [hs1]; exact ho
  obtain ⟨m2, _, hop2, _⟩ := basic.op_spec _ h.bp n1 i _ hinv1 hn1 ho1
  refine ⟨n.seq[i], m, _, ho, hm, ?_, hop, ?_, State.var_append_new s.vars _, rfl,
    ⟨n1, hn1, ht1, hs1⟩, hinv1, ?_⟩
  · rw [hidx]; exact hop
  · rw [hidx]; rfl
  · rw [hidx]
    simp only [ex.const_iterator.deref]
    rw [hop2]; rfl

/-- Witness of C8: operands `[o0, o1, o2]` at addresses 2, 3, 1; the iterator
at index 1 dereferences to `o1`, the handle on the node at 3. -/
theorem C8_iterator_deref_is_op_witness :
    triple_state.Inv ∧ triple_state.heap.lookup 4 = some ⟨2, [⟨2⟩, ⟨3⟩, ⟨1⟩], 1⟩ ∧
    ∃ s1, ((ex.begin ⟨4⟩).add (to_ptrdiff_t 1)).deref triple_state = some (⟨3⟩, s1) := by
  obtain ⟨o, m, s1, h1, _, h2, _⟩ :=
    C8_iterator_deref_is_op triple_state ⟨4⟩ ⟨2, [⟨2⟩, ⟨3⟩, ⟨1⟩], 1⟩ 1 (by decide) (by decide)
      (by decide) (by decide)
  have ho : o = ⟨3⟩ := by
    have h3 : (some (⟨3⟩ : ex)) = some o := h1
    exact (Option.some.inj h3).symm
  exact ⟨by decide, by decide, s1, ho ▸ h2⟩

theorem iterate_inc (bp : Ptr) (k : Nat) :
    ex.const_iterator.inc^[k] ⟨bp, 0⟩ = ⟨bp, k % SIZE_MOD⟩ := by
  induction k with
  | zero => rfl
  | succ k ih =>
    rw [Function.iterate_succ_apply', ih]
    simp only [ex.const_iterator.inc, ex.const_iterator.mk.injEq, true_and, SIZE_MOD,
      Nat.reducePow]
    omega

theorem ex.traverse_spec (h : ex) (seq : List ex) (hsz : seq.length < SIZE_MOD) :
    ∀ (j k : Nat) (t : State), k + j = seq.length → t.Inv →
      (∃ nt, t.heap.lookup h.bp = some nt ∧ nt.seq = seq) →
      ∃ t1, ex.traverse (j + 1) t ⟨h.bp, k⟩ ⟨h.bp, seq.length⟩ = some (seq.drop k, t1) := by
  intro j
  induction j with
  | zero =>
    intro k t hk _ _
    have hk1 : k = seq.length := by omega
    subst hk1
    exact ⟨t, by simp [ex.traverse, ex.const_iterator.ne, ex.const_iterator.eq]⟩
  | succ j ih =>
    intro k t hk hinv hnode
    obtain ⟨nt, hnt, hseq⟩ := hnode
    have hlt : k < seq.length := by omega
    have ho : nt.seq[k]? = some (seq[k]) := by rw [hseq]; exact List.getElem?_eq_getElem hlt
    obtain ⟨m, _, hop, hinv1, n1, hn1, _, hs1⟩ := basic.op_spec t h.bp nt k _ hinv hnt ho
    have hinc : ex.const_iterator.inc ⟨h.bp, k⟩ = ⟨h.bp, k + 1⟩ := by
      simp only [ex.const_iterator.inc, ex.const_iterator.mk.injEq, true_and]
      exact Nat.mod_eq_of_lt (by omega)
    obtain ⟨t2, ht2⟩ := ih (k + 1) _ (by omega) hinv1 ⟨n1, hn1, hs1.trans hseq⟩
    refine ⟨t2, ?_⟩
    have hne : ex.const_iterator.ne ⟨h.bp, k⟩ ⟨h.bp, seq.length⟩ = true := by
      simp [ex.const_iterator.ne, ex.const_iterator.eq, Nat.ne_of_lt hlt]
    rw [ex.traverse]
    simp only [hne, if_true, ex.const_iterator.deref, hop, hinc, ht2]
    rw [List.drop_eq_getElem_cons hlt]

/-- C10: for a handle `h` on a node with `n` operands, `begin()` stepped `n`
times with `++` equals `end()`, and stepped fewer times it differs from
`end()`; the iterator reached after `k < n` steps dereferences to `op(k)`,
operand `k` of the node; the loop from `begin()` to `end()` ends after `n`
dereferences with the operands in their order; `begin()` is index 0 on the
node of `h`, whatever iterators were used before. -/
theorem C10_traversal_finite_in_order (s : State) (h : ex) (n : basic) (hinv : s.Inv)
    (hn : s.heap.lookup h.bp = some n) (hsz : n.seq.length < SIZE_MOD) :
    ∃ last, ex.end_ s h = some last ∧
      (ex.const_iterator.inc^[n.seq.length] (ex.begin h)).eq last = true ∧
      (∀ k < n.seq.length, (ex.const_iterator.inc^[k] (ex.begin h)).ne last = true) ∧
      (∀ k < n.seq.length,
        ((ex.const_iterator.inc^[k] (ex.begin h)).deref s).map Prod.fst = n.seq[k]? ∧
        (ex.const_iterator.inc^[k] (ex.begin h)).deref s = ex.op s h k) ∧
      (∃ s1, ex.traverse (n.seq.length + 1) s (ex.begin h) last = some (n.seq, s1)) ∧
      ex.begin h = ⟨h.bp, 0⟩ := by
  have hend : ex.end_ s h = some ⟨h.bp, n.seq.length⟩ := by
    simp only [ex.end_, basic.nops, hn, Option.map_some']
  refine ⟨_, hend, ?_, fun k hk => ?_, fun k hk => ?_, ?_, rfl⟩
  · rw [ex.begin, iterate_inc, Nat.mod_eq_of_lt hsz]
    simp [ex.const_iterator.eq]
  · rw [ex.begin, iterate_inc, Nat.mod_eq_of_lt (by omega)]
    simp [ex.const_iterator.ne, ex.const_iterator.eq, Nat.ne_of_lt hk]
  · rw [ex.begin, iterate_inc, Nat.mod_eq_of_lt (by omega)]
    have ho : n.seq[k]? = some (n.seq[k]) := List.getElem?_eq_getElem hk
    obtain ⟨m, _, hop, _⟩ := basic.op_spec s h.bp n k _ hinv hn ho
    simp only [ex.const_iterator.deref, ex.op, hop, Option.map_some', ho, and_self]
  · obtain ⟨t1, ht1⟩ := ex.traverse_spec h n.seq hsz n.seq.length 0 s (by omega) hinv
      ⟨n, hn, rfl⟩
    exact ⟨t1, by simpa [ex.begin] using ht1⟩

/-- Witness of C10 on the three-operand node of `triple_state`. -/
theorem C10_traversal_finite_in_order_witness :
    triple_state.Inv ∧ triple_state.heap.lookup 4 = some ⟨2, [⟨2⟩, ⟨3⟩, ⟨1⟩], 1⟩ ∧
    ∃ s1, ex.traverse 4 triple_state (ex.begin ⟨4⟩) ⟨4, 3⟩ = some ([⟨2⟩, ⟨3⟩, ⟨1⟩], s1) := by
  obtain ⟨last, h1, _, _, _, ⟨s1, h2⟩, _⟩ :=
    C10_traversal_finite_in_order triple_state ⟨4⟩ ⟨2, [⟨2⟩, ⟨3⟩, ⟨1⟩], 1⟩ (by decide)
      (by decide) (by decide)
  have hl : last = ⟨4, 3⟩ := by
    have h3 : some (⟨4, 3⟩ : ex.const_iterator) = some last := h1
    exact (Option.some.inj h3).symm
  exact ⟨by decide, by decide, s1, hl ▸ h2⟩

/-! ### Copy-on-write -/

theorem pad_getElem? (l : List (Option basic)) (p q : Nat) (c : basic)
    (hp : l.length ≤ p) :
    (l ++ List.replicate (p - l.length) none ++ [some c])[q]?.getD none
      = if p = q then some c else l[q]?.getD none := by
  by_cases hpq : p = q
  · subst hpq
    simp only [if_true]
    rw [List.getElem?_append_right (by simp; omega)]
    have : p - (l ++ List.replicate (p - l.length) none).length = 0 := by simp; omega
    rw [this]
    rfl
  · simp only [hpq, if_false]
    by_cases hq : q < l.length
    · rw [List.append_assoc, List.getElem?_append_left hq]
    · rw [List.getElem?_eq_none (l := l) (by omega)]
      by_cases hq2 : q < p
      · rw [List.getElem?_append_left (by simp; omega),
          List.getElem?_append_right (by omega), List.getElem?_replicate]
        split_ifs <;> rfl
      · rw [List.getElem?_eq_none (by simp; omega)]

theorem Heap.lookup_store (h : Heap) (p q : Ptr) (c : basic) :
    Heap.lookup (h.store p c) q = if p = q then some c else h.lookup q := by
  by_cases hp : p < h.length
  · simp only [Heap.store, hp, if_true, Heap.lookup_set, and_true]
  · simp only [Heap.store, hp, if_false, Heap.lookup, List.getD_eq_getElem?_getD]
    exact pad_getElem? h p q c (not_lt.mp hp)

theorem Heap.incref_all_spec (seq : List ex) :
    ∀ h : Heap, (∀ e ∈ seq, h.lookup e.bp ≠ none) →
      ∃ h1, h.incref_all seq = some h1 ∧
        ∀ p, h1.lookup p = (h.lookup p).map fun k =>
          { k with refcount := k.refcount + seq.count ⟨p⟩ } := by
  induction seq with
  | nil =>
    intro h _
    refine ⟨h, rfl, fun p => ?_⟩
    cases h.lookup p <;> simp
  | cons e rest ih =>
    intro h hlive
    obtain ⟨k, hk⟩ := Option.ne_none_iff_exists.mp (hlive e (List.mem_cons_self _ _))
    have hklt := Heap.lookup_lt h e.bp k hk.symm
    have hlive1 : ∀ x ∈ rest,
        Heap.lookup (h.set e.bp (some { k with refcount := k.refcount + 1 })) x.bp ≠ none := by
      intro x hx
      rw [Heap.lookup_set]
      split_ifs
      · simp
      · exact hlive x (List.mem_cons_of_mem _ hx)
    obtain ⟨h1, hh1, hl1⟩ := ih _ hlive1
    refine ⟨h1, by simp only [Heap.incref_all, Heap.incref, ← hk, hh1], fun p => ?_⟩
    rw [hl1 p, Heap.lookup_set, count_ex_cons]
    by_cases hpe : e.bp = p
    · subst hpe
      simp only [hklt, and_self, if_true, ← hk, Option.map_some', Option.some.injEq,
        basic.mk.injEq, true_and]
      omega
    · simp only [hpe, false_and, if_false, Nat.add_zero]

theorem ex.makewriteable_clone (s : State) (b : Nat) (e : ex) (n : basic) (fresh : Ptr)
    (hinv : s.Inv) (hb : s.var b = some e) (hn : s.heap.lookup e.bp = some n)
    (hshared : ¬ (n.refcount = 1 ∧ e.bp ≠ s.num0_p)) (hfresh : fresh ≠ 0)
    (hdead : s.heap.lookup fresh = none) :
    ∃ heap2, ex.makewriteable s b fresh
        = some { s with heap := heap2, vars := s.vars.set b (some ⟨fresh⟩) } ∧
      heap2.lookup fresh = some { n with refcount := 1 } ∧
      ∀ p, p ≠ fresh → heap2.lookup p = (s.heap.lookup p).map fun k =>
        { k with refcount := k.refcount + n.seq.count ⟨p⟩ - if p = e.bp then 1 else 0 } := by
  have hlive : ∀ x ∈ n.seq, s.heap.lookup x.bp ≠ none := by
    intro x hx
    obtain ⟨m, hm⟩ := hinv.operand_live hn hx
    simp [hm]
  obtain ⟨heap1, hh1, hl1⟩ := Heap.incref_all_spec n.seq s.heap hlive
  have hne : e.bp ≠ fresh := by
    intro heq
    rw [heq, hdead] at hn
    simp at hn
  have hpos := ((hinv.all e.bp).1 n hn).2
  have hls : Heap.lookup (heap1.store fresh { n with refcount := 1 }) e.bp
      = some { n with refcount := n.refcount + n.seq.count ⟨e.bp⟩ } := by
    rw [Heap.lookup_store, if_neg (Ne.symm hne), hl1, hn]
    rfl
  have hlt := Heap.lookup_lt _ _ _ hls
  have hnz : ¬ (n.refcount + n.seq.count ⟨e.bp⟩ = 0) := by omega
  have hcond : ¬ (fresh = 0 ∨ s.heap.lookup fresh ≠ none) := by simp [hfresh, hdead]
  refine ⟨List.set (heap1.store fresh { n with refcount := 1 }) e.bp
      (some { n with refcount := n.refcount + n.seq.count ⟨e.bp⟩ - 1 }),
    by simp only [ex.makewriteable, hb, hn, hshared, hcond, if_false, hh1,
      Heap.decref, hls, hnz], ?_, fun p hp => ?_⟩
  · rw [Heap.lookup_set, if_neg (by simp [hne]), Heap.lookup_store, if_pos rfl]
  · rw [Heap.lookup_set]
    by_cases hpe : e.bp = p
    · subst hpe
      simp only [hlt, and_self, if_true, hn, Option.map_some']
    · have hpe1 : ¬ p = e.bp := fun h => hpe h.symm
      simp only [hpe, hpe1, false_and, if_false, Nat.sub_zero]
      rw [Heap.lookup_store, if_neg (Ne.symm hp), hl1]

theorem Heap.shaped_set (h : Heap) (p q : Ptr) (k kq kq1 : basic)
    (hp : ∃ k1, h.lookup p = some k1 ∧ k1.tinfo = k.tinfo ∧ k1.seq = k.seq)
    (hq : h.lookup q = some kq) (ht : kq1.tinfo = kq.tinfo) (hs : kq1.seq = kq.seq) :
    ∃ k1, Heap.lookup (h.set q (some kq1)) p = some k1 ∧ k1.tinfo = k.tinfo ∧
      k1.seq = k.seq := by
  obtain ⟨k1, hk1, ht1, hs1⟩ := hp
  rw [Heap.lookup_set]
  split_ifs with hqp
  · rw [hqp.1, hk1] at hq
    simp only [Option.some.injEq] at hq
    subst hq
    exact ⟨kq1, rfl, ht.trans ht1, hs.trans hs1⟩
  · exact ⟨k1, hk1, ht1, hs1⟩

theorem ex.write_op_shared (s : State) (b : Nat) (e : ex) (n : basic) (i src : Nat) (v : ex)
    (fresh : Ptr) (hinv : s.Inv) (hb : s.var b = some e) (hn : s.heap.lookup e.bp = some n)
    (hi : i < n.seq.length) (hv : s.var src = some v) (hshared : 1 < n.refcount)
    (hfresh : fresh ≠ 0) (hdead : s.heap.lookup fresh = none) :
    ∃ s1 c, ex.write_op s b i src fresh = some s1 ∧
      s1.vars = s.vars.set b (some ⟨fresh⟩) ∧
      s1.heap.lookup fresh = some c ∧ c.tinfo = n.tinfo ∧
      c.seq = n.seq.set i (if b = src then ⟨fresh⟩ else v) ∧
      (∀ p k, s.heap.lookup p = some k →
        ∃ k1, s1.heap.lookup p = some k1 ∧ k1.tinfo = k.tinfo ∧ k1.seq = k.seq) := by
  obtain ⟨heap2, hmw, hcl, hl2⟩ := ex.makewriteable_clone s b e n fresh hinv hb hn
    (by omega) hfresh hdead
  have hblt := s.var_lt b e hb
  have hlive_ne : ∀ p k, s.heap.lookup p = some k → p ≠ fresh := by
    intro p k hk heq
    rw [heq, hdead] at hk
    simp at hk
  -- every node of `s` is in `heap2` with the same type and operands
  have hshape2 : ∀ p k, s.heap.lookup p = some k →
      ∃ k1, heap2.lookup p = some k1 ∧ k1.tinfo = k.tinfo ∧ k1.seq = k.seq := by
    intro p k hk
    rw [hl2 p (hlive_ne p k hk), hk]
    exact ⟨_, rfl, rfl, rfl⟩
  -- the reference `let_op` returns
  have hvarb : (s.vars.set b (some (⟨fresh⟩ : ex))).getD b none = some ⟨fresh⟩ := by
    rw [State.var_set s b b _ hblt]; simp
  have hlet : ex.let_op s b i fresh
      = some ({ s with heap := heap2, vars := s.vars.set b (some ⟨fresh⟩) }, fresh, i) := by
    simp only [ex.let_op, hmw, State.var, hvarb, hcl, hi, if_true]
  -- the right-hand side
  obtain ⟨w, hw⟩ : ∃ w : ex, w = if b = src then ⟨fresh⟩ else v := ⟨_, rfl⟩
  have hvarsrc : (s.vars.set b (some (⟨fresh⟩ : ex))).getD src none = some w := by
    rw [State.var_set s b src _ hblt, hw]
    split_ifs
    · rfl
    · exact hv
  obtain ⟨kw, hkw⟩ : ∃ kw, heap2.lookup w.bp = some kw := by
    rw [hw]
    split_ifs
    · exact ⟨_, hcl⟩
    · obtain ⟨m, hm⟩ := hinv.var_live hv
      obtain ⟨k1, hk1, _⟩ := hshape2 v.bp m hm
      exact ⟨k1, hk1⟩
  rw [← hw]
  -- the operand that is overwritten
  have hold : n.seq[i]? = some (n.seq[i]) := List.getElem?_eq_getElem hi
  have hmem : n.seq[i] ∈ n.seq := List.getElem_mem hi
  obtain ⟨ko, hko⟩ := hinv.operand_live hn hmem
  have hkopos := ((hinv.all _).1 ko hko).2
  have hcnt : 0 < n.seq.count (⟨(n.seq[i]).bp⟩ : ex) := List.count_pos_iff.mpr hmem
  have hone : ko.refcount + n.seq.count (⟨(n.seq[i]).bp⟩ : ex)
      - (if (n.seq[i]).bp = e.bp then 1 else 0) ≥ 2 := by
    split_ifs with heq
    · rw [heq, hn] at hko
      simp only [Option.some.injEq] at hko
      subst hko
      omega
    · omega
  have hold2 : heap2.lookup (n.seq[i]).bp = some { ko with
      refcount := ko.refcount + n.seq.count (⟨(n.seq[i]).bp⟩ : ex)
        - (if (n.seq[i]).bp = e.bp then 1 else 0) } := by
    rw [hl2 _ (hlive_ne _ ko hko), hko]
    rfl
  obtain ⟨k3, hk3, hk3rc⟩ : ∃ k3, Heap.lookup (heap2.set
      w.bp (some { kw with refcount := kw.refcount + 1 }))
      (n.seq[i]).bp = some k3 ∧ 1 < k3.refcount := by
    rw [Heap.lookup_set]
    split_ifs with hwo
    · rw [hwo.1, hold2] at hkw
      simp only [Option.some.injEq] at hkw
      refine ⟨_, rfl, ?_⟩
      rw [← hkw]
      simp only
      omega
    · exact ⟨_, hold2, by simp only; omega⟩
  have hun := Heap.unbind_shared _ (n.seq[i]) k3 hk3 hk3rc
  -- the clone after the two count updates
  have hshape4 : ∀ (p : Ptr) (k : basic), (∃ k1, heap2.lookup p = some k1 ∧ k1.tinfo = k.tinfo ∧ k1.seq = k.seq) →
      ∃ k1, Heap.lookup ((heap2.set w.bp
        (some { kw with refcount := kw.refcount + 1 })).set (n.seq[i]).bp
        (some { k3 with refcount := k3.refcount - 1 })) p = some k1 ∧
        k1.tinfo = k.tinfo ∧ k1.seq = k.seq := by
    intro p k hp
    exact Heap.shaped_set _ p _ k k3 _ (Heap.shaped_set _ p _ k kw _ hp hkw rfl rfl)
      hk3 rfl rfl
  obtain ⟨n2, hn2, hn2t, hn2s⟩ := hshape4 fresh { n with refcount := 1 } ⟨_, hcl, rfl, rfl⟩
  have hn2lt := Heap.lookup_lt _ _ _ hn2
  refine ⟨{ s with
      heap := List.set ((heap2.set w.bp (some { kw with refcount := kw.refcount + 1 })).set
        (n.seq[i]).bp (some { k3 with refcount := k3.refcount - 1 })) fresh
        (some { n2 with seq := n2.seq.set i w }),
      vars := s.vars.set b (some ⟨fresh⟩) },
    { n2 with seq := n2.seq.set i w }, ?_, rfl, ?_, hn2t,
    by rw [hn2s], fun p k hk => ?_⟩
  · simp only [ex.write_op, hlet, ex.assign_operand, State.var, hvarsrc, hcl, hold,
      Heap.incref, hkw, hun, hn2]
  · simp only [Heap.lookup_set, hn2lt, and_self, if_true]
  · obtain ⟨k1, hk1, ht1, hs1⟩ := hshape4 p k (hshape2 p k hk)
    refine ⟨k1, ?_, ht1, hs1⟩
    rw [Heap.lookup_set, if_neg (by simp [Ne.symm (hlive_ne p k hk)])]
    exact hk1

theorem count_set_getElem (l : List ex) (i : Nat) (b a : ex) (hi : i < l.length) :
    (l.set i b).count a + (if l[i]? = some a then 1 else 0)
      = l.count a + (if b = a then 1 else 0) := by
  induction l generalizing i with
  | nil => simp at hi
  | cons c t ih =>
    cases i with
    | zero =>
      simp only [List.set_cons_zero, List.count_cons, List.getElem?_cons_zero, beq_iff_eq,
        Option.some.injEq]
      omega
    | succ i =>
      have := ih i (by simpa using hi)
      simp only [List.set_cons_succ, List.count_cons, List.getElem?_cons_succ, beq_iff_eq]
        at this ⊢
      omega

theorem Heap.set_operand_set_comm (h : Heap) (p q : Ptr) (i : Nat) (o : ex)
    (x : Option basic) (hqp : q ≠ p) :
    Heap.set_operand (h.set q x) p i o = (h.set_operand p i o).set q x := by
  simp only [Heap.set_operand, Heap.lookup_set, hqp, false_and, if_false]
  cases h.lookup p with
  | none => rfl
  | some k => exact List.set_comm _ _ _ hqp

theorem Heap.set_operand_set_same (h : Heap) (p : Ptr) (i : Nat) (o : ex) (k : basic)
    (r : Nat) (hk : h.lookup p = some k) :
    Heap.set_operand (h.set p (some { k with refcount := r })) p i o
      = (h.set_operand p i o).set p
          (some { tinfo := k.tinfo, seq := k.seq.set i o, refcount := r }) := by
  have hlt := Heap.lookup_lt h p k hk
  simp only [Heap.set_operand, Heap.lookup_set, hlt, and_self, if_true, hk, List.set_set]

theorem Heap.release_set_operand (p : Ptr) (i : Nat) (o : ex) :
    ∀ (fuel : Nat) (h : Heap) (work : List ex) (h2 : Heap),
      Heap.release fuel (h.set_operand p i o) work = some h2 → h2.lookup p ≠ none →
      ∃ h1, Heap.release fuel h work = some h1 ∧ h1.set_operand p i o = h2 := by
  intro fuel
  induction fuel with
  | zero =>
    intro h work h2 hrel _
    cases work with
    | nil =>
      simp only [Heap.release, Option.some.injEq] at hrel
      exact ⟨h, rfl, hrel⟩
    | cons e rest => simp [Heap.release] at hrel
  | succ fuel ih =>
    intro h work h2 hrel hlive
    cases work with
    | nil =>
      simp only [Heap.release, Option.some.injEq] at hrel
      exact ⟨h, rfl, hrel⟩
    | cons e rest =>
      by_cases hep : e.bp = p
      · cases hk : h.lookup p with
        | none =>
          have hM : h.set_operand p i o = h := by simp only [Heap.set_operand, hk]
          rw [hM] at hrel
          obtain ⟨_, hfr⟩ := Heap.release_frame _ _ _ _ hrel
          cases hl2 : h2.lookup p with
          | none => exact absurd hl2 hlive
          | some k2 =>
            exfalso
            simp only [Heap.release, hep, hk] at hrel
            simp at hrel
        | some k =>
          have hlt := Heap.lookup_lt h p k hk
          have hM : h.set_operand p i o = h.set p (some { k with seq := k.seq.set i o }) := by
            simp only [Heap.set_operand, hk]
          have hlM : Heap.lookup (h.set_operand p i o) p
              = some { k with seq := k.seq.set i o } := by
            rw [hM, Heap.lookup_set]; simp [hlt]
          simp only [Heap.release, hep, hlM, hk] at hrel ⊢
          split_ifs at hrel ⊢ with hz hlast
          · exfalso
            obtain ⟨_, hfr⟩ := Heap.release_frame _ _ _ _ hrel
            cases hl2 : h2.lookup p with
            | none => exact hlive hl2
            | some k2 =>
              obtain ⟨k3, hk3, _⟩ := hfr p k2 hl2
              rw [Heap.lookup_set] at hk3
              have hlt2 : p < (h.set_operand p i o).length := by rw [hM]; simpa using hlt
              simp [hlt2] at hk3
          · have hcomm := Heap.set_operand_set_same h p i o k (k.refcount - 1) hk
            rw [hM, List.set_set] at hcomm
            rw [hM, List.set_set] at hrel
            rw [← hcomm] at hrel
            exact ih _ _ _ hrel hlive
      · have hlM : Heap.lookup (h.set_operand p i o) e.bp = h.lookup e.bp := by
          simp only [Heap.set_operand]
          cases h.lookup p with
          | none => rfl
          | some k => rw [Heap.lookup_set]; simp [Ne.symm hep]
        simp only [Heap.release, hlM] at hrel ⊢
        cases hl : h.lookup e.bp with
        | none => simp [hl] at hrel
        | some m =>
          simp only [hl] at hrel ⊢
          split_ifs at hrel ⊢ with hz hlast
          · rw [← Heap.set_operand_set_comm h p e.bp i o _ hep] at hrel
            exact ih _ _ _ hrel hlive
          · rw [← Heap.set_operand_set_comm h p e.bp i o _ hep] at hrel
            exact ih _ _ _ hrel hlive

theorem Heap.operands_set_operand (h : Heap) (p : Ptr) (i : Nat) (o : ex) :
    Heap.operands (h.set_operand p i o) = h.operands := by
  cases hk : h.lookup p with
  | none => simp only [Heap.set_operand, hk]
  | some k =>
    have := Heap.operands_set h p (some { k with seq := k.seq.set i o })
      (Heap.lookup_lt h p k hk)
    simp only [hk, basic.arity, List.length_set] at this
    simp only [Heap.set_operand, hk]
    omega

theorem ex.assign_operand_spec (s : State) (x : Nat) (p : Ptr) (n : basic) (i src : Nat)
    (v : ex) (hinv : s.Inv) (hx : s.var x = some ⟨p⟩) (hn : s.heap.lookup p = some n)
    (hi : i < n.seq.length) (hv : s.var src = some v) :
    ∃ heap1 c, ex.assign_operand s p i src = some { s with heap := heap1 } ∧
      State.Inv { s with heap := heap1 } ∧
      heap1.lookup p = some c ∧ c.tinfo = n.tinfo ∧ c.seq = n.seq.set i v ∧
      (∀ q k1, heap1.lookup q = some k1 → ∃ k, s.heap.lookup q = some k) := by
  obtain ⟨kv, hkv⟩ := hinv.var_live hv
  have hplt := Heap.lookup_lt _ _ _ hn
  have hvlt := Heap.lookup_lt _ _ _ hkv
  have hold : n.seq[i]? = some (n.seq[i]) := List.getElem?_eq_getElem hi
  -- the node of `p` after the count of the new operand went up
  obtain ⟨n1, hn1, hn1t, hn1s, hn1r⟩ : ∃ n1,
      Heap.lookup (s.heap.set v.bp (some { kv with refcount := kv.refcount + 1 })) p = some n1 ∧
      n1.tinfo = n.tinfo ∧ n1.seq = n.seq ∧
      n1.refcount = n.refcount + if v.bp = p then 1 else 0 := by
    rw [Heap.lookup_set]
    by_cases hvp : v.bp = p
    · rw [hvp, hn] at hkv
      simp only [Option.some.injEq] at hkv
      subst hkv
      simp only [hvp, hplt, and_self, if_true]
      exact ⟨_, rfl, rfl, rfl, rfl⟩
    · simp only [hvp, false_and, if_false]
      exact ⟨n, hn, rfl, rfl, rfl⟩
  have hn1lt := Heap.lookup_lt _ _ _ hn1
  have hMdef : Heap.set_operand (s.heap.set v.bp (some { kv with refcount := kv.refcount + 1 }))
      p i v = List.set (s.heap.set v.bp (some { kv with refcount := kv.refcount + 1 })) p
        (some { n1 with seq := n.seq.set i v }) := by
    simp only [Heap.set_operand, hn1, hn1s]
  -- accounting with the operand already rebound and the old one still to release
  have hacc : Heap.Accounted (Heap.set_operand
      (s.heap.set v.bp (some { kv with refcount := kv.refcount + 1 })) p i v)
      (fun q => s.vars.count (some ⟨q⟩)) [n.seq[i]] := by
    rw [hMdef]
    refine ⟨?_, fun q => ?_⟩
    · rw [Heap.lookup_set, Heap.lookup_set]
      split_ifs with h1 h2
      · rw [h1.1, hinv.1] at hn; simp at hn
      · rw [h2.1, hinv.1] at hkv; simp at hkv
      · exact hinv.1
    · have hF1 := hinv.all q
      simp only [State.bound] at hF1
      have hE1 := Heap.embedded_set s.heap v.bp q
        (some { kv with refcount := kv.refcount + 1 }) hvlt
      simp only [hkv, basic.refs] at hE1
      have hE2 := Heap.embedded_set (s.heap.set v.bp (some { kv with refcount := kv.refcount + 1 }))
        p q (some { n1 with seq := n.seq.set i v }) hn1lt
      simp only [hn1, basic.refs, hn1s] at hE2
      have hC := count_set_getElem n.seq i v ⟨q⟩ hi
      rw [hold] at hC
      simp only [Option.some.injEq] at hC
      have hc1 : (n.seq[i] = (⟨q⟩ : ex)) ↔ (n.seq[i]).bp = q := by
        cases n.seq[i]; simp
      have hc2 : (v = (⟨q⟩ : ex)) ↔ v.bp = q := by
        cases v; simp
      simp only [hc1, hc2] at hC
      rw [count_ex_cons]
      simp only [List.count_nil, Nat.zero_add]
      rw [Heap.lookup_set, Heap.lookup_set]
      by_cases hpq : p = q
      · subst hpq
        simp only [hn1lt, and_self, if_true]
        refine ⟨fun k hk => ?_, fun hk => by simp at hk⟩
        simp only [Option.some.injEq] at hk
        subst hk
        have := hF1.1 n hn
        simp only
        split_ifs at hn1r hC ⊢ <;> omega
      · simp only [hpq, false_and, if_false]
        by_cases hvq : v.bp = q
        · subst hvq
          simp only [hvlt, and_self, if_true]
          refine ⟨fun k hk => ?_, fun hk => by simp at hk⟩
          simp only [Option.some.injEq] at hk
          subst hk
          have := hF1.1 kv hkv
          simp only [eq_self_iff_true, if_true] at hC
          simp only
          split_ifs at hC ⊢ <;> omega
        · simp only [hvq, false_and, if_false] at hC ⊢
          refine ⟨fun k hk => ?_, fun hk => ?_⟩
          · have := hF1.1 k hk
            split_ifs at hC ⊢ <;> omega
          · have := hF1.2 hk
            split_ifs at hC ⊢ <;> omega
  obtain ⟨h2, hrel, hacc2, _, hframe⟩ := Heap.release_accounted _
    (Heap.release_fuel (s.heap.set v.bp (some { kv with refcount := kv.refcount + 1 }))
      [n.seq[i]]) _ _ hacc (by
        rw [Heap.operands_set_operand]
        exact le_refl _)
  -- the node of `p` survives: handle `x` is bound to it
  have hinv2 : State.Inv { s with heap := h2 } := (State.inv_iff_accounted _).mpr hacc2
  obtain ⟨c, hc⟩ : ∃ c, h2.lookup p = some c := by
    have hx2 : State.var { s with heap := h2 } x = some ⟨p⟩ := hx
    exact hinv2.var_live hx2
  obtain ⟨h1, hrel1, hM1⟩ := Heap.release_set_operand p i v _ _ _ _ hrel (by simp [hc])
  obtain ⟨n2, hn2⟩ : ∃ n2, h1.lookup p = some n2 := by
    cases hl : h1.lookup p with
    | some n2 => exact ⟨n2, rfl⟩
    | none =>
      simp only [Heap.set_operand, hl] at hM1
      rw [hM1, hc] at hl
      simp at hl
  have hfinal : h1.set p (some { n2 with seq := n2.seq.set i v }) = h2 := by
    simp only [Heap.set_operand, hn2] at hM1
    exact hM1
  obtain ⟨c0, hc0, hct, hcs⟩ := hframe p c hc
  rw [hMdef, Heap.lookup_set] at hc0
  simp only [hn1lt, and_self, if_true, Option.some.injEq] at hc0
  subst hc0
  refine ⟨h2, c, ?_, hinv2, hc, hct.trans hn1t, by rw [hcs], fun q k1 hk1 => ?_⟩
  · have hun : Heap.unbind (s.heap.set v.bp (some { kv with refcount := kv.refcount + 1 }))
        (n.seq[i]) = some h1 := hrel1
    simp only [ex.assign_operand, hv, hn, hold, Heap.incref, hkv, hun, hn2, hfinal]
  · obtain ⟨k0, hk0, _⟩ := hframe q k1 hk1
    rw [hMdef, Heap.lookup_set, Heap.lookup_set] at hk0
    split_ifs at hk0 with h1 h2
    · exact ⟨n, h1.1 ▸ hn⟩
    · exact ⟨kv, h2.1 ▸ hkv⟩
    · exact ⟨k0, hk0⟩

theorem basic.op_fst (s : State) (p : Ptr) (k : basic) (j : Nat)
    (hk : s.heap.lookup p = some k) (hlive : ∀ o ∈ k.seq, s.heap.lookup o.bp ≠ none) :
    (basic.op s p j).map Prod.fst = k.seq[j]? := by
  simp only [basic.op, hk]
  cases ho : k.seq[j]? with
  | none => rfl
  | some o =>
    obtain ⟨m, hm⟩ := Option.ne_none_iff_exists.mp
      (hlive o (List.mem_iff_getElem?.mpr ⟨j, ho⟩))
    simp only [Heap.incref, ← hm, Option.map_some']

/-- C6: a write of operand `i` through handle `b` (`b.let_op(i) = v` or
`b[i] = v`), in a state with exact counts whose canonical zero object has no
operands.  When the node of `b` is shared (count above 1), `b` is rebound to a
clone at a fresh address that carries the new operand, every node that
existed keeps its type and operands, and every other handle on the node stays
bound to it and observes the same `nops` and the same `op(j)` for every `j`.
When the count is exactly 1 the write is applied in place: no handle is
rebound, no node is created, and the node of `b` carries the new operand. -/
theorem C6_copy_on_write_transparent (s : State) (b : Nat) (e : ex) (n : basic)
    (i src : Nat) (v : ex) (fresh : Ptr) (hinv : s.Inv)
    (hzero : ∀ z ∈ s.heap.lookup s.num0_p, z.seq = [])
    (hb : s.var b = some e) (hn : s.heap.lookup e.bp = some n) (hi : i < n.seq.length)
    (hv : s.var src = some v) (hfresh : fresh ≠ 0) (hdead : s.heap.lookup fresh = none) :
    (1 < n.refcount → ∃ s1 c, ex.write_op s b i src fresh = some s1 ∧
      ex.write_index s b i src fresh = some s1 ∧
      s1.var b = some ⟨fresh⟩ ∧ (∀ x, x ≠ b → s1.var x = s.var x) ∧
      s1.heap.lookup fresh = some c ∧ c.tinfo = n.tinfo ∧
      c.seq = n.seq.set i (if b = src then ⟨fresh⟩ else v) ∧
      (∀ p k, s.heap.lookup p = some k →
        ∃ k1, s1.heap.lookup p = some k1 ∧ k1.tinfo = k.tinfo ∧ k1.seq = k.seq) ∧
      (∀ a, a ≠ b → s.var a = some e →
        s1.var a = some e ∧ ex.nops s1 e = ex.nops s e ∧
        ∀ j, (ex.op s1 e j).map Prod.fst = (ex.op s e j).map Prod.fst)) ∧
    (n.refcount = 1 → ∃ s1 c, ex.write_op s b i src fresh = some s1 ∧
      ex.write_index s b i src fresh = some s1 ∧
      s1.vars = s.vars ∧ s1.heap.lookup e.bp = some c ∧ c.tinfo = n.tinfo ∧
      c.seq = n.seq.set i v ∧
      (∀ q, s.heap.lookup q = none → s1.heap.lookup q = none) ∧ s1.Inv) := by
  have hblt := s.var_lt b e hb
  constructor
  · intro hshared
    obtain ⟨s1, c, hw, hvars, hc, hct, hcs, hshape⟩ :=
      ex.write_op_shared s b e n i src v fresh hinv hb hn hi hv hshared hfresh hdead
    have hvx : ∀ x, x ≠ b → s1.var x = s.var x := by
      intro x hx
      simp only [State.var, hvars]
      rw [State.var_set s b x _ hblt]
      simp [Ne.symm hx, State.var]
    refine ⟨s1, c, hw, hw, ?_, hvx, hc, hct, hcs, hshape, fun a hab ha => ?_⟩
    · simp only [State.var, hvars]
      rw [State.var_set s b b _ hblt]
      simp
    · obtain ⟨k1, hk1, _, hk1s⟩ := hshape e.bp n hn
      refine ⟨(hvx a hab).trans ha, ?_, fun j => ?_⟩
      · simp only [ex.nops, basic.nops, hk1, hn, Option.map_some', hk1s]
      · have hlive0 : ∀ o ∈ n.seq, s.heap.lookup o.bp ≠ none := by
          intro o ho
          obtain ⟨m, hm⟩ := hinv.operand_live hn ho
          simp [hm]
        have hlive1 : ∀ o ∈ k1.seq, s1.heap.lookup o.bp ≠ none := by
          intro o ho
          rw [hk1s] at ho
          obtain ⟨m, hm⟩ := hinv.operand_live hn ho
          obtain ⟨m1, hm1, _⟩ := hshape o.bp m hm
          simp [hm1]
        simp only [ex.op]
        rw [basic.op_fst s1 e.bp k1 j hk1 hlive1, basic.op_fst s e.bp n j hn hlive0, hk1s]
  · intro hunique
    have hnz : e.bp ≠ s.num0_p := by
      intro heq
      have := hzero n (heq ▸ hn)
      rw [this] at hi
      simp at hi
    have hmw : ex.makewriteable s b fresh = some s := by
      simp only [ex.makewriteable, hb, hn, hunique, hnz, ne_eq, not_false_eq_true, and_self,
        if_true]
    have hlet : ex.let_op s b i fresh = some (s, e.bp, i) := by
      simp only [ex.let_op, hmw, hb, hn, hi, if_true]
    obtain ⟨heap1, c, hassign, hinv1, hc, hct, hcs, hframe⟩ :=
      ex.assign_operand_spec s b e.bp n i src v hinv hb hn hi hv
    have hw : ex.write_op s b i src fresh = some { s with heap := heap1 } := by
      simp only [ex.write_op, hlet, hassign]
    refine ⟨_, c, hw, hw, rfl, hc, hct, hcs, fun q hq => ?_, hinv1⟩
    cases hl : heap1.lookup q with
    | none => rfl
    | some k1 =>
      obtain ⟨k, hk⟩ := hframe q k1 hl
      rw [hq] at hk
      simp at hk

/-- Witness of C6: in `cow_state` handles 0 and 1 share the node at 4 and
operand 0 is written through handle 1, the clone going to address 5; in
`cow_unique_state` handle 1 is alone on the node and the write is in place. -/
theorem C6_copy_on_write_transparent_witness :
    (cow_state.Inv ∧ cow_state.var 1 = some ⟨4⟩ ∧ cow_state.var 0 = some ⟨4⟩ ∧
      ∃ s1, ex.write_op cow_state 1 0 3 5 = some s1 ∧ s1.var 1 = some ⟨5⟩ ∧
        s1.var 0 = some ⟨4⟩) ∧
    (cow_unique_state.Inv ∧ ex.dtor cow_state 0 = some cow_unique_state ∧
      ∃ s1 c, ex.write_op cow_unique_state 1 0 3 5 = some s1 ∧
        s1.vars = cow_unique_state.vars ∧ s1.heap.lookup 4 = some c ∧
        c.seq = [⟨3⟩, ⟨3⟩]) := by
  obtain ⟨s1, c, h1, _, h2, _, _, _, _, _, h3⟩ :=
    (C6_copy_on_write_transparent cow_state 1 ⟨4⟩ ⟨2, [⟨2⟩, ⟨3⟩], 2⟩ 0 3 ⟨3⟩ 5 (by decide)
      (by decide) (by decide) (by decide) (by decide) (by decide) (by decide) (by decide)).1
      (by decide)
  obtain ⟨t1, d, k1, _, k2, k3, _, k4, _⟩ :=
    (C6_copy_on_write_transparent cow_unique_state 1 ⟨4⟩ ⟨2, [⟨2⟩, ⟨3⟩], 1⟩ 0 3 ⟨3⟩ 5
      (by decide) (by decide) (by decide) (by decide) (by decide) (by decide) (by decide)
      (by decide)).2 rfl
  exact ⟨⟨by decide, by decide, by decide, s1, h1, h2, (h3 0 (by decide) (by decide)).1⟩,
    by decide, by decide, t1, d, k1, k2, k3, k4⟩

/-! ### Iterator arithmetic -/

/-- C16: for an iterator `p` (its index a `size_t` value) and an offset `n` of
`difference_type`, positive, zero or negative, with the index arithmetic done
modulo 2^64: `(p + n) - n == p`, `(p + n) - p` is `n`, `n + p` is `p + n`,
`p += n` gives `p + n`, `p -= n` gives `p - n`, `++` then `--` and `--` then
`++` give an iterator equal to `p`, the post-increment and post-decrement
return the old value and leave the stepped iterator, and every result walks
the node of `p`. -/
theorem C16_iterator_offset_arithmetic (p : ex.const_iterator) (n : Int)
    (hp : p.i < SIZE_MOD) (hlo : -(2 ^ 63 : Int) ≤ n) (hhi : n < (2 ^ 63 : Int)) :
    ((p.add n).sub n).eq p = true ∧
    (p.add n).distance p = n ∧
    ex.const_iterator.add_left n p = p.add n ∧
    p.add_assign n = p.add n ∧
    p.sub_assign n = p.sub n ∧
    (p.inc.dec).eq p = true ∧ (p.dec.inc).eq p = true ∧
    p.post_inc = (p, p.inc) ∧ p.post_dec = (p, p.dec) ∧
    (p.add n).bp = p.bp ∧ (p.sub n).bp = p.bp ∧ p.inc.bp = p.bp ∧ p.dec.bp = p.bp ∧
    (p.add_assign n).bp = p.bp ∧ (p.sub_assign n).bp = p.bp := by
  simp only [SIZE_MOD, Nat.reducePow] at hp
  refine ⟨?_, ?_, rfl, rfl, rfl, ?_, ?_, rfl, rfl, rfl, rfl, rfl, rfl, rfl, rfl⟩
  · simp only [ex.const_iterator.eq, ex.const_iterator.add, ex.const_iterator.sub, to_size_t,
      SIZE_MOD, Nat.reducePow, Nat.cast_ofNat, decide_True, Bool.true_and, decide_eq_true_eq]
    omega
  · simp only [ex.const_iterator.distance, ex.const_iterator.add, to_size_t, to_ptrdiff_t,
      SIZE_MOD, Nat.reducePow, Nat.cast_ofNat]
    split_ifs <;> omega
  · simp only [ex.const_iterator.eq, ex.const_iterator.inc, ex.const_iterator.dec, to_size_t,
      SIZE_MOD, Nat.reducePow, Nat.cast_ofNat, decide_True, Bool.true_and, decide_eq_true_eq]
    omega
  · simp only [ex.const_iterator.eq, ex.const_iterator.inc, ex.const_iterator.dec, to_size_t,
      SIZE_MOD, Nat.reducePow, Nat.cast_ofNat, decide_True, Bool.true_and, decide_eq_true_eq]
    omega

/-- Witness of C16: the iterator at index 0 over the node at 4 and the offset
-1, where the index wraps around. -/
theorem C16_iterator_offset_arithmetic_witness :
    ((ex.const_iterator.add ⟨4, 0⟩ (-1)).sub (-1)).eq ⟨4, 0⟩ = true ∧
    (ex.const_iterator.add ⟨4, 0⟩ (-1)).distance ⟨4, 0⟩ = -1 ∧
    (ex.const_iterator.add ⟨4, 0⟩ (-1)).i = 2 ^ 64 - 1 := by
  have h := C16_iterator_offset_arithmetic ⟨4, 0⟩ (-1) (by decide) (by norm_num)
    (by norm_num)
  exact ⟨h.1, h.2.1, by decide⟩

/-- C17 (the code at the failing input): in `triple_state`, for the iterator
`p` at index 0 over the node at 4 and `k = 1`, `*(p + k)` is the handle on the
second operand, the node at 3, while `p[k]` produces no value. -/
theorem C17_subscript_returns_nothing :
    ex.const_iterator.index triple_state ⟨4, 0⟩ 1 = none ∧
    ((ex.const_iterator.add ⟨4, 0⟩ 1).deref triple_state).map Prod.fst = some ⟨3⟩ ∧
    ex.const_iterator.index triple_state ⟨4, 0⟩ 1
      ≠ (ex.const_iterator.add ⟨4, 0⟩ 1).deref triple_state := by
  decide

/-! ### Assignment between handles on one node -/

theorem State.vars_set_self (s : State) (x : Nat) (e : ex) (hx : s.var x = some e) :
    s.vars.set x (some e) = s.vars := by
  have hlt := s.var_lt x e hx
  simp only [State.var, List.getD_eq_getElem?_getD, List.getElem?_eq_getElem hlt,
    Option.getD_some] at hx
  apply List.ext_getElem?
  intro j
  rw [List.getElem?_set]
  split_ifs with hj
  · subst hj
    rw [List.getElem?_eq_getElem hlt, hx]
  · rfl

/-- C15: when handles `a` and `b` are bound to one live node whose count is at
least 1, also exactly 1, the assignment `a = b` succeeds, leaves the store as
it was (the node is not deleted and its count is unchanged) and leaves `a`
bound to that node; the self-assignment `a = a` leaves the whole state as it
was. -/
theorem C15_assignment_same_node_safe (s : State) (a b : Nat) (ea eb : ex) (n : basic)
    (ha : s.var a = some ea) (hb : s.var b = some eb) (hsame : ea.bp = eb.bp)
    (hn : s.heap.lookup ea.bp = some n) (hpos : 0 < n.refcount) :
    (∃ s1, ex.assign s a b = some s1 ∧ s1.heap = s.heap ∧
      s1.heap.lookup ea.bp = some n ∧ s1.var a = some eb ∧
      (∀ x, x ≠ a → s1.var x = s.var x)) ∧
    ex.assign s a a = some s := by
  have halt := s.var_lt a ea ha
  have hnlt := Heap.lookup_lt _ _ _ hn
  have key : ∀ (o : ex), o.bp = ea.bp →
      Heap.unbind (s.heap.set o.bp (some { n with refcount := n.refcount + 1 })) ea
        = some s.heap := by
    intro o ho
    have hl : Heap.lookup (s.heap.set o.bp (some { n with refcount := n.refcount + 1 })) ea.bp
        = some { n with refcount := n.refcount + 1 } := by
      rw [Heap.lookup_set]; simp [ho, hnlt]
    rw [Heap.unbind_shared _ ea _ hl (by simp only; omega), ho, List.set_set]
    simp only [Nat.add_sub_cancel]
    rw [Heap.set_lookup_self s.heap ea.bp n hn]
  have hnb : s.heap.lookup eb.bp = some n := hsame ▸ hn
  constructor
  · refine ⟨{ s with vars := s.vars.set a (some eb) }, ?_, rfl, hn, ?_, fun x hx => ?_⟩
    · simp only [ex.assign, ha, hb, Heap.incref, hnb, key eb hsame.symm]
    · simp only [State.var]
      rw [State.var_set s a a _ halt]
      simp
    · simp only [State.var]
      rw [State.var_set s a x _ halt]
      simp [Ne.symm hx, State.var]
  · simp only [ex.assign, ha, Heap.incref, hn, key ea rfl, s.vars_set_self a ea ha]

/-- Witness of C15: handle 2 of the sample state is the only handle of the
node at 3 (count 1) and is assigned to itself. -/
theorem C15_assignment_same_node_safe_witness :
    sample_state.var 2 = some ⟨3⟩ ∧
    sample_state.heap.lookup 3 = some ⟨2, [⟨2⟩, ⟨2⟩, ⟨1⟩], 1⟩ ∧
    ex.assign sample_state 2 2 = some sample_state :=
  ⟨by decide, by decide,
    (C15_assignment_same_node_safe sample_state 2 2 ⟨3⟩ ⟨3⟩ ⟨2, [⟨2⟩, ⟨2⟩, ⟨1⟩], 1⟩
      (by decide) (by decide) rfl (by decide) (by decide)).2⟩

/-! ### Zero test -/

/-- C19: `h.is_zero()` is `h.is_equal(_ex0)`; it returns true when `h` holds
the pointer of `_ex0`, without consulting the node; otherwise it is exactly
the result of the node's `is_equal` against the node of `_ex0`, so a handle on
a different node that this comparison finds equal to zero is reported zero. -/
theorem C19_is_zero_structural (v : basic_vtbl) (h : Heap) (_ex0 self : ex) :
    ex.is_zero v h _ex0 self = ex.is_equal v h self _ex0 ∧
    (self.bp = _ex0.bp → ex.is_zero v h _ex0 self = some true) ∧
    (self.bp ≠ _ex0.bp → ex.is_zero v h _ex0 self = v.is_equal h self.bp _ex0.bp) ∧
    (self.bp ≠ _ex0.bp → v.is_equal h self.bp _ex0.bp = some true →
      ex.is_zero v h _ex0 self = some true ∧ are_ex_trivially_equal self _ex0 = false) := by
  refine ⟨rfl, fun heq => ?_, fun hne => ?_, fun hne hv => ⟨?_, ?_⟩⟩
  · simp [ex.is_zero, ex.is_equal, heq]
  · simp [ex.is_zero, ex.is_equal, hne]
  · simp [ex.is_zero, ex.is_equal, hne, hv]
  · simp [are_ex_trivially_equal, hne]

/-- Witness of C19: in `twin_heap`, with `_ex0` on the object at 1, the handle
on the equal object at 2 is reported zero although the pointers differ. -/
theorem C19_is_zero_structural_witness :
    ex.is_zero sample_vtbl twin_heap ⟨1⟩ ⟨2⟩ = some true ∧
    are_ex_trivially_equal ⟨2⟩ ⟨1⟩ = false ∧
    ex.is_zero stuck_vtbl twin_heap ⟨1⟩ ⟨1⟩ = some true :=
  ⟨((C19_is_zero_structural sample_vtbl twin_heap ⟨1⟩ ⟨2⟩).2.2.2 (by decide) (by decide)).1,
    by decide, (C19_is_zero_structural stuck_vtbl twin_heap ⟨1⟩ ⟨1⟩).2.1 rfl⟩

/-! ### Type queries and downcast -/

/-- C12: when `is_a<T>(h)` returns true, `ex_to<T>(h)` returns, in every
build, a reference of class `T` to the object at the address `h` holds: the
same node, so a handle on it is trivially and structurally equal to `h`.  The
call leaves the state as it was: no node is created, no count and no handle
changes. -/
theorem C12_ex_to_same_node (checking : Bool) (c : class_hierarchy) (T : Nat) (s : State)
    (h : ex) (his : is_a c T s.heap h = some true) :
    ex_to checking c T s h = .value (⟨T, h.bp⟩, s) ∧
    are_ex_trivially_equal ⟨(typed_ref.mk T h.bp).addr⟩ h = true ∧
    ∀ v : basic_vtbl, ex.is_equal v s.heap ⟨(typed_ref.mk T h.bp).addr⟩ h = some true ∧
      ex.compare v s.heap ⟨(typed_ref.mk T h.bp).addr⟩ h = some 0 := by
  refine ⟨?_, by simp [are_ex_trivially_equal], fun v => by simp [ex.is_equal, ex.compare]⟩
  simp only [ex_to, his, GINAC_ASSERT, Bool.or_true, if_true]

/-- Witness of C12: the node at 3 of the sample state has class 2, which
derives from class 1. -/
theorem C12_ex_to_same_node_witness :
    is_a sample_hierarchy 1 sample_state.heap ⟨3⟩ = some true ∧
    ex_to true sample_hierarchy 1 sample_state ⟨3⟩ = .value (⟨1, 3⟩, sample_state) :=
  ⟨by decide, (C12_ex_to_same_node true sample_hierarchy 1 sample_state ⟨3⟩ (by decide)).1⟩

/-- C20: in a build that checks, `ex_to<T>(h)` stops at its failed
`GINAC_ASSERT(is_a<T>(h))` when `is_a<T>(h)` is false and returns no
reference, and returns the reference to the node of `h` when `is_a<T>(h)` is
true; in a build that does not check, the false case is undefined. -/
theorem C20_invalid_downcast_checked (c : class_hierarchy) (T : Nat) (s : State) (h : ex) :
    (is_a c T s.heap h = some false →
      ex_to true c T s h = .assertion_failed ∧ ex_to false c T s h = .undefined) ∧
    (is_a c T s.heap h = some true → ex_to true c T s h = .value (⟨T, h.bp⟩, s)) := by
  constructor
  · intro his
    simp [ex_to, his, GINAC_ASSERT]
  · intro his
    simp [ex_to, his, GINAC_ASSERT]

/-- Witness of C20: the node at 2 of the sample state has class 1, which is
not a class 2; the node at 3 has class 2. -/
theorem C20_invalid_downcast_checked_witness :
    is_a sample_hierarchy 2 sample_state.heap ⟨2⟩ = some false ∧
    ex_to true sample_hierarchy 2 sample_state ⟨2⟩ = .assertion_failed ∧
    ex_to true sample_hierarchy 2 sample_state ⟨3⟩ = .value (⟨2, 3⟩, sample_state) :=
  ⟨by decide,
    ((C20_invalid_downcast_checked sample_hierarchy 2 sample_state ⟨2⟩).1 (by decide)).1,
    (C20_invalid_downcast_checked sample_hierarchy 2 sample_state ⟨3⟩).2 (by decide)⟩

/-! ### Null checks -/

theorem HandleOp.step_vars (s s1 : State) (op : HandleOp) (hstep : op.step s = some s1) :
    ∀ o ∈ s1.vars, o ∈ s.vars ∨ o = none ∨ o = some ⟨s.num0_p⟩ ∨
      ∃ y e, s.var y = some e ∧ o = some ⟨e.bp⟩ := by
  intro o ho
  cases op with
  | ctor_default =>
    simp only [HandleOp.step, ex.ctor_default] at hstep
    split at hstep
    · simp only [Option.some.injEq] at hstep
      subst hstep
      rcases List.mem_append.mp ho with h | h
      · exact Or.inl h
      · exact Or.inr (Or.inr (Or.inl (List.mem_singleton.mp h)))
    · simp at hstep
  | ctor_copy other =>
    simp only [HandleOp.step, ex.ctor_copy] at hstep
    split at hstep
    · rename_i e he
      split at hstep
      · simp only [Option.some.injEq] at hstep
        subst hstep
        rcases List.mem_append.mp ho with h | h
        · exact Or.inl h
        · exact Or.inr (Or.inr (Or.inr ⟨other, e, he, List.mem_singleton.mp h⟩))
      · simp at hstep
    · simp at hstep
  | assign x other =>
    simp only [HandleOp.step, ex.assign] at hstep
    split at hstep
    · rename_i e e2 he he2
      split at hstep
      · split at hstep
        · simp only [Option.some.injEq] at hstep
          subst hstep
          rcases List.mem_or_eq_of_mem_set ho with h | h
          · exact Or.inl h
          · exact Or.inr (Or.inr (Or.inr ⟨other, e2, he2, h⟩))
        · simp at hstep
      · simp at hstep
    · simp at hstep
  | swap x other =>
    simp only [HandleOp.step, ex.swap] at hstep
    split at hstep
    · rename_i e e2 he he2
      simp only [Option.some.injEq] at hstep
      subst hstep
      rcases List.mem_or_eq_of_mem_set ho with h | h
      · rcases List.mem_or_eq_of_mem_set h with h1 | h1
        · exact Or.inl h1
        · exact Or.inr (Or.inr (Or.inr ⟨other, e2, he2, h1⟩))
      · exact Or.inr (Or.inr (Or.inr ⟨x, e, he, h⟩))
    · simp at hstep
  | dtor x =>
    simp only [HandleOp.step, ex.dtor] at hstep
    split at hstep
    · split at hstep
      · simp only [Option.some.injEq] at hstep
        subst hstep
        rcases List.mem_or_eq_of_mem_set ho with h | h
        · exact Or.inl h
        · exact Or.inr (Or.inl h)
      · simp at hstep
    · simp at hstep

theorem Heap.NonNull.after_set (h : Heap) (p : Ptr) (c : Option basic) (hh : h.NonNull)
    (hc : ∀ n ∈ c, ∀ e ∈ n.seq, e.bp ≠ 0) : Heap.NonNull (h.set p c) := by
  intro o ho
  rcases List.mem_or_eq_of_mem_set ho with h1 | h1
  · exact hh o h1
  · exact h1 ▸ hc

theorem Heap.NonNull.of_lookup (h : Heap) (p : Ptr) (n : basic) (hh : h.NonNull)
    (hn : h.lookup p = some n) : ∀ e ∈ n.seq, e.bp ≠ 0 :=
  hh _ (Heap.lookup_mem h p n hn) n rfl

theorem Heap.NonNull.after_incref (h h1 : Heap) (p : Ptr) (hh : h.NonNull)
    (hinc : h.incref p = some h1) : h1.NonNull := by
  simp only [Heap.incref] at hinc
  split at hinc
  · rename_i n hn
    simp only [Option.some.injEq] at hinc
    subst hinc
    refine Heap.NonNull.after_set h p _ hh fun m hm => ?_
    have hm1 : some { n with refcount := n.refcount + 1 } = some m := hm
    simp only [Option.some.injEq] at hm1
    subst hm1
    exact Heap.NonNull.of_lookup h p n hh hn
  · simp at hinc

theorem Heap.release_nonnull (fuel : Nat) :
    ∀ (h : Heap) (work : List ex), h.NonNull → (∀ e ∈ work, e.bp ≠ 0) →
      (∀ cond ∈ Heap.release_checks fuel h work, cond = true) ∧
      ∀ h1, Heap.release fuel h work = some h1 → h1.NonNull := by
  induction fuel with
  | zero =>
    intro h work hh _
    cases work with
    | nil =>
      refine ⟨by simp [Heap.release_checks], fun h1 hr => ?_⟩
      simp only [Heap.release, Option.some.injEq] at hr
      exact hr ▸ hh
    | cons e rest =>
      exact ⟨by simp [Heap.release_checks], fun h1 hr => by simp [Heap.release] at hr⟩
  | succ fuel ih =>
    intro h work hh hw
    cases work with
    | nil =>
      refine ⟨by simp [Heap.release_checks], fun h1 hr => ?_⟩
      simp only [Heap.release, Option.some.injEq] at hr
      exact hr ▸ hh
    | cons e rest =>
      have he : e.bp ≠ 0 := hw e (List.mem_cons_self _ _)
      have hrest : ∀ e1 ∈ rest, e1.bp ≠ 0 := fun e1 h1 => hw e1 (List.mem_cons_of_mem _ h1)
      cases hn : h.lookup e.bp with
      | none =>
        refine ⟨?_, fun h1 hr => by simp [Heap.release, hn] at hr⟩
        intro cond hc
        simp only [Heap.release_checks, hn, List.mem_singleton] at hc
        simp [hc, he]
      | some n =>
        have hseq := Heap.NonNull.of_lookup h e.bp n hh hn
        by_cases h0 : n.refcount = 0
        · refine ⟨?_, fun h1 hr => by simp [Heap.release, hn, h0] at hr⟩
          intro cond hc
          simp only [Heap.release_checks, hn, h0, if_true, List.mem_singleton] at hc
          simp [hc, he]
        · by_cases h1 : n.refcount - 1 = 0
          · have hnew : Heap.NonNull (h.set e.bp none) :=
              Heap.NonNull.after_set h e.bp none hh (fun m hm => by cases hm)
            have hwork : ∀ e1 ∈ n.seq ++ rest, e1.bp ≠ 0 := by
              intro e1 h2
              rcases List.mem_append.mp h2 with h3 | h3
              · exact hseq e1 h3
              · exact hrest e1 h3
            obtain ⟨ih1, ih2⟩ := ih (h.set e.bp none) (n.seq ++ rest) hnew hwork
            refine ⟨?_, fun h2 hr => ?_⟩
            · intro cond hc
              simp only [Heap.release_checks, hn, h0, h1, if_true, if_false,
                List.mem_cons] at hc
              rcases hc with hc | hc
              · simp [hc, he]
              · exact ih1 cond hc
            · simp only [Heap.release, hn, h0, h1, if_true, if_false] at hr
              exact ih2 h2 hr
          · have hnew : Heap.NonNull
                (h.set e.bp (some { n with refcount := n.refcount - 1 })) := by
              refine Heap.NonNull.after_set h e.bp _ hh fun m hm => ?_
              have hm1 : some { n with refcount := n.refcount - 1 } = some m := hm
              simp only [Option.some.injEq] at hm1
              subst hm1
              exact hseq
            obtain ⟨ih1, ih2⟩ := ih _ rest hnew hrest
            refine ⟨?_, fun h2 hr => ?_⟩
            · intro cond hc
              simp only [Heap.release_checks, hn, h0, h1, if_false, List.mem_cons] at hc
              rcases hc with hc | hc
              · simp [hc, he]
              · exact ih1 cond hc
            · simp only [Heap.release, hn, h0, h1, if_false] at hr
              exact ih2 h2 hr

theorem HandleOp.step_heap_nonnull (s s1 : State) (op : HandleOp) (h0 : s.NonNull)
    (hstep : op.step s = some s1) : s1.heap.NonNull := by
  obtain ⟨_, hvars, hheap⟩ := h0
  cases op with
  | ctor_default =>
    simp only [HandleOp.step, ex.ctor_default] at hstep
    split at hstep
    · rename_i heap hinc
      simp only [Option.some.injEq] at hstep
      subst hstep
      exact Heap.NonNull.after_incref _ _ _ hheap hinc
    · simp at hstep
  | ctor_copy other =>
    simp only [HandleOp.step, ex.ctor_copy] at hstep
    split at hstep
    · split at hstep
      · rename_i heap hinc
        simp only [Option.some.injEq] at hstep
        subst hstep
        exact Heap.NonNull.after_incref _ _ _ hheap hinc
      · simp at hstep
    · simp at hstep
  | assign x other =>
    simp only [HandleOp.step, ex.assign] at hstep
    split at hstep
    · rename_i e e2 he he2
      split at hstep
      · rename_i heap1 hinc
        split at hstep
        · rename_i heap2 hun
          simp only [Option.some.injEq] at hstep
          subst hstep
          have h1 := Heap.NonNull.after_incref _ _ _ hheap hinc
          have hw : ∀ e1 ∈ [e], e1.bp ≠ 0 := by
            intro e1 h2
            rw [List.mem_singleton.mp h2]
            exact hvars _ (s.var_mem x e he) e rfl
          exact (Heap.release_nonnull _ heap1 [e] h1 hw).2 heap2 hun
        · simp at hstep
      · simp at hstep
    · simp at hstep
  | swap x other =>
    simp only [HandleOp.step, ex.swap] at hstep
    split at hstep
    · simp only [Option.some.injEq] at hstep
      subst hstep
      exact hheap
    · simp at hstep
  | dtor x =>
    simp only [HandleOp.step, ex.dtor] at hstep
    split at hstep
    · rename_i e he
      split at hstep
      · rename_i heap hun
        simp only [Option.some.injEq] at hstep
        subst hstep
        have hw : ∀ e1 ∈ [e], e1.bp ≠ 0 := by
          intro e1 h2
          rw [List.mem_singleton.mp h2]
          exact hvars _ (s.var_mem x e he) e rfl
        exact (Heap.release_nonnull _ s.heap [e] hheap hw).2 heap hun
      · simp at hstep
    · simp at hstep

theorem ExOp.step_nonnull (s s1 : State) (op : ExOp) (h0 : s.NonNull)
    (hb : op.binds_node) (hstep : op.step s = some s1) : s1.NonNull := by
  have h00 := h0
  obtain ⟨hnum, hvars, hheap⟩ := h0
  cases op with
  | handle op =>
    have hstep1 : op.step s = some s1 := hstep
    refine ⟨(HandleOp.step_num0 s s1 op hstep1).symm ▸ hnum, fun o ho e he => ?_,
      HandleOp.step_heap_nonnull s s1 op h00 hstep1⟩
    have he : o = some e := he
    subst he
    rcases HandleOp.step_vars s s1 op hstep1 _ ho with h | h | h | ⟨y, e2, hy, h⟩
    · exact hvars _ h e rfl
    · simp at h
    · simp only [Option.some.injEq] at h
      subst h
      exact hnum
    · simp only [Option.some.injEq] at h
      subst h
      exact hvars _ (s.var_mem y e2 hy) e2 rfl
  | ctor_from helper =>
    simp only [ExOp.step, ex.ctor_from] at hstep
    split at hstep
    · rename_i heap p hh
      simp only [Option.some.injEq] at hstep
      subst hstep
      refine ⟨hnum, fun o ho e he => ?_, (hb s heap p hh).2 hheap⟩
      have he : o = some e := he
      subst he
      rcases List.mem_append.mp ho with h | h
      · exact hvars _ h e rfl
      · have : e = ⟨p⟩ := by simpa using h
        subst this
        exact (hb s heap p hh).1
    · simp at hstep

theorem ExOp.run_nonnull (s0 : State) (ops : List ExOp) (s : State) (h0 : s0.NonNull)
    (hb : ∀ op ∈ ops, op.binds_node) (hrun : ExOp.run s0 ops = some s) : s.NonNull := by
  induction ops generalizing s0 with
  | nil =>
    simp only [ExOp.run, Option.some.injEq] at hrun
    exact hrun ▸ h0
  | cons op ops ih =>
    simp only [ExOp.run] at hrun
    cases hstep : op.step s0 with
    | none => simp [hstep] at hrun
    | some s1 =>
      simp only [hstep] at hrun
      exact ih s1 (ExOp.step_nonnull s0 s1 op h0 (hb op (List.mem_cons_self _ _)) hstep)
        (fun o ho => hb o (List.mem_cons_of_mem _ ho)) hrun

theorem sample_helper_binds (p : Ptr) (hp : p ≠ 0) :
    ExOp.binds_node (.ctor_from (sample_helper p)) := by
  intro s heap q hh
  simp only [sample_helper] at hh
  split at hh
  · rename_i heap1 hinc
    simp only [Option.some.injEq, Prod.mk.injEq] at hh
    obtain ⟨rfl, rfl⟩ := hh
    exact ⟨hp, fun h0 => Heap.NonNull.after_incref _ _ _ h0 hinc⟩
  · simp at hh

/-- C13: from a state in which `_num0_p` and the pointer of every live handle
(the handle objects and the operand handles inside live nodes) are not null,
every state reached by the constructors (the default one and those that go
through a `construct_from_*` helper, assumed to bind a node), copy
construction, assignment, swap and destruction has every live handle's
pointer not null; hence, in every build, every `GINAC_ASSERT(bp!=0)` and
`GINAC_ASSERT(other.bp!=0)` of swap, the destructor (that of a handle object
and that of each operand handle of a node that is deleted, in the destructor
and in assignment, however long the chain of deletions), the default and copy
constructors, assignment, `compare` and `is_equal` lets execution continue. -/
theorem C13_handles_never_null (s0 : State) (ops : List ExOp) (s : State)
    (h0 : s0.NonNull) (hb : ∀ op ∈ ops, op.binds_node)
    (hrun : ExOp.run s0 ops = some s) :
    (∀ e, s.live_handle e → e.bp ≠ 0) ∧
    (∀ x e, s.var x = some e → e.bp ≠ 0) ∧
    (∀ p n, s.heap.lookup p = some n → ∀ e ∈ n.seq, e.bp ≠ 0) ∧
    (∀ (op : HandleOp) (checking : Bool), ∀ cond ∈ op.null_checks s,
      GINAC_ASSERT checking cond = true) ∧
    (∀ a b, s.live_handle a → s.live_handle b →
      ∀ (checking : Bool), ∀ cond ∈ ex.compare_null_checks a b,
        GINAC_ASSERT checking cond = true) ∧
    (∀ (fuel : Nat) (e : ex), s.live_handle e →
      ∀ (checking : Bool), ∀ cond ∈ Heap.release_checks fuel s.heap [e],
        GINAC_ASSERT checking cond = true) := by
  obtain ⟨hnum, hvars, hheap⟩ := ExOp.run_nonnull s0 ops s h0 hb hrun
  have hvar : ∀ x e, s.var x = some e → e.bp ≠ 0 :=
    fun x e hx => hvars _ (s.var_mem x e hx) e rfl
  have hopd : ∀ p n, s.heap.lookup p = some n → ∀ e ∈ n.seq, e.bp ≠ 0 :=
    fun p n hn => Heap.NonNull.of_lookup s.heap p n hheap hn
  have hlive : ∀ e, s.live_handle e → e.bp ≠ 0 := by
    rintro e (⟨x, hx⟩ | ⟨p, n, hn, he⟩)
    · exact hvar x e hx
    · exact hopd p n hn e he
  refine ⟨hlive, hvar, hopd, fun op checking cond hc => ?_,
    fun a b ha hb1 checking cond hc => ?_, fun fuel e he checking cond hc => ?_⟩
  · have htrue : cond = true := by
      cases op with
      | ctor_default =>
        simp only [HandleOp.null_checks, List.mem_singleton] at hc
        simp [hc, hnum]
      | ctor_copy other =>
        simp only [HandleOp.null_checks] at hc
        split at hc
        · rename_i o ho
          simp only [List.mem_singleton] at hc
          simp [hc, hvar other o ho]
        · simp at hc
      | assign x other =>
        simp only [HandleOp.null_checks] at hc
        split at hc
        · rename_i e o he ho
          rcases List.mem_append.mp hc with hc | hc
          · simp only [List.mem_cons, List.mem_singleton, List.not_mem_nil, or_false] at hc
            rcases hc with hc | hc
            · simp [hc, hvar x e he]
            · simp [hc, hvar other o ho]
          · split at hc
            · rename_i heap1 hinc
              have h1 := Heap.NonNull.after_incref _ _ _ hheap hinc
              have hw : ∀ e1 ∈ [e], e1.bp ≠ 0 := by
                intro e1 h2
                rw [List.mem_singleton.mp h2]
                exact hvar x e he
              exact (Heap.release_nonnull _ heap1 [e] h1 hw).1 cond (List.mem_of_mem_tail hc)
            · simp at hc
        · simp at hc
      | swap x other =>
        simp only [HandleOp.null_checks] at hc
        split at hc
        · rename_i e o he ho
          simp only [List.mem_cons, List.mem_singleton, List.not_mem_nil, or_false] at hc
          rcases hc with hc | hc
          · simp [hc, hvar x e he]
          · simp [hc, hvar other o ho]
        · simp at hc
      | dtor x =>
        simp only [HandleOp.null_checks] at hc
        split at hc
        · rename_i e he
          have hw : ∀ e1 ∈ [e], e1.bp ≠ 0 := by
            intro e1 h2
            rw [List.mem_singleton.mp h2]
            exact hvar x e he
          exact (Heap.release_nonnull _ s.heap [e] hheap hw).1 cond hc
        · simp at hc
    simp [GINAC_ASSERT, htrue]
  · simp only [ex.compare_null_checks, List.mem_cons, List.mem_singleton, List.not_mem_nil,
      or_false] at hc
    rcases hc with hc | hc
    · simp [GINAC_ASSERT, hc, hlive a ha]
    · simp [GINAC_ASSERT, hc, hlive b hb1]
  · have hw : ∀ e1 ∈ [e], e1.bp ≠ 0 := by
      intro e1 h2
      rw [List.mem_singleton.mp h2]
      exact hlive e he
    simp [GINAC_ASSERT, (Heap.release_nonnull fuel s.heap [e] hheap hw).1 cond hc]

/-- Witness of C13: a run from the sample state that uses a helper
constructor and all five handle operations; its last operation destroys the
last handle of the node at 3, whose three operand handles are destroyed with
it, four destructor checks in all. -/
theorem C13_handles_never_null_witness :
    sample_state.NonNull ∧ ExOp.run sample_state sample_ex_ops = some sample_ex_final ∧
    HandleOp.null_checks sample_state (.dtor 2) = [true, true, true, true] ∧
    (∀ e, sample_ex_final.live_handle e → e.bp ≠ 0) ∧
    ∀ (checking : Bool), ∀ cond ∈ HandleOp.null_checks sample_ex_final (.dtor 0),
      GINAC_ASSERT checking cond = true := by
  have hb : ∀ op ∈ sample_ex_ops, op.binds_node := by
    intro op hop
    simp only [sample_ex_ops, List.mem_cons, List.mem_singleton, List.not_mem_nil,
      or_false] at hop
    rcases hop with rfl | rfl | rfl | rfl | rfl | rfl
    · exact sample_helper_binds 2 (by decide)
    all_goals trivial
  have h := C13_handles_never_null sample_state sample_ex_ops sample_ex_final (by decide) hb
    (by decide)
  exact ⟨by decide, by decide, by decide, h.1, fun checking => h.2.2.2.1 (.dtor 0) checking⟩

/-! ### Container initialisation -/

theorem Sequences.lookup_after_set {T : Type} (m : Sequences T) (r q : Nat) (x : Option (List T))
    (hr : r < m.length) :
    Sequences.lookup (m.set r x) q = if r = q then x else m.lookup q := by
  simp only [Sequences.lookup, List.getD_eq_getElem?_getD, List.getElem?_set, hr, if_true]
  split_ifs <;> rfl

theorem Sequences.lookup_in_range {T : Type} (m : Sequences T) (r : Nat) (l : List T)
    (hl : m.lookup r = some l) : r < m.length := by
  by_contra hge
  simp [Sequences.lookup, List.getD_eq_getElem?_getD, List.getElem?_eq_none (not_lt.mp hge)] at hl

theorem container_init.comma_any_eq {T : Type} (c : conversions T) (self : container_init)
    (m : Sequences T) (v : literal T) :
    self.comma_any c m v = self.comma m (v.convert c) := by
  cases v <;> rfl

theorem container_init.comma_spec {T : Type} (self : container_init) (m : Sequences T)
    (l : List T) (x : T) (hl : m.lookup self.stlt = some l) :
    self.comma m x = some (m.set self.stlt (some (l ++ [x])), ⟨self.stlt⟩) := by
  simp only [container_init.comma, push_back, hl, container_init.init]

theorem container_init.chain_spec {T : Type} (c : conversions T) (r : Nat) :
    ∀ (vs : List (literal T)) (m : Sequences T) (l : List T), m.lookup r = some l →
      container_init.chain c m ⟨r⟩ vs
        = some (m.set r (some (l ++ vs.map (literal.convert c))), ⟨r⟩) ∧
      push_back_all m r (vs.map (literal.convert c))
        = some (m.set r (some (l ++ vs.map (literal.convert c)))) := by
  intro vs
  induction vs with
  | nil =>
    intro m l hl
    have hself : m.set r (some l) = m := by
      have hlt := Sequences.lookup_in_range m r l hl
      simp only [Sequences.lookup, List.getD_eq_getElem?_getD, List.getElem?_eq_getElem hlt,
        Option.getD_some] at hl
      apply List.ext_getElem?
      intro j
      rw [List.getElem?_set]
      split_ifs with hj
      · subst hj
        rw [List.getElem?_eq_getElem hlt, hl]
      · rfl
    simp [container_init.chain, push_back_all, hself]
  | cons v vs ih =>
    intro m l hl
    have hlt := Sequences.lookup_in_range m r l hl
    have hstep := container_init.comma_spec ⟨r⟩ m l (v.convert c) hl
    have hat : Sequences.lookup (m.set r (some (l ++ [v.convert c]))) r
        = some (l ++ [v.convert c]) := by
      rw [Sequences.lookup_after_set m r r _ hlt]; simp
    obtain ⟨h1, h2⟩ := ih (m.set r (some (l ++ [v.convert c]))) (l ++ [v.convert c]) hat
    simp only [List.set_set, List.append_assoc, List.singleton_append] at h1 h2
    constructor
    · simp only [container_init.chain, container_init.comma_any_eq, hstep, h1, List.map_cons]
    · simp only [List.map_cons, push_back_all, push_back, hl, h2]

/-- C11: for a live sequence with elements `s0` and values `v1..vn` of any
supported kinds, the chained expression `(container_init(s), v1, ..., vn)`
succeeds and leaves the sequence equal to `s0` followed by `T(v1), ...,
T(vn)` in that order, every other sequence being as before; this is the state
that `push_back` called for `T(v1), ..., T(vn)` in order leaves; each comma
appends exactly one element after the elements already there and returns a
builder bound to the same sequence. -/
theorem C11_builder_equals_push_back {T : Type} (c : conversions T) (m : Sequences T)
    (r : Nat) (s0 : List T) (vs : List (literal T)) (hs : m.lookup r = some s0) :
    ∃ m1, container_init.chain c m (container_init.init r) vs = some (m1, ⟨r⟩) ∧
      m1.lookup r = some (s0 ++ vs.map (literal.convert c)) ∧
      (∀ q, q ≠ r → m1.lookup q = m.lookup q) ∧
      push_back_all m r (vs.map (literal.convert c)) = some m1 ∧
      (∀ v : literal T, ∃ m2 b2, (container_init.init r).comma_any c m v = some (m2, b2) ∧
        b2.stlt = r ∧ m2.lookup r = some (s0 ++ [v.convert c]) ∧
        (∀ q, q ≠ r → m2.lookup q = m.lookup q)) := by
  have hlt := Sequences.lookup_in_range m r s0 hs
  obtain ⟨h1, h2⟩ := container_init.chain_spec c r vs m s0 hs
  refine ⟨_, h1, ?_, fun q hq => ?_, h2, fun v => ?_⟩
  · rw [Sequences.lookup_after_set m r r _ hlt]; simp
  · rw [Sequences.lookup_after_set m r q _ hlt]; simp [Ne.symm hq]
  · refine ⟨m.set r (some (s0 ++ [v.convert c])), ⟨r⟩, ?_, rfl, ?_, fun q hq => ?_⟩
    · rw [container_init.comma_any_eq]
      exact container_init.comma_spec ⟨r⟩ m s0 (v.convert c) hs
    · rw [Sequences.lookup_after_set m r r _ hlt]; simp
    · rw [Sequences.lookup_after_set m r q _ hlt]; simp [Ne.symm hq]

/-- Witness of C11: the sequence `[7]`, next to another sequence, and values
of five kinds. -/
theorem C11_builder_equals_push_back_witness :
    Sequences.lookup [some [7], some [1, 2]] 0 = some [7] ∧
    ∃ m1, container_init.chain sample_conversions [some [7], some [1, 2]]
        (container_init.init 0) [.int (-3), .elem 4, .sym ⟨9⟩, .ulong 5, .dbl ⟨8⟩]
        = some (m1, ⟨0⟩) ∧
      m1.lookup 0 = some [7, -3, 4, 9, 5, 8] ∧ m1.lookup 1 = some [1, 2] := by
  obtain ⟨m1, h1, h2, h3, _⟩ := C11_builder_equals_push_back sample_conversions
    [some [7], some [1, 2]] 0 [7] [.int (-3), .elem 4, .sym ⟨9⟩, .ulong 5, .dbl ⟨8⟩]
    (by decide)
  exact ⟨by decide, m1, h1, h2, (h3 1 (by decide)).trans (by decide)⟩

/-- C18: each dedicated `operator,` (for `int`, `unsigned int`, `long`,
`unsigned long`, `double`, and `symbol`, which is wrapped as `T(x)`) gives
what the `const T &` one gives for the value converted to `T`; and on a live
sequence every one of them, like the generic one, succeeds and leaves the
sequence with its former elements followed by exactly that one element. -/
theorem C18_dedicated_paths_agree {T : Type} (c : conversions T) (self : container_init)
    (m : Sequences T) :
    (∀ x, self.comma_int c m x = self.comma m (c.of_int x)) ∧
    (∀ x, self.comma_uint c m x = self.comma m (c.of_uint x)) ∧
    (∀ x, self.comma_long c m x = self.comma m (c.of_long x)) ∧
    (∀ x, self.comma_ulong c m x = self.comma m (c.of_ulong x)) ∧
    (∀ x, self.comma_double c m x = self.comma m (c.of_double x)) ∧
    (∀ x, self.comma_symbol c m x = self.comma m (c.of_symbol x)) ∧
    (∀ (l : List T) (v : literal T), m.lookup self.stlt = some l →
      ∃ m1 b1, self.comma_any c m v = some (m1, b1) ∧
        m1.lookup self.stlt = some (l ++ [v.convert c]) ∧
        (∀ q, q ≠ self.stlt → m1.lookup q = m.lookup q)) := by
  refine ⟨fun _ => rfl, fun _ => rfl, fun _ => rfl, fun _ => rfl, fun _ => rfl,
    fun _ => rfl, fun l v hl => ?_⟩
  have hlt := Sequences.lookup_in_range m self.stlt l hl
  refine ⟨m.set self.stlt (some (l ++ [v.convert c])), ⟨self.stlt⟩, ?_, ?_, fun q hq => ?_⟩
  · rw [container_init.comma_any_eq]
    exact container_init.comma_spec self m l (v.convert c) hl
  · rw [Sequences.lookup_after_set m self.stlt self.stlt _ hlt]; simp
  · rw [Sequences.lookup_after_set m self.stlt q _ hlt]; simp [Ne.symm hq]

/-- Witness of C18: a symbol appended to the sequence `[7]`. -/
theorem C18_dedicated_paths_agree_witness :
    container_init.comma_symbol sample_conversions ⟨0⟩ [some [7]] ⟨9⟩
      = container_init.comma ⟨0⟩ [some [7]] 9 ∧
    container_init.comma_symbol sample_conversions ⟨0⟩ [some [7]] ⟨9⟩
      = some ([some [7, 9]], ⟨0⟩) :=
  ⟨(C18_dedicated_paths_agree sample_conversions ⟨0⟩ [some [7]]).2.2.2.2.2.1 ⟨9⟩, by decide⟩

/-! ### The polynomial check -/

theorem expr.is_polynomial_of_free (s : GiNaC.symbol) (e : expr) (hfree : e.has s = false) :
    e.is_polynomial s = true := by
  induction e with
  | numeric n => rfl
  | symbol x => rfl
  | add a b iha ihb =>
    simp only [expr.has, Bool.or_eq_false_iff] at hfree
    simp [expr.is_polynomial, iha hfree.1, ihb hfree.2]
  | mul a b iha ihb =>
    simp only [expr.has, Bool.or_eq_false_iff] at hfree
    simp [expr.is_polynomial, iha hfree.1, ihb hfree.2]
  | power b e _ _ =>
    simp only [expr.has, Bool.or_eq_false_iff] at hfree
    simp [expr.is_polynomial, hfree.1, hfree.2]
  | function name a _ =>
    simp only [expr.has] at hfree
    simp [expr.is_polynomial, hfree]

theorem expr.is_polynomial_foldl (s : GiNaC.symbol) :
    ∀ (rest : List expr) (t : expr), t.is_polynomial s = true →
      (∀ u ∈ rest, u.is_polynomial s = true) →
      (rest.foldl expr.add t).is_polynomial s = true := by
  intro rest
  induction rest with
  | nil => intro t ht _; exact ht
  | cons u rest ih =>
    intro t ht hall
    rw [List.foldl_cons]
    apply ih
    · simp [expr.is_polynomial, ht, hall u (List.mem_cons_self _ _)]
    · exact fun w hw => hall w (List.mem_cons_of_mem _ hw)

theorem expr.is_polynomial_sum (s : GiNaC.symbol) (terms : List expr)
    (hall : ∀ t ∈ terms, t.is_polynomial s = true) :
    (expr.sum terms).is_polynomial s = true := by
  cases terms with
  | nil => rfl
  | cons t rest =>
    exact expr.is_polynomial_foldl s rest t (hall t (List.mem_cons_self _ _))
      (fun w hw => hall w (List.mem_cons_of_mem _ hw))

/-- C14: for distinct symbols `x` and `s`, `is_polynomial(s)` is true on
`e = sin(x) + 2*s` and on `g = pow(2, x) + 2*s`, so both calls of `do_test`
return and the check's `main` returns 0; and a sum whose terms are each
either independent of `s` or a number times `s` is polynomial in `s`. -/
theorem C14_polynomial_scenario (x s : symbol) (hxs : x ≠ s) :
    (check_e x s).is_polynomial s = true ∧
    (check_g x s).is_polynomial s = true ∧
    do_test (check_e x s) s = some () ∧ do_test (check_g x s) s = some () ∧
    check_main x s = some 0 ∧
    (∀ terms : List expr,
      (∀ t ∈ terms, t.has s = false ∨ ∃ c : Int, t = .mul (.numeric c) (.symbol s)) →
      (expr.sum terms).is_polynomial s = true) := by
  have he : (check_e x s).is_polynomial s = true := by
    simp [check_e, expr.is_polynomial, expr.has, hxs]
  have hg : (check_g x s).is_polynomial s = true := by
    simp [check_g, expr.is_polynomial, expr.has, hxs]
  refine ⟨he, hg, by simp [do_test, he], by simp [do_test, hg],
    by simp [check_main, do_test, he, hg], fun terms hterms => ?_⟩
  apply expr.is_polynomial_sum s terms
  intro t ht
  rcases hterms t ht with hfree | ⟨c, rfl⟩
  · exact expr.is_polynomial_of_free s t hfree
  · rfl

/-- Witness of C14: the symbols with serial numbers 0 and 1. -/
theorem C14_polynomial_scenario_witness :
    (⟨0⟩ : symbol) ≠ ⟨1⟩ ∧ check_main ⟨0⟩ ⟨1⟩ = some 0 ∧
    (check_e ⟨1⟩ ⟨1⟩).is_polynomial ⟨1⟩ = false :=
  ⟨by decide, (C14_polynomial_scenario ⟨0⟩ ⟨1⟩ (by decide)).2.2.2.2.1, by decide⟩

/-! ### Iterator order -/

/-- C22, as amended: for iterators `p` and `q` over one node (their indices
`size_t` values), exactly one of `p < q`, `p == q`, `q < p` holds; `p > q` is
`q < p`; `p <= q` is `p < q || p == q`; `p >= q` is `q <= p`; the order is the
order of the indices.  `p < q` holds exactly when the distance `q - p` is
positive provided the indices differ by less than 2^63, as any two indices
below 2^63 do; when the index of `q` exceeds that of `p` by 2^63 or more,
`p < q` holds and the distance `q - p` is negative. -/
theorem C22_iterator_order (p q : ex.const_iterator) (hbp : p.bp = q.bp)
    (hp : p.i < SIZE_MOD) (hq : q.i < SIZE_MOD) :
    ((p.lt q = true ∧ p.eq q = false ∧ q.lt p = false) ∨
      (p.lt q = false ∧ p.eq q = true ∧ q.lt p = false) ∨
      (p.lt q = false ∧ p.eq q = false ∧ q.lt p = true)) ∧
    p.gt q = q.lt p ∧
    p.le q = (p.lt q || p.eq q) ∧
    p.ge q = q.le p ∧
    (p.lt q = true ↔ p.i < q.i) ∧
    (((q.i : Int) - (p.i : Int)).natAbs < 2 ^ 63 → (p.lt q = true ↔ 0 < q.distance p)) ∧
    (p.i < 2 ^ 63 → q.i < 2 ^ 63 → (p.lt q = true ↔ 0 < q.distance p)) ∧
    (p.i + 2 ^ 63 ≤ q.i → p.lt q = true ∧ q.distance p < 0) := by
  have hlt : ∀ a b : ex.const_iterator, a.lt b = decide (a.i < b.i) := fun _ _ => rfl
  have hdist : ∀ a b : ex.const_iterator, a.i < SIZE_MOD → b.i < SIZE_MOD →
      ((b.i : Int) - (a.i : Int)).natAbs < 2 ^ 63 →
      (a.lt b = true ↔ 0 < b.distance a) := by
    intro a b ha hb hd
    simp only [ex.const_iterator.lt, decide_eq_true_eq, ex.const_iterator.distance,
      to_ptrdiff_t, to_size_t, SIZE_MOD, Nat.reducePow, Nat.cast_ofNat] at *
    split_ifs <;> omega
  refine ⟨?_, rfl, ?_, rfl, by simp [hlt], hdist p q hp hq, fun h1 h2 => ?_, fun h => ?_⟩
  · simp only [hlt, ex.const_iterator.eq, hbp, decide_True, Bool.true_and, decide_eq_true_eq,
      decide_eq_false_iff_not]
    omega
  · simp only [ex.const_iterator.le, hlt, ex.const_iterator.eq, hbp, decide_True,
      Bool.true_and]
    rcases Nat.lt_trichotomy p.i q.i with h | h | h
    · have h1 : ¬ q.i < p.i := by omega
      have h2 : ¬ p.i = q.i := by omega
      simp [h, h1, h2]
    · simp [h]
    · have h1 : ¬ p.i < q.i := by omega
      have h2 : ¬ p.i = q.i := by omega
      simp [h, h1, h2]
  · exact hdist p q hp hq (by omega)
  · simp only [ex.const_iterator.lt, decide_eq_true_eq, ex.const_iterator.distance,
      to_ptrdiff_t, to_size_t, SIZE_MOD, Nat.reducePow, Nat.cast_ofNat] at *
    split_ifs <;> omega

/-- Witness of C22: the iterators at indices 0 and 2 over the node at 4. -/
theorem C22_iterator_order_witness :
    ex.const_iterator.lt ⟨4, 0⟩ ⟨4, 2⟩ = true ∧ ex.const_iterator.eq ⟨4, 0⟩ ⟨4, 2⟩ = false ∧
    ex.const_iterator.lt ⟨4, 2⟩ ⟨4, 0⟩ = false ∧
    ex.const_iterator.le ⟨4, 0⟩ ⟨4, 2⟩ = true ∧
    ex.const_iterator.ge ⟨4, 0⟩ ⟨4, 2⟩ = ex.const_iterator.le ⟨4, 2⟩ ⟨4, 0⟩ ∧
    0 < ex.const_iterator.distance ⟨4, 2⟩ ⟨4, 0⟩ := by
  have h := C22_iterator_order ⟨4, 0⟩ ⟨4, 2⟩ rfl (by decide) (by decide)
  refine ⟨by decide, by decide, by decide, ?_, h.2.2.2.1, ?_⟩
  · rw [h.2.2.1]; decide
  · exact (h.2.2.2.2.2.2.1 (by norm_num) (by norm_num)).mp (by decide)

/-- Counterexample to C22 as stated: `p = h.begin()` and `q` the iterator
`h.begin()` decremented, over the node at 4.  The index of `q` is 2^64 - 1, so
`p < q` holds, and the distance `q - p` is -1, which is not positive. -/
theorem C22_counterexample :
    (ex.begin ⟨4⟩).bp = (ex.begin ⟨4⟩).dec.bp ∧
    (ex.begin ⟨4⟩).dec.i = 2 ^ 64 - 1 ∧
    (ex.begin ⟨4⟩).lt (ex.begin ⟨4⟩).dec = true ∧
    (ex.begin ⟨4⟩).dec.distance (ex.begin ⟨4⟩) = -1 ∧
    ¬ ((ex.begin ⟨4⟩).lt (ex.begin ⟨4⟩).dec = true ↔
      0 < (ex.begin ⟨4⟩).dec.distance (ex.begin ⟨4⟩)) := by
  have hi : (ex.begin ⟨4⟩).dec.i = 2 ^ 64 - 1 := by
    simp only [ex.begin, ex.const_iterator.dec, to_size_t, SIZE_MOD, Nat.reducePow,
      Nat.cast_ofNat]
    omega
  have hd : (ex.begin ⟨4⟩).dec.distance (ex.begin ⟨4⟩) = -1 := by
    simp only [ex.const_iterator.distance, hi]
    simp only [ex.begin, to_ptrdiff_t, to_size_t, SIZE_MOD, Nat.reducePow, Nat.cast_ofNat]
    split_ifs <;> omega
  have hl : (ex.begin ⟨4⟩).lt (ex.begin ⟨4⟩).dec = true := by
    simp only [ex.const_iterator.lt, hi]
    simp [ex.begin]
  refine ⟨rfl, hi, hl, hd, ?_⟩
  rw [hd]
  simp [hl]

/-! ### Operand access out of range -/

theorem asserting_nodes_reports (s : State) (p : Ptr) (n : basic) (i : Nat)
    (hn : s.heap.lookup p = some n) (hi : n.seq.length ≤ i) :
    asserting_nodes.op true s p i = .assertion_failed ∧
    asserting_nodes.op false s p i = .undefined := by
  have hnops : basic.nops s.heap p = some n.seq.length := by simp [basic.nops, hn]
  have hlt : ¬ i < n.seq.length := by omega
  have hget : n.seq[i]? = none := List.getElem?_eq_none hi
  constructor
  · simp [asserting_nodes, hnops, GINAC_ASSERT, hlt]
  · simp [asserting_nodes, hnops, GINAC_ASSERT, basic.op, hn, hget]

theorem begin_dec_index (h : ex) : (ex.begin h).dec = ⟨h.bp, SIZE_MOD - 1⟩ := by
  simp only [ex.begin, ex.const_iterator.dec, ex.const_iterator.mk.injEq, true_and, to_size_t,
    SIZE_MOD, Nat.reducePow, Nat.cast_ofNat]
  omega

/-- C21, as amended: the handle and the iterator make no test of the index in
any build.  For a handle `h` on a node with `n` operands (`n` below 2^64),
`h.op(i)` and the dereference of an iterator end as the node's own
`bp->op(i)` ends, called with the index unchanged; `h.end()` carries the
index `n` and `h.begin()` decremented the index 2^64 - 1, both out of range.
So an index `i >= n` is reported in a checking build exactly when the node's
`op` reports it, as node classes that assert `i < nops()` do. -/
theorem C21_index_check_left_to_node (v : node_vtbl) (checking : Bool) (s : State) (h : ex)
    (n : basic) (hn : s.heap.lookup h.bp = some n) (hsz : n.seq.length < SIZE_MOD) :
    (∀ i, ex.op_build v checking s h i = v.op checking s h.bp i) ∧
    (∀ it : ex.const_iterator, it.deref_build v checking s = v.op checking s it.bp it.i) ∧
    ex.end_ s h = some ⟨h.bp, n.seq.length⟩ ∧
    (ex.begin h).dec = ⟨h.bp, SIZE_MOD - 1⟩ ∧ n.seq.length ≤ SIZE_MOD - 1 ∧
    (∀ i, n.seq.length ≤ i →
      (ex.op_build v true s h i = .assertion_failed ↔
        v.op true s h.bp i = .assertion_failed) ∧
      (ex.const_iterator.deref_build v true s ⟨h.bp, i⟩ = .assertion_failed ↔
        v.op true s h.bp i = .assertion_failed)) ∧
    (∀ i, n.seq.length ≤ i →
      ex.op_build asserting_nodes true s h i = .assertion_failed) ∧
    ex.const_iterator.deref_build asserting_nodes true s ⟨h.bp, n.seq.length⟩
      = .assertion_failed ∧
    (ex.begin h).dec.deref_build asserting_nodes true s = .assertion_failed := by
  have hend : ex.end_ s h = some ⟨h.bp, n.seq.length⟩ := by
    simp [ex.end_, basic.nops, hn]
  refine ⟨fun _ => rfl, fun _ => rfl, hend, begin_dec_index h, by omega,
    fun i _ => ⟨Iff.rfl, Iff.rfl⟩, fun i hi => ?_, ?_, ?_⟩
  · exact (asserting_nodes_reports s h.bp n i hn hi).1
  · exact (asserting_nodes_reports s h.bp n _ hn (le_refl _)).1
  · rw [begin_dec_index]
    exact (asserting_nodes_reports s h.bp n _ hn (Nat.le_sub_one_of_lt hsz)).1

/-- Witness of C21: the handle on the node at 4 of `triple_state`, which has
three operands; `h.op(3)`, `*h.end()` and `*--h.begin()` with node classes
that assert the index. -/
theorem C21_index_check_left_to_node_witness :
    triple_state.heap.lookup 4 = some ⟨2, [⟨2⟩, ⟨3⟩, ⟨1⟩], 1⟩ ∧
    ex.op_build asserting_nodes true triple_state ⟨4⟩ 3 = .assertion_failed ∧
    ex.end_ triple_state ⟨4⟩ = some ⟨4, 3⟩ ∧
    ex.const_iterator.deref_build asserting_nodes true triple_state ⟨4, 3⟩
      = .assertion_failed ∧
    (ex.begin ⟨4⟩).dec.deref_build asserting_nodes true triple_state = .assertion_failed := by
  have h := C21_index_check_left_to_node asserting_nodes true triple_state ⟨4⟩
    ⟨2, [⟨2⟩, ⟨3⟩, ⟨1⟩], 1⟩ (by decide) (by decide)
  exact ⟨by decide, h.2.2.2.2.2.2.1 3 (le_refl _), h.2.2.1, h.2.2.2.2.2.2.2.1,
    h.2.2.2.2.2.2.2.2⟩

/-- Counterexample to C21 as stated: a build that checks, the handle on the
node at 4 of `triple_state` (three operands) and node classes whose `op` reads
the operand list without a test.  `h.op(3)`, `*h.end()` and `*--h.begin()`
are not stopped by the handle or the iterator: each goes on into the node's
`op` and ends as it does, undefined, as in a build that does not check. -/
theorem C21_counterexample :
    triple_state.heap.lookup 4 = some ⟨2, [⟨2⟩, ⟨3⟩, ⟨1⟩], 1⟩ ∧
    ex.op_build fast_nodes true triple_state ⟨4⟩ 3 = .undefined ∧
    ex.end_ triple_state ⟨4⟩ = some ⟨4, 3⟩ ∧
    ex.const_iterator.deref_build fast_nodes true triple_state ⟨4, 3⟩ = .undefined ∧
    (ex.begin ⟨4⟩).dec.deref_build fast_nodes true triple_state = .undefined ∧
    ex.op_build fast_nodes true triple_state ⟨4⟩ 3
      = ex.op_build fast_nodes false triple_state ⟨4⟩ 3 ∧
    ¬ (∀ (v : node_vtbl) (s : State) (h : ex) (n : basic) (i : Nat),
      s.heap.lookup h.bp = some n → n.seq.length ≤ i →
      ex.op_build v true s h i = .assertion_failed) := by
  have hop : ex.op_build fast_nodes true triple_state ⟨4⟩ 3 = .undefined := by decide
  refine ⟨by decide, hop, by decide, by decide, ?_, rfl, fun hall => ?_⟩
  · have hidx : (ex.begin ⟨4⟩).dec = ⟨4, SIZE_MOD - 1⟩ := by
      simp only [ex.begin, ex.const_iterator.dec, ex.const_iterator.mk.injEq, true_and,
        to_size_t, SIZE_MOD, Nat.reducePow, Nat.cast_ofNat]
      omega
    rw [hidx]
    have hget : ([⟨2⟩, ⟨3⟩, ⟨1⟩] : List ex)[SIZE_MOD - 1]? = none :=
      List.getElem?_eq_none (by simp [SIZE_MOD])
    have hl : triple_state.heap.lookup 4 = some ⟨2, [⟨2⟩, ⟨3⟩, ⟨1⟩], 1⟩ := by decide
    simp [ex.const_iterator.deref_build, fast_nodes, basic.op, hl, hget]
  · have h3 := hall fast_nodes triple_state ⟨4⟩ ⟨2, [⟨2⟩, ⟨3⟩, ⟨1⟩], 1⟩ 3 (by decide) (by decide)
    rw [hop] at h3
    exact Outcome.noConfusion h3

end GiNaC
